import Mathlib

/-!
Verification development for the WordClipboard2Latex backend.

The Python sources under `backend/` are shallowly embedded as executable
Lean definitions over `List Char` / `String`.  Pure string-processing
functions are translated directly; the two external collaborators
(the generic HTML tree parser and the external `pandoc` converter
subprocess) are parameters of the embedding: the tree parser is a
function `String → Html` and the converter call is a function
`String → PandocOutcome`.

Regular-expression operations from the sources are embedded as explicit
scanners implementing the exact semantics of the concrete patterns used
(leftmost match, greedy/lazy quantifiers as they behave for those
patterns).  Character classes `\s`, `\w`, `\d` are modelled by their
ASCII meaning, which is the alphabet of all inputs relevant here.
-/

namespace WC2L

/-! ## Basic Python string semantics on `List Char` -/

/-- Python's default `str.strip` whitespace class (ASCII part). -/
def isPySpace (c : Char) : Bool :=
  c = ' ' || c = '\t' || c = '\n' || c = '\x0d' || c = '\x0b' || c = '\x0c'

/-- Regex `\w` (ASCII): letters, digits, underscore. -/
def isWordChar (c : Char) : Bool :=
  c.isAlpha || c.isDigit || c = '_'

/-- `str.lstrip()` on a char list. -/
def lstripL (l : List Char) : List Char := l.dropWhile (fun c => isPySpace c)

/-- `str.rstrip()` on a char list. -/
def rstripL (l : List Char) : List Char :=
  (l.reverse.dropWhile (fun c => isPySpace c)).reverse

/-- `str.strip()` on a char list. -/
def stripL (l : List Char) : List Char := rstripL (lstripL l)

/-- `pat in s` for patterns/haystacks as char lists. -/
def containsSub (pat : List Char) (l : List Char) : Bool :=
  match l with
  | [] => pat.isPrefixOf ([] : List Char)
  | _ :: t => pat.isPrefixOf l || containsSub pat t

/-- Split `l` at the first occurrence of `pat` (`pat` nonempty in all uses):
`some (before, after)` with `l = before ++ pat ++ after` and no occurrence
of `pat` starting inside `before`. -/
def splitOnFirst (pat : List Char) (l : List Char) : Option (List Char × List Char) :=
  match l with
  | [] => if pat.isPrefixOf ([] : List Char) && pat ≠ [] then none else none
  | c :: t =>
    if pat.isPrefixOf (c :: t) then some ([], (c :: t).drop pat.length)
    else match splitOnFirst pat t with
         | some (b, a) => some (c :: b, a)
         | none => none

/-- `str.strip()` on `String`. -/
def pyStrip (s : String) : String := String.mk (stripL s.toList)

/-- `sub in s` on `String`. -/
def pyContains (pat : String) (s : String) : Bool := containsSub pat.toList s.toList

/-- `s.lower()` (ASCII). -/
def lowerL (l : List Char) : List Char := l.map Char.toLower

/-! ### Lemmas about the basic utilities -/

theorem splitOnFirst_eq (pat l b a : List Char) (_hne : pat ≠ [])
    (h : splitOnFirst pat l = some (b, a)) : l = b ++ pat ++ a := by
  induction l generalizing b with
  | nil => simp [splitOnFirst] at h
  | cons c t ih =>
    by_cases hp : pat.isPrefixOf (c :: t)
    · simp [splitOnFirst, hp] at h
      obtain ⟨hb, ha⟩ := h
      obtain ⟨r, hr⟩ := List.isPrefixOf_iff_prefix.mp hp
      subst hb
      simp only [List.nil_append]
      rw [← hr, ← ha, ← hr]
      simp
    · simp [splitOnFirst, hp] at h
      match hsp : splitOnFirst pat t with
      | some (b', a') =>
        rw [hsp] at h
        simp at h
        obtain ⟨hb, ha⟩ := h
        subst hb; subst ha
        simpa using ih _ hsp
      | none => rw [hsp] at h; simp at h

theorem length_dropWhile_le (p : Char → Bool) (l : List Char) :
    (l.dropWhile p).length ≤ l.length :=
  (List.dropWhile_sublist p).length_le

theorem splitOnFirst_len (pat l b a : List Char) (hne : pat ≠ [])
    (h : splitOnFirst pat l = some (b, a)) : a.length < l.length := by
  have := splitOnFirst_eq pat l b a hne h
  subst this
  have : 0 < pat.length := List.length_pos.mpr hne
  simp
  omega

/-! ## `postprocess.py`: `_unwrap_multiline_groups` (lines 22-102)

The source walks the string tracking brace depth, collecting the
top-level brace groups `(start, i, latex[start+1:i])` together with the
text before, between and after them.  The walk is embedded as
`closeGroup` (the portion of the walk from depth ≥ 1 back to depth 0,
i.e. from just after a top-level `{` to its matching `}`) and `scanTop`
(the depth-0 portion).  `scanTop l = (segs, last)` where each element of
`segs` is `(gap, group)` — the text before a top-level group and the
group's content — and `last` is the text after the final group
(including a trailing unclosed `{...` region, which the source likewise
never turns into a group). -/

/-- Depth evolution of the source's brace walk: scanning from `d` open
braces, `some e` if the walk ends at depth `e` without a `}` arriving at
depth 0, else `none`.  (Specification device for the proofs.) -/
def scanDepthL : Nat → List Char → Option Nat
  | d, [] => some d
  | d, c :: rest =>
    if c = '{' then scanDepthL (d + 1) rest
    else if c = '}' then
      match d with
      | 0 => none
      | e + 1 => scanDepthL e rest
    else scanDepthL d rest

/-- From just inside a top-level `{` (with `d` additional unclosed inner
`{`), accumulate content until the matching `}`: `some (content, rest)`. -/
def closeGroup : Nat → List Char → Option (List Char × List Char)
  | _, [] => none
  | d, c :: rest =>
    if c = '{' then (closeGroup (d + 1) rest).map (fun p => (c :: p.1, p.2))
    else if c = '}' then
      match d with
      | 0 => some ([], rest)
      | e + 1 => (closeGroup e rest).map (fun p => (c :: p.1, p.2))
    else (closeGroup d rest).map (fun p => (c :: p.1, p.2))

theorem closeGroup_cons (d : Nat) (x : Char) (t : List Char) :
    closeGroup d (x :: t) =
      if x = '{' then (closeGroup (d + 1) t).map (fun p => (x :: p.1, p.2))
      else if x = '}' then
        match d with
        | 0 => some ([], t)
        | e + 1 => (closeGroup e t).map (fun p => (x :: p.1, p.2))
      else (closeGroup d t).map (fun p => (x :: p.1, p.2)) := by
  by_cases hx : x = '{'
  · subst hx; simp [closeGroup]
  · by_cases hy : x = '}'
    · subst hy
      match d with
      | 0 => simp [closeGroup]
      | e + 1 => simp [closeGroup]
    · simp [closeGroup, hx, hy]

theorem closeGroup_decomp (d : Nat) (l c r : List Char)
    (h : closeGroup d l = some (c, r)) : l = c ++ '}' :: r := by
  induction l generalizing d c with
  | nil => simp [closeGroup] at h
  | cons x t ih =>
    by_cases hx : x = '{'
    · subst hx
      cases hcg : closeGroup (d + 1) t with
      | none => rw [closeGroup_cons, if_pos rfl, hcg] at h; simp at h
      | some p =>
        obtain ⟨c', r'⟩ := p
        rw [closeGroup_cons, if_pos rfl, hcg] at h
        simp at h
        obtain ⟨h1, h2⟩ := h
        subst h1; subst h2
        have := ih (d + 1) c' hcg
        rw [this]; simp
    · by_cases hy : x = '}'
      · subst hy
        match d with
        | 0 =>
          rw [closeGroup_cons, if_neg hx, if_pos rfl] at h
          simp at h
          obtain ⟨h1, h2⟩ := h
          subst h1; subst h2; simp
        | e + 1 =>
          cases hcg : closeGroup e t with
          | none => rw [closeGroup_cons, if_neg hx, if_pos rfl] at h; simp [hcg] at h
          | some p =>
            obtain ⟨c', r'⟩ := p
            rw [closeGroup_cons, if_neg hx, if_pos rfl] at h
            simp [hcg] at h
            obtain ⟨h1, h2⟩ := h
            subst h1; subst h2
            have := ih e c' hcg
            rw [this]; simp
      · cases hcg : closeGroup d t with
        | none => rw [closeGroup_cons, if_neg hx, if_neg hy, hcg] at h; simp at h
        | some p =>
          obtain ⟨c', r'⟩ := p
          rw [closeGroup_cons, if_neg hx, if_neg hy, hcg] at h
          simp at h
          obtain ⟨h1, h2⟩ := h
          subst h1; subst h2
          have := ih d c' hcg
          rw [this]; simp

theorem closeGroup_len (d : Nat) (l c r : List Char)
    (h : closeGroup d l = some (c, r)) : r.length < l.length := by
  have := closeGroup_decomp d l c r h
  subst this; simp; omega

/-- The depth-0 part of the source's brace walk: split `l` into
`(segs, last)` with `segs = [(gap₀, grp₀), (gap₁, grp₁), …]` such that
`l = gap₀ ++ '{'::grp₀ ++ '}' :: gap₁ ++ … ++ last`.  Structurally
recursive on a fuel bound; each step consumes at least one character,
so fuel `l.length + 1` is exact (`scanTopF_congr`). -/
def scanTopF : Nat → List Char → List (List Char × List Char) × List Char
  | 0, l => ([], l)
  | fuel + 1, l =>
    match l with
    | [] => ([], [])
    | c :: rest =>
      if c = '{' then
        match closeGroup 0 rest with
        | some (g, r) =>
          let res := scanTopF fuel r
          (([], g) :: res.1, res.2)
        | none => ([], c :: rest)
      else
        let res := scanTopF fuel rest
        match res.1 with
        | (gap, g) :: st => ((c :: gap, g) :: st, res.2)
        | [] => ([], c :: res.2)

def scanTop (l : List Char) : List (List Char × List Char) × List Char :=
  scanTopF (l.length + 1) l

theorem scanTopF_succ (fuel : Nat) (l : List Char) :
    scanTopF (fuel + 1) l =
      match l with
      | [] => ([], [])
      | c :: rest =>
        if c = '{' then
          match closeGroup 0 rest with
          | some (g, r) =>
            let res := scanTopF fuel r
            (([], g) :: res.1, res.2)
          | none => ([], c :: rest)
        else
          let res := scanTopF fuel rest
          match res.1 with
          | (gap, g) :: st => ((c :: gap, g) :: st, res.2)
          | [] => ([], c :: res.2) := rfl

theorem scanTopF_congr :
    ∀ (f1 f2 : Nat) (l : List Char), l.length < f1 → l.length < f2 →
      scanTopF f1 l = scanTopF f2 l := by
  intro f1
  induction f1 with
  | zero => intro f2 l h1; omega
  | succ g1 ih =>
    intro f2 l h1 h2
    match f2 with
    | 0 => omega
    | g2 + 1 =>
      rw [scanTopF_succ, scanTopF_succ]
      match l with
      | [] => rfl
      | c :: rest =>
        simp only [List.length_cons] at h1 h2
        by_cases hc : c = '{'
        · match hcg : closeGroup 0 rest with
          | some (g0, r0) =>
            have := closeGroup_len 0 rest g0 r0 hcg
            simp only [hc, reduceIte, hcg]
            rw [ih g2 r0 (by omega) (by omega)]
          | none => simp [hc, hcg]
        · simp only [if_neg hc]
          rw [ih g2 rest (by omega) (by omega)]

/-- One-step unfolding of `scanTop` (the source's depth-0 walk). -/
theorem scanTop_eq (l : List Char) :
    scanTop l =
      match l with
      | [] => ([], [])
      | c :: rest =>
        if c = '{' then
          match closeGroup 0 rest with
          | some (g, r) =>
            let res := scanTop r
            (([], g) :: res.1, res.2)
          | none => ([], c :: rest)
        else
          let res := scanTop rest
          match res.1 with
          | (gap, g) :: st => ((c :: gap, g) :: st, res.2)
          | [] => ([], c :: res.2) := by
  unfold scanTop
  rw [scanTopF_succ]
  match l with
  | [] => rfl
  | c :: rest =>
    by_cases hc : c = '{'
    · match hcg : closeGroup 0 rest with
      | some (g0, r0) =>
        have := closeGroup_len 0 rest g0 r0 hcg
        simp only [hc, reduceIte, hcg]
        rw [scanTopF_congr ('{' :: rest).length (r0.length + 1) r0 (by simp; omega) (by omega)]
      | none => simp [hc, hcg]
    · simp only [if_neg hc]
      rw [scanTopF_congr (c :: rest).length (rest.length + 1) rest (by simp) (by omega)]

theorem scanTop_nil : scanTop [] = ([], []) := rfl

theorem scanTop_cons (c : Char) (t : List Char) :
    scanTop (c :: t) =
      if c = '{' then
        match closeGroup 0 t with
        | some (g, r) => (([], g) :: (scanTop r).1, (scanTop r).2)
        | none => ([], c :: t)
      else
        match (scanTop t).1 with
        | (gap, g) :: st => ((c :: gap, g) :: st, (scanTop t).2)
        | [] => ([], c :: (scanTop t).2) := by
  rw [scanTop_eq]

/-- The separator `' \\\\\n'` used to join multi-line rows (the 4-char
string: space, backslash, backslash, newline). -/
def rowSep : List Char := [' ', '\\', '\\', '\n']

/-- `postprocess._unwrap_multiline_groups`: convert Pandoc's
`{line1}{line2}…` multi-oMath output into backslash-joined rows, using the
source's heuristic (newline in a group / ≥ 3 groups / 2 groups both with
more than 5 chars of stripped content). -/
def _unwrap_multiline_groups (latex : String) : String :=
  let l := latex.toList
  let sc := scanTop l
  let groups := sc.1.map (fun p => p.2)
  if groups.length < 2 then latex
  else
    -- non-whitespace content between consecutive groups?
    let betweens := (sc.1.drop 1).map (fun p => p.1)
    if betweens.any (fun g => stripL g ≠ []) then latex
    else
      -- content before the first group / after the last group
      let before := match sc.1 with
                    | (gap, _) :: _ => gap
                    | [] => []
      let after := sc.2
      if stripL before ≠ [] ∨ stripL after ≠ [] then latex
      else
        let newlineGroups := groups.countP (fun g => g.contains '\n')
        if 1 ≤ newlineGroups then
          String.mk (List.intercalate rowSep (groups.map stripL))
        else if 3 ≤ groups.length then
          String.mk (List.intercalate rowSep (groups.map stripL))
        else if groups.length = 2 then
          let contents := groups.map stripL
          if contents.all (fun c => 5 < c.length) then
            String.mk (List.intercalate rowSep (groups.map stripL))
          else latex
        else latex

/-! ## Generic embedding of `re.sub` / `re.search`

`re.sub(P, repl, s)` scans left to right: at each position it tries to
match `P`; on a match it emits the replacement and resumes after the
match, otherwise it copies one character.  `scanRepl m` is that loop for
a concrete matcher `m` which returns `some (replacement, rest)` on a
match at the head of the input.  `scanFind` is `re.search` (does any
position match). -/

/-- The scan loop, structurally recursive on a fuel bound (every step
consumes at least one character, so `l.length + 1` fuel always
suffices — `scanReplF_congr` below). -/
def scanReplF (m : List Char → Option (List Char × List Char)) :
    Nat → List Char → List Char
  | 0, l => l
  | fuel + 1, l =>
    match m l with
    | some (g, r) => g ++ scanReplF m fuel r
    | none =>
      match l with
      | [] => []
      | c :: t => c :: scanReplF m fuel t

def scanRepl (m : List Char → Option (List Char × List Char))
    (_hm : ∀ l g r, m l = some (g, r) → r.length < l.length)
    (l : List Char) : List Char :=
  scanReplF m (l.length + 1) l

theorem scanReplF_congr (m : List Char → Option (List Char × List Char))
    (hm : ∀ l g r, m l = some (g, r) → r.length < l.length) :
    ∀ (f1 f2 : Nat) (l : List Char), l.length < f1 → l.length < f2 →
      scanReplF m f1 l = scanReplF m f2 l := by
  intro f1
  induction f1 with
  | zero => intro f2 l h1; omega
  | succ g1 ih =>
    intro f2 l h1 h2
    match f2 with
    | 0 => omega
    | g2 + 1 =>
      show scanReplF m (g1 + 1) l = scanReplF m (g2 + 1) l
      unfold scanReplF
      match hml : m l with
      | some (g, r) =>
        have hr := hm l g r hml
        simp only []
        rw [ih g2 r (by omega) (by omega)]
      | none =>
        match l with
        | [] => simp
        | c :: t =>
          simp only [List.length_cons] at h1 h2
          simp only []
          rw [ih g2 t (by omega) (by omega)]

theorem scanReplF_succ (m : List Char → Option (List Char × List Char))
    (fuel : Nat) (l : List Char) :
    scanReplF m (fuel + 1) l =
      match m l with
      | some (g, r) => g ++ scanReplF m fuel r
      | none =>
        match l with
        | [] => []
        | c :: t => c :: scanReplF m fuel t := rfl

/-- One-step unfolding of `scanRepl`: it is the `re.sub` loop. -/
theorem scanRepl_eq (m : List Char → Option (List Char × List Char))
    (hm : ∀ l g r, m l = some (g, r) → r.length < l.length) (l : List Char) :
    scanRepl m hm l =
      match m l with
      | some (g, r) => g ++ scanRepl m hm r
      | none =>
        match l with
        | [] => []
        | c :: t => c :: scanRepl m hm t := by
  unfold scanRepl
  rw [scanReplF_succ]
  match hml : m l with
  | some (g, r) =>
    have hr := hm l g r hml
    simp only [hml]
    rw [scanReplF_congr m hm l.length (r.length + 1) r hr (by omega)]
  | none =>
    match l with
    | [] => simp [hml]
    | c :: t =>
      simp only [hml]
      rfl

def scanFind (m : List Char → Option (List Char × List Char)) : List Char → Bool
  | [] => (m []).isSome
  | c :: t => (m (c :: t)).isSome || scanFind m (t : List Char)

/-! ## `postprocess.py`: `_unwrap_array_in_aligned` (lines 105-124)

`re.sub(r'\\begin\{array\}\{[^}]*\}\s*(.*?)\s*\\end\{array\}', r'\1', latex,
flags=re.DOTALL)`: each match runs from a `\begin{array}{`, through the
first `}` closing the column spec, up to the first following
`\end{array}`; the replacement is the enclosed text with the surrounding
whitespace absorbed by the greedy `\s*` / lazy `(.*?)` split — i.e. the
enclosed text stripped. -/

def beginArrayTok : List Char := "\\begin\x7barray\x7d\x7b".toList

def endArrayTok : List Char := "\\end\x7barray\x7d".toList

def matchArrayAt (l : List Char) : Option (List Char × List Char) :=
  if beginArrayTok.isPrefixOf l then
    match splitOnFirst ['}'] (l.drop beginArrayTok.length) with
    | some (_, l2) =>
      match splitOnFirst endArrayTok l2 with
      | some (mid, rest) => some (stripL mid, rest)
      | none => none
    | none => none
  else none

theorem matchArrayAt_len (l g r : List Char) (h : matchArrayAt l = some (g, r)) :
    r.length < l.length := by
  by_cases hp : beginArrayTok.isPrefixOf l
  · match h1 : splitOnFirst ['}'] (l.drop beginArrayTok.length) with
    | none => simp [matchArrayAt, hp, h1] at h
    | some (cs, l2) =>
      match h2 : splitOnFirst endArrayTok l2 with
      | none => simp [matchArrayAt, hp, h1, h2] at h
      | some (mid, rest) =>
        simp [matchArrayAt, hp, h1, h2] at h
        obtain ⟨_, h4⟩ := h
        subst h4
        have e1 := splitOnFirst_len _ _ _ _ (by decide) h1
        have e2 := splitOnFirst_len _ _ _ _ (by decide) h2
        have e3 : (l.drop beginArrayTok.length).length ≤ l.length := by
          simp [List.length_drop]
        omega
  · simp [matchArrayAt, hp] at h

def unwrapArrayCore : List Char → List Char := scanRepl matchArrayAt matchArrayAt_len

/-- `postprocess._unwrap_array_in_aligned`. -/
def _unwrap_array_in_aligned (latex : String) : String :=
  String.mk (unwrapArrayCore latex.toList)

/-! ## `postprocess.py`: `_collapse_nested_aligned` (lines 127-141) -/

def beginAlignedTok : List Char := "\\begin\x7baligned\x7d".toList

def endAlignedTok : List Char := "\\end\x7baligned\x7d".toList

/-- Match `tok\s*tok` at the head (the greedy `\s*` is deterministic here
because `tok` starts with a non-space `\`); the replacement is one `tok`. -/
def matchDoubleTok (tok : List Char) (l : List Char) : Option (List Char × List Char) :=
  if tok.isPrefixOf l then
    let l1 := (l.drop tok.length).dropWhile (fun c => isPySpace c)
    if tok.isPrefixOf l1 then some (tok, l1.drop tok.length) else none
  else none

theorem matchDoubleTok_len (tok : List Char) (htok : tok ≠ []) (l g r : List Char)
    (h : matchDoubleTok tok l = some (g, r)) : r.length < l.length := by
  unfold matchDoubleTok at h
  by_cases hp : tok.isPrefixOf l
  · rw [if_pos hp] at h
    by_cases hq : tok.isPrefixOf ((l.drop tok.length).dropWhile (fun c => isPySpace c))
    · rw [if_pos hq] at h
      simp at h
      obtain ⟨_, h2⟩ := h
      subst h2
      have htl : 0 < tok.length := List.length_pos.mpr htok
      have e1 : ((l.drop tok.length).dropWhile (fun c => isPySpace c)).length
          ≤ (l.drop tok.length).length := length_dropWhile_le _ _
      obtain ⟨t1, ht1⟩ := List.isPrefixOf_iff_prefix.mp hq
      have e2 : tok.length ≤ ((l.drop tok.length).dropWhile (fun c => isPySpace c)).length := by
        rw [← ht1]; simp
      obtain ⟨t0, ht0⟩ := List.isPrefixOf_iff_prefix.mp hp
      have e3 : tok.length ≤ l.length := by rw [← ht0]; simp
      have e4 : (l.drop tok.length).length = l.length - tok.length := by
        simp [List.length_drop]
      simp only [List.length_drop]
      omega
    · rw [if_neg hq] at h; simp at h
  · rw [if_neg hp] at h; simp at h

def collapseBegin : List Char → List Char :=
  scanRepl (matchDoubleTok beginAlignedTok) (matchDoubleTok_len _ (by decide))

def collapseEnd : List Char → List Char :=
  scanRepl (matchDoubleTok endAlignedTok) (matchDoubleTok_len _ (by decide))

def hasDoubleBegin : List Char → Bool := scanFind (matchDoubleTok beginAlignedTok)

/-- The source's `while re.search(pattern, latex)` loop.  Each taken
iteration performs at least one replacement, each of which removes at
least 15 characters, so `l.length + 1` rounds of fuel are never
exhausted and the fueled loop equals the unbounded one. -/
def collapseLoop : Nat → List Char → List Char
  | 0, l => l
  | fuel + 1, l =>
    if hasDoubleBegin l then collapseLoop fuel (collapseEnd (collapseBegin l))
    else l

/-- `postprocess._collapse_nested_aligned`. -/
def _collapse_nested_aligned (latex : String) : String :=
  String.mk (collapseLoop (latex.toList.length + 1) latex.toList)

theorem isPre_len {p l : List Char} (h : p.isPrefixOf l = true) : p.length ≤ l.length :=
  (List.isPrefixOf_iff_prefix.mp h).length_le

/-! ## `postprocess.py`: alignment markers (lines 144-220) -/

/-- One relation-operator pattern of `_RELATION_OPS`: the literal, whether
it carries the `(?![a-zA-Z])` lookahead, and whether it carries the
`(?<!\\)` lookbehind. -/
structure OpPat where
  lit : List Char
  lookA : Bool
  lookB : Bool

/-- `postprocess._RELATION_OPS`, in source order. -/
def _RELATION_OPS : List OpPat :=
  [⟨"\\approx".toList, true, false⟩, ⟨"\\simeq".toList, true, false⟩,
   ⟨"\\cong".toList, true, false⟩,
   ⟨"\\equiv".toList, true, false⟩, ⟨"\\sim".toList, true, false⟩,
   ⟨"\\propto".toList, true, false⟩, ⟨"\\doteq".toList, true, false⟩,
   ⟨"\\leq".toList, true, false⟩, ⟨"\\le".toList, true, false⟩,
   ⟨"\\geq".toList, true, false⟩, ⟨"\\ge".toList, true, false⟩,
   ⟨"\\ll".toList, true, false⟩, ⟨"\\gg".toList, true, false⟩,
   ⟨"\\neq".toList, true, false⟩, ⟨"\\ne".toList, true, false⟩,
   ⟨"\\to".toList, true, false⟩, ⟨"\\rightarrow".toList, true, false⟩,
   ⟨"\\leftarrow".toList, true, false⟩,
   ⟨"\\Rightarrow".toList, true, false⟩, ⟨"\\Leftarrow".toList, true, false⟩,
   ⟨"\\Leftrightarrow".toList, true, false⟩, ⟨"\\iff".toList, true, false⟩,
   ⟨"=".toList, false, false⟩,
   ⟨"<".toList, true, true⟩,
   ⟨">".toList, true, true⟩]

/-- Does `op` match at the position whose preceding text is `pre` and
remaining text is `suf`?  (`[a-zA-Z]` is `Char.isAlpha` on ASCII.) -/
def matchOpAt (op : OpPat) (pre suf : List Char) : Bool :=
  op.lit.isPrefixOf suf
  && (!op.lookA || (match suf.drop op.lit.length with
                    | [] => true
                    | c :: _ => !c.isAlpha))
  && (!op.lookB || (match pre.getLast? with
                    | some c => decide (c ≠ '\\')
                    | none => true))

/-- Brace depth of the text before a match position, as in the source's
depth loop (`{` +1, `}` -1, may go negative); the source skips a match
iff this is positive. -/
def braceDepth (pre : List Char) : Int :=
  (pre.count '{' : Int) - (pre.count '}' : Int)

/-- `re.finditer(op, line)` with the source's skip-inside-braces loop:
the first position at which `op` matches and the brace depth of the
preceding text is not positive. -/
def firstElig (op : OpPat) (pre suf : List Char) : Option Nat :=
  match suf with
  | [] => none
  | c :: t =>
    if matchOpAt op pre suf && decide (braceDepth pre ≤ 0) then some pre.length
    else firstElig op (pre ++ [c]) t

/-- The source's best-position fold over `_RELATION_OPS` (`pos < best_pos`
keeps the leftmost among per-operator first hits). -/
def bestOpPos (line : List Char) : Option Nat :=
  _RELATION_OPS.foldl
    (fun best op =>
      match firstElig op [] line with
      | none => best
      | some p =>
        match best with
        | none => some p
        | some b => if p < b then some p else best)
    none

/-- `postprocess._insert_alignment`: insert `&` before the leftmost
relation operator not inside braces; a line that already contains `&`
is returned unchanged. -/
def _insert_alignment (line : List Char) : List Char :=
  if containsSub ['&'] line then line
  else
    match bestOpPos line with
    | none => line
    | some p => line.take p ++ '&' :: line.drop p

/-- `re.split(r'\s*\\\\\s*', latex)`: pieces between `\\` separators,
with the whitespace around each separator absorbed into it. -/
def splitRowsF : Nat → List Char → List (List Char)
  | 0, l => [l]
  | fuel + 1, l =>
    match splitOnFirst ['\\', '\\'] l with
    | none => [l]
    | some (b, a) => rstripL b :: splitRowsF fuel (lstripL a)

/-- Each step consumes at least the two-character separator, so fuel
`l.length + 1` always suffices. -/
def splitRows (l : List Char) : List (List Char) :=
  splitRowsF (l.length + 1) l

/-- `postprocess._add_alignment_markers`. -/
def _add_alignment_markers (latex : String) : String :=
  let l := latex.toList
  if ¬ containsSub ['\\', '\\'] l then latex
  else
    let lines := splitRows l
    if lines.length < 2 then latex
    else String.mk (List.intercalate rowSep (lines.map _insert_alignment))

/-! ## `postprocess.py`: `_fix_bold_math_vars` (lines 223-234) -/

def mathbfTok : List Char := "\\mathbf\x7b".toList

/-- `\\mathbf\{(\w)\}` → `\1`. -/
def matchBf1 (l : List Char) : Option (List Char × List Char) :=
  if mathbfTok.isPrefixOf l then
    match l.drop mathbfTok.length with
    | c :: '}' :: rest => if isWordChar c then some ([c], rest) else none
    | _ => none
  else none

theorem matchBf1_len (l g r : List Char) (h : matchBf1 l = some (g, r)) :
    r.length < l.length := by
  by_cases hp : mathbfTok.isPrefixOf l
  · match h1 : l.drop mathbfTok.length with
    | [] => simp [matchBf1, hp, h1] at h
    | [c] => simp [matchBf1, hp, h1] at h
    | c :: c2 :: rest =>
      by_cases hw : isWordChar c
      · by_cases hb : c2 = '}'
        · subst hb
          simp [matchBf1, hp, h1, hw] at h
          obtain ⟨_, h3⟩ := h
          subst h3
          have e1 : (l.drop mathbfTok.length).length ≤ l.length := by
            simp [List.length_drop]
          rw [h1] at e1
          simp at e1
          omega
        · simp [matchBf1, hp, h1, hb] at h
      · by_cases hb : c2 = '}'
        · subst hb
          simp [matchBf1, hp, h1] at h
          exact absurd h.1 hw
        · simp [matchBf1, hp, h1, hb] at h
  · simp [matchBf1, hp] at h

/-- `\\mathbf\{(\w+)\}` → `\1`. -/
def matchBf2 (l : List Char) : Option (List Char × List Char) :=
  if mathbfTok.isPrefixOf l then
    let l1 := l.drop mathbfTok.length
    let run := l1.takeWhile (fun c => isWordChar c)
    match l1.dropWhile (fun c => isWordChar c) with
    | '}' :: rest => if run ≠ [] then some (run, rest) else none
    | _ => none
  else none

theorem matchBf2_len (l g r : List Char) (h : matchBf2 l = some (g, r)) :
    r.length < l.length := by
  by_cases hp : mathbfTok.isPrefixOf l
  · match h1 : (l.drop mathbfTok.length).dropWhile (fun c => isWordChar c) with
    | [] => simp [matchBf2, hp, h1] at h
    | c :: rest =>
      by_cases hb : c = '}'
      · subst hb
        by_cases hr : (l.drop mathbfTok.length).takeWhile (fun c => isWordChar c) ≠ []
        · simp [matchBf2, hp, h1, hr] at h
          obtain ⟨_, h3⟩ := h
          subst h3
          have e1 : ((l.drop mathbfTok.length).dropWhile (fun c => isWordChar c)).length
              ≤ (l.drop mathbfTok.length).length := length_dropWhile_le _ _
          rw [h1] at e1
          have e2 : (l.drop mathbfTok.length).length ≤ l.length := by
            simp [List.length_drop]
          simp at e1
          omega
        · simp [matchBf2, hp, h1, hr] at h
      · simp [matchBf2, hp, h1, hb] at h
  · simp [matchBf2, hp] at h

/-- `postprocess._fix_bold_math_vars`: the two successive `re.sub` passes. -/
def _fix_bold_math_vars (latex : String) : String :=
  String.mk (scanRepl matchBf2 matchBf2_len
    (scanRepl matchBf1 matchBf1_len latex.toList))

/-! ## `postprocess.py`: `_fix_log_subscript` (lines 237-247) -/

def logBsTok : List Char := "\\log\\".toList

/-- `(\\log)\\\s*_\{` → `\1_{`. -/
def matchLog1 (l : List Char) : Option (List Char × List Char) :=
  if logBsTok.isPrefixOf l then
    let l2 := (l.drop 5).dropWhile (fun c => isPySpace c)
    if ['_', '{'].isPrefixOf l2 then some ("\\log_\x7b".toList, l2.drop 2)
    else none
  else none

theorem matchLog1_len (l g r : List Char) (h : matchLog1 l = some (g, r)) :
    r.length < l.length := by
  by_cases hp : logBsTok.isPrefixOf l
  · by_cases hq : ['_', '{'].isPrefixOf ((l.drop 5).dropWhile (fun c => isPySpace c))
    · simp [matchLog1, hp, hq] at h
      obtain ⟨_, h2⟩ := h
      subst h2
      have a1 : logBsTok.length ≤ l.length := isPre_len hp
      have a2 := length_dropWhile_le (fun c => isPySpace c) (l.drop 5)
      have a3 : (l.drop 5).length = l.length - 5 := by simp
      have a4 : (((l.drop 5).dropWhile (fun c => isPySpace c)).drop 2).length
          ≤ ((l.drop 5).dropWhile (fun c => isPySpace c)).length := by
        simp [List.length_drop]
      simp only [logBsTok] at a1
      simp at a1
      omega
    · simp [matchLog1, hp, hq] at h
  · simp [matchLog1, hp] at h

/-- `(\\log)\\\s*_(\w)` → `\1_{\2}`. -/
def matchLog2 (l : List Char) : Option (List Char × List Char) :=
  if logBsTok.isPrefixOf l then
    match ((l.drop 5).dropWhile (fun c => isPySpace c)) with
    | '_' :: c :: rest =>
      if isWordChar c then some ("\\log_\x7b".toList ++ [c] ++ ['}'], rest)
      else none
    | _ => none
  else none

theorem matchLog2_len (l g r : List Char) (h : matchLog2 l = some (g, r)) :
    r.length < l.length := by
  by_cases hp : logBsTok.isPrefixOf l
  · match h1 : ((l.drop 5).dropWhile (fun c => isPySpace c)) with
    | [] => simp [matchLog2, hp, h1] at h
    | [c] =>
      by_cases hc : c = '_'
      · subst hc; simp [matchLog2, hp, h1] at h
      · simp [matchLog2, hp, h1, hc] at h
    | c0 :: c :: rest =>
      by_cases hc : c0 = '_'
      · subst hc
        by_cases hw : isWordChar c
        · simp [matchLog2, hp, h1, hw] at h
          obtain ⟨_, h2⟩ := h
          subst h2
          have a1 : logBsTok.length ≤ l.length := isPre_len hp
          have a2 := length_dropWhile_le (fun c => isPySpace c) (l.drop 5)
          have a3 : (l.drop 5).length = l.length - 5 := by simp
          rw [h1] at a2
          simp only [logBsTok] at a1
          simp at a1 a2
          omega
        · simp [matchLog2, hp, h1, hw] at h
      · simp [matchLog2, hp, h1, hc] at h
  · simp [matchLog2, hp] at h

/-- `postprocess._fix_log_subscript`. -/
def _fix_log_subscript (latex : String) : String :=
  String.mk (scanRepl matchLog2 matchLog2_len
    (scanRepl matchLog1 matchLog1_len latex.toList))

/-! ## `postprocess.py`: `_fix_whitespace` (lines 250-258) -/

/-- `'  +'` → `' '`: a run of two or more literal spaces. -/
def matchSpaces (l : List Char) : Option (List Char × List Char) :=
  match l with
  | ' ' :: ' ' :: t => some ([' '], t.dropWhile (fun c => c = ' '))
  | _ => none

theorem matchSpaces_len (l g r : List Char) (h : matchSpaces l = some (g, r)) :
    r.length < l.length := by
  match l with
  | [] => simp [matchSpaces] at h
  | [c] => simp [matchSpaces] at h
  | c1 :: c2 :: t =>
    by_cases h1 : c1 = ' '
    · by_cases h2 : c2 = ' '
      · subst h1; subst h2
        simp [matchSpaces] at h
        obtain ⟨_, hr⟩ := h
        subst hr
        have := length_dropWhile_le (fun c => c = ' ') t
        simp
        omega
      · subst h1; simp [matchSpaces, h2] at h
    · simp [matchSpaces, h1] at h

/-- Python `str.splitlines` on the ASCII line boundaries `\n`, `\r`,
`\r\n`, `\v`, `\f`. -/
def splitlinesGoF : Nat → List Char → List Char → List (List Char)
  | 0, cur, _ => [cur.reverse]
  | fuel + 1, cur, l =>
    match l with
    | [] => [cur.reverse]
    | '\x0d' :: '\n' :: t =>
      cur.reverse :: (if t.isEmpty then [] else splitlinesGoF fuel [] t)
    | c :: t =>
      if c = '\n' ∨ c = '\x0d' ∨ c = '\x0b' ∨ c = '\x0c' then
        cur.reverse :: (if t.isEmpty then [] else splitlinesGoF fuel [] t)
      else splitlinesGoF fuel (c :: cur) t

/-- Each step consumes at least one character, so fuel `l.length + 1`
always suffices. -/
def splitlinesGo (cur : List Char) (l : List Char) : List (List Char) :=
  splitlinesGoF (l.length + 1) cur l

def splitlinesL (l : List Char) : List (List Char) :=
  match l with
  | [] => []
  | _ => splitlinesGo [] l

/-- `postprocess._fix_whitespace`: collapse multiple spaces, normalize
`\\` spacing, strip trailing whitespace per line. -/
def _fix_whitespace (latex : String) : String :=
  let l1 := scanRepl matchSpaces matchSpaces_len latex.toList
  -- re.sub(r'\s*\\\\\s*', ' \\\\\n', …) ≡ split on the separator and
  -- re-join with the replacement
  let l2 := List.intercalate rowSep (splitRows l1)
  String.mk (List.intercalate ['\n'] ((splitlinesL l2).map rstripL))

/-! ## `postprocess.py`: `_fix_common_pandoc_quirks` (lines 277-292) -/

def textOpenTok : List Char := "\\text\x7b".toList

/-- `\\text\{\s*\}` → `' '`. -/
def matchTextEmpty (l : List Char) : Option (List Char × List Char) :=
  if textOpenTok.isPrefixOf l then
    match ((l.drop 6).dropWhile (fun c => isPySpace c)) with
    | '}' :: rest => some ([' '], rest)
    | _ => none
  else none

theorem matchTextEmpty_len (l g r : List Char) (h : matchTextEmpty l = some (g, r)) :
    r.length < l.length := by
  by_cases hp : textOpenTok.isPrefixOf l
  · match h1 : ((l.drop 6).dropWhile (fun c => isPySpace c)) with
    | [] => simp [matchTextEmpty, hp, h1] at h
    | c :: rest =>
      by_cases hc : c = '}'
      · subst hc
        simp [matchTextEmpty, hp, h1] at h
        obtain ⟨_, h2⟩ := h
        subst h2
        have a1 : textOpenTok.length ≤ l.length := isPre_len hp
        have a2 := length_dropWhile_le (fun c => isPySpace c) (l.drop 6)
        have a3 : (l.drop 6).length = l.length - 6 := by simp
        rw [h1] at a2
        simp only [textOpenTok] at a1
        simp at a1 a2
        omega
      · simp [matchTextEmpty, hp, h1, hc] at h
  · simp [matchTextEmpty, hp] at h

/-- `\\\\\\\\` (four literal backslashes) → `\\\\` (two). -/
def matchQuadBack (l : List Char) : Option (List Char × List Char) :=
  if ['\\', '\\', '\\', '\\'].isPrefixOf l then some (['\\', '\\'], l.drop 4)
  else none

theorem matchQuadBack_len (l g r : List Char) (h : matchQuadBack l = some (g, r)) :
    r.length < l.length := by
  by_cases hp : (['\\', '\\', '\\', '\\'] : List Char).isPrefixOf l
  · simp [matchQuadBack, hp] at h
    obtain ⟨_, h2⟩ := h
    subst h2
    have a1 := isPre_len hp
    simp at a1
    simp
    omega
  · simp [matchQuadBack, hp] at h

/-- `\{\}` → `''`. -/
def matchEmptyGroup (l : List Char) : Option (List Char × List Char) :=
  if ['{', '}'].isPrefixOf l then some ([], l.drop 2) else none

theorem matchEmptyGroup_len (l g r : List Char) (h : matchEmptyGroup l = some (g, r)) :
    r.length < l.length := by
  by_cases hp : (['{', '}'] : List Char).isPrefixOf l
  · simp [matchEmptyGroup, hp] at h
    obtain ⟨_, h2⟩ := h
    subst h2
    have a1 := isPre_len hp
    simp at a1
    simp
    omega
  · simp [matchEmptyGroup, hp] at h

/-- `tok ++ \s+` → `tok` (for `\\left` and `\\right`). -/
def matchTokWs (tok : List Char) (l : List Char) : Option (List Char × List Char) :=
  if tok.isPrefixOf l then
    match l.drop tok.length with
    | c :: t => if isPySpace c then some (tok, t.dropWhile (fun c => isPySpace c))
                else none
    | [] => none
  else none

theorem matchTokWs_len (tok : List Char) (l g r : List Char)
    (h : matchTokWs tok l = some (g, r)) : r.length < l.length := by
  by_cases hp : tok.isPrefixOf l
  · match h1 : l.drop tok.length with
    | [] => simp [matchTokWs, hp, h1] at h
    | c :: t =>
      by_cases hc : isPySpace c
      · simp [matchTokWs, hp, h1, hc] at h
        obtain ⟨_, h2⟩ := h
        subst h2
        have a2 := length_dropWhile_le (fun c => isPySpace c) t
        have a3 : (l.drop tok.length).length ≤ l.length := by
          simp [List.length_drop]
        rw [h1] at a3
        simp at a3
        omega
      · simp [matchTokWs, hp, h1, hc] at h
  · simp [matchTokWs, hp] at h

/-- `postprocess._fix_common_pandoc_quirks`. -/
def _fix_common_pandoc_quirks (latex : String) : String :=
  let l1 := scanRepl matchTextEmpty matchTextEmpty_len latex.toList
  let l2 := scanRepl matchQuadBack matchQuadBack_len l1
  let l3 := scanRepl matchEmptyGroup matchEmptyGroup_len l2
  let l4 := scanRepl (matchTokWs "\\left".toList) (matchTokWs_len _) l3
  let l5 := scanRepl (matchTokWs "\\right".toList) (matchTokWs_len _) l4
  String.mk l5

/-! ## `postprocess.py`: `_fix_number_unit_spacing` (lines 261-274) -/

/-- `(\d)\s*(\\text\{)` → `\1\\,\2`. -/
def matchNumUnit (l : List Char) : Option (List Char × List Char) :=
  match l with
  | c :: t =>
    if c.isDigit then
      let t2 := t.dropWhile (fun x => isPySpace x)
      if textOpenTok.isPrefixOf t2 then
        some (c :: "\\,".toList ++ textOpenTok, t2.drop 6)
      else none
    else none
  | [] => none

theorem matchNumUnit_len (l g r : List Char) (h : matchNumUnit l = some (g, r)) :
    r.length < l.length := by
  match l with
  | [] => simp [matchNumUnit] at h
  | c :: t =>
    by_cases hd : c.isDigit
    · by_cases hp : textOpenTok.isPrefixOf (t.dropWhile (fun x => isPySpace x))
      · simp [matchNumUnit, hd, hp] at h
        obtain ⟨_, h2⟩ := h
        subst h2
        have a2 := length_dropWhile_le (fun x => isPySpace x) t
        have a4 : ((t.dropWhile (fun x => isPySpace x)).drop 6).length
            ≤ (t.dropWhile (fun x => isPySpace x)).length := by
          simp [List.length_drop]
        simp
        omega
      · simp [matchNumUnit, hd, hp] at h
    · simp [matchNumUnit, hd] at h

/-- `postprocess._fix_number_unit_spacing`. -/
def _fix_number_unit_spacing (latex : String) : String :=
  String.mk (scanRepl matchNumUnit matchNumUnit_len latex.toList)

/-- `postprocess.postprocess_latex`: the fixed-order chain of passes,
followed by a final `strip()`. -/
def postprocess_latex (latex : String) : String :=
  pyStrip (_fix_number_unit_spacing
    (_fix_common_pandoc_quirks
      (_fix_whitespace
        (_fix_log_subscript
          (_fix_bold_math_vars
            (_add_alignment_markers
              (_collapse_nested_aligned
                (_unwrap_array_in_aligned
                  (_unwrap_multiline_groups latex)))))))))

/-! ## `omml_to_latex.py`: `_strip_html_from_omml` (lines 99-118) -/

/-- The HTML formatting tags stripped from clipboard OMML. -/
def htmlTagNames : List (List Char) :=
  ["font".toList, "span".toList, "i".toList, "b".toList, "u".toList,
   "em".toList, "strong".toList, "br".toList, "div".toList, "img".toList,
   "a".toList]

/-- Case-insensitive literal prefix test. -/
def ciPrefix (pat l : List Char) : Bool := pat.isPrefixOf (lowerL (l.take pat.length))

/-- First alternative of `(?:font|span|…|a)\b` matching at the head of `t`
(the `\b` makes the alternatives mutually exclusive): its length. -/
def findHtmlAlt (t : List Char) : Option Nat :=
  (htmlTagNames.find? (fun alt =>
    ciPrefix alt t &&
    (match t.drop alt.length with
     | [] => true
     | c :: _ => !isWordChar c))).map List.length

/-- `<(?:font|span|i|b|u|em|strong|br|div|img|a)\b[^>]*/?>` → `''`
(case-insensitive): the `[^>]*/?>` runs to the first `>`. -/
def matchHtmlOpen (l : List Char) : Option (List Char × List Char) :=
  match l with
  | '<' :: t =>
    match findHtmlAlt t with
    | some n =>
      match splitOnFirst ['>'] (t.drop n) with
      | some (_, rest) => some ([], rest)
      | none => none
    | none => none
  | _ => none

theorem matchHtmlOpen_len (l g r : List Char) (h : matchHtmlOpen l = some (g, r)) :
    r.length < l.length := by
  match l with
  | [] => simp [matchHtmlOpen] at h
  | c :: t =>
    by_cases hc : c = '<'
    · subst hc
      match h1 : findHtmlAlt t with
      | none => simp [matchHtmlOpen, h1] at h
      | some n =>
        match h2 : splitOnFirst ['>'] (t.drop n) with
        | none => simp [matchHtmlOpen, h1, h2] at h
        | some (b, rest) =>
          simp [matchHtmlOpen, h1, h2] at h
          obtain ⟨_, h3⟩ := h
          subst h3
          have a1 := splitOnFirst_len _ _ _ _ (by decide) h2
          have a2 : (t.drop n).length ≤ t.length := by simp [List.length_drop]
          simp
          omega
    · simp [matchHtmlOpen, hc] at h

/-- `</(?:font|span|i|b|u|em|strong|br|div|img|a)>` → `''` (the closing
form requires `>` immediately after the name). -/
def matchHtmlClose (l : List Char) : Option (List Char × List Char) :=
  match l with
  | '<' :: '/' :: t =>
    match htmlTagNames.find? (fun alt =>
        ciPrefix alt t &&
        (match t.drop alt.length with
         | '>' :: _ => true
         | _ => false)) with
    | some alt => some ([], t.drop (alt.length + 1))
    | none => none
  | _ => none

theorem matchHtmlClose_len (l g r : List Char) (h : matchHtmlClose l = some (g, r)) :
    r.length < l.length := by
  match l with
  | [] => simp [matchHtmlClose] at h
  | [c] => simp [matchHtmlClose] at h
  | c1 :: c2 :: t =>
    by_cases hc : c1 = '<' ∧ c2 = '/'
    · obtain ⟨e1, e2⟩ := hc
      subst e1; subst e2
      match h1 : htmlTagNames.find? (fun alt =>
          ciPrefix alt t &&
          (match t.drop alt.length with
           | '>' :: _ => true
           | _ => false)) with
      | none => simp [matchHtmlClose, h1] at h
      | some alt =>
        simp [matchHtmlClose, h1] at h
        obtain ⟨_, h3⟩ := h
        subst h3
        have a2 : (t.drop (alt.length + 1)).length ≤ t.length := by
          simp [List.length_drop]
        simp
        omega
    · match l₀ : c1 with
      | '<' =>
        have hc2 : ¬ c2 = '/' := by
          intro hh
          exact hc ⟨rfl, hh⟩
        simp [matchHtmlClose, hc2] at h
      | _ => simp_all [matchHtmlClose]

/-- `omml_to_latex._strip_html_from_omml`: the two `re.sub` passes. -/
def _strip_html_from_omml (xml : String) : String :=
  String.mk (scanRepl matchHtmlClose matchHtmlClose_len
    (scanRepl matchHtmlOpen matchHtmlOpen_len xml.toList))

/-! ## `omml_to_latex.py`: `_wrap_bare_text_in_mt` (lines 64-96)

`re.sub(r'<m:r\b[^>]*>(.*?)</m:r>', fix_mr, xml, flags=re.DOTALL)`:
a match is `<m:r`, a non-word boundary character, attributes up to the
first `>`, then the lazy group up to the first `</m:r>`.  `fix_mr`
rebuilds the run: unchanged when the group already contains `<m:t>` or
`<m:t `; otherwise an `<m:t>` wrapper is synthesized around the stripped
text following an optional leading `<m:rPr…</m:rPr>` element. -/

def mrCloseTok : List Char := "</m:r>".toList

def rprOpenTok : List Char := "<m:rPr".toList

def rprCloseTok : List Char := "</m:rPr>".toList

/-- `re.match(r'(<m:rPr\b.*?</m:rPr>)(.*)', inner, re.DOTALL)`:
`some (rpr, rest)` where `rpr` runs through the first `</m:rPr>`. -/
def matchRprAt (inner : List Char) : Option (List Char × List Char) :=
  if rprOpenTok.isPrefixOf inner then
    let t := inner.drop 6
    let bOk : Bool := match t with
                      | [] => true
                      | c :: _ => !isWordChar c
    if bOk then
      match splitOnFirst rprCloseTok t with
      | some (mid, rest) => some (rprOpenTok ++ mid ++ rprCloseTok, rest)
      | none => none
    else none
  else none

/-- `fix_mr` (the replacement callback): `op` is the whole matched opening
tag (through its `>`), `inner` the lazy group. -/
def fix_mr (op inner : List Char) : List Char :=
  if containsSub "<m:t>".toList inner || containsSub "<m:t ".toList inner then
    op ++ inner ++ mrCloseTok
  else
    match matchRprAt inner with
    | some (rpr, rest2) =>
      let text := stripL rest2
      if text ≠ [] then
        "<m:r>".toList ++ rpr ++ "<m:t>".toList ++ text ++ "</m:t></m:r>".toList
      else "<m:r>".toList ++ rpr ++ mrCloseTok
    | none =>
      let text := stripL inner
      if text ≠ [] then "<m:r><m:t>".toList ++ text ++ "</m:t></m:r>".toList
      else "<m:r></m:r>".toList

/-- Match `<m:r\b[^>]*>(.*?)</m:r>` at the head and return
`(fix_mr applied to the match, rest)`. -/
def matchMr (l : List Char) : Option (List Char × List Char) :=
  if "<m:r".toList.isPrefixOf l then
    let t := l.drop 4
    let bOk : Bool := match t with
                      | [] => true
                      | c :: _ => !isWordChar c
    if bOk then
      match splitOnFirst ['>'] t with
      | some (attrs, afterGt) =>
        match splitOnFirst mrCloseTok afterGt with
        | some (inner, rest) =>
          some (fix_mr ("<m:r".toList ++ attrs ++ ['>']) inner, rest)
        | none => none
      | none => none
    else none
  else none

theorem matchMr_len (l g r : List Char) (h : matchMr l = some (g, r)) :
    r.length < l.length := by
  by_cases hp : "<m:r".toList.isPrefixOf l
  · by_cases hb : (match l.drop 4 with
                   | [] => true
                   | c :: _ => !isWordChar c) = true
    · match h1 : splitOnFirst ['>'] (l.drop 4) with
      | none => simp [matchMr, hp, hb, h1] at h
      | some (attrs, afterGt) =>
        match h2 : splitOnFirst mrCloseTok afterGt with
        | none => simp [matchMr, hp, hb, h1, h2] at h
        | some (inner, rest) =>
          simp [matchMr, hp, hb, h1, h2] at h
          have hrest : rest = r := by tauto
          subst hrest
          have a1 := splitOnFirst_len _ _ _ _ (by decide) h1
          have a2 := splitOnFirst_len _ _ _ _ (by decide) h2
          have a3 : (l.drop 4).length ≤ l.length := by simp [List.length_drop]
          omega
    · simp [matchMr, hp, hb] at h
  · have hp' : ¬ ((['<', 'm', ':', 'r'] : List Char) <+: l) := by
      simpa [List.isPrefixOf_iff_prefix] using hp
    simp [matchMr, hp'] at h

/-- `omml_to_latex._wrap_bare_text_in_mt`. -/
def _wrap_bare_text_in_mt (xml : String) : String :=
  String.mk (scanRepl matchMr matchMr_len xml.toList)

/-! ## `omml_to_latex.py`: namespace-declaration stripping (line 129)

`re.sub(r'\s+xmlns:\w+="[^"]*"', '', omml_clean)`. -/

def xmlnsTok : List Char := "xmlns:".toList

def matchXmlns (l : List Char) : Option (List Char × List Char) :=
  match l with
  | c :: t =>
    if isPySpace c then
      let rest0 := t.dropWhile (fun x => isPySpace x)
      if xmlnsTok.isPrefixOf rest0 then
        let t2 := rest0.drop 6
        let run := t2.takeWhile (fun x => isWordChar x)
        if run ≠ [] then
          match t2.drop run.length with
          | '=' :: '"' :: t3 =>
            match splitOnFirst ['"'] t3 with
            | some (_, rest) => some ([], rest)
            | none => none
          | _ => none
        else none
      else none
    else none
  | [] => none

theorem matchXmlns_len (l g r : List Char) (h : matchXmlns l = some (g, r)) :
    r.length < l.length := by
  match l with
  | [] => simp [matchXmlns] at h
  | c :: t =>
    by_cases hs : isPySpace c
    · by_cases hx : xmlnsTok.isPrefixOf (t.dropWhile (fun x => isPySpace x))
      · by_cases hr : ((t.dropWhile (fun x => isPySpace x)).drop 6).takeWhile
            (fun x => isWordChar x) ≠ []
        · match h1 : ((t.dropWhile (fun x => isPySpace x)).drop 6).drop
              (((t.dropWhile (fun x => isPySpace x)).drop 6).takeWhile
                (fun x => isWordChar x)).length with
          | [] => simp [matchXmlns, hs, hx, hr, h1] at h
          | [c1] => simp [matchXmlns, hs, hx, hr, h1] at h
          | c1 :: c2 :: t3 =>
            by_cases hc1 : c1 = '='
            · subst hc1
              by_cases hc2 : c2 = '"'
              · subst hc2
                match h2 : splitOnFirst ['"'] t3 with
                | none => simp [matchXmlns, hs, hx, hr, h1, h2] at h
                | some (b, rest) =>
                  simp [matchXmlns, hs, hx, hr, h1, h2] at h
                  have hrest : rest = r := by tauto
                  subst hrest
                  have a1 := splitOnFirst_len _ _ _ _ (by decide) h2
                  have a2 : ('=' :: '"' :: t3).length
                      ≤ ((t.dropWhile (fun x => isPySpace x)).drop 6).length := by
                    rw [← h1]
                    have hx6 : (6 : Nat) ≤ (t.dropWhile (fun x => isPySpace x)).length := by
                      simpa using isPre_len hx
                    simp [List.length_drop]
                    omega
                  have a3 : ((t.dropWhile (fun x => isPySpace x))).length ≤ t.length :=
                    length_dropWhile_le _ _
                  have a4 : ((t.dropWhile (fun x => isPySpace x)).drop 6).length
                      = (t.dropWhile (fun x => isPySpace x)).length - 6 := by
                    simp [List.length_drop]
                  simp at a2 ⊢
                  omega
              · simp [matchXmlns, hs, hx, hr, h1, hc2] at h
            · simp [matchXmlns, hs, hx, hr, h1, hc1] at h
        · simp [matchXmlns, hs, hx, hr] at h
      · simp [matchXmlns, hs, hx] at h
    · simp [matchXmlns, hs] at h

/-- The `re.sub` stripping inlined `xmlns:` declarations. -/
def stripXmlnsDecls (xml : String) : String :=
  String.mk (scanRepl matchXmlns matchXmlns_len xml.toList)

/-! ## `omml_to_latex.py`: `_OMML_TAG_CASE` and `_restore_omml_case`
(lines 207-317) -/

/-- `omml_to_latex._OMML_TAG_CASE`: lowercased OMML/WordML names to their
proper case. -/
def _OMML_TAG_CASE : List (String × String) :=
  [("m:omath", "m:oMath"),
   ("m:omathpara", "m:oMathPara"),
   ("m:r", "m:r"),
   ("m:t", "m:t"),
   ("m:f", "m:f"),
   ("m:fpr", "m:fPr"),
   ("m:num", "m:num"),
   ("m:den", "m:den"),
   ("m:e", "m:e"),
   ("m:sub", "m:sub"),
   ("m:sup", "m:sup"),
   ("m:ssub", "m:sSub"),
   ("m:ssup", "m:sSup"),
   ("m:ssubsup", "m:sSubSup"),
   ("m:nary", "m:nary"),
   ("m:narypr", "m:naryPr"),
   ("m:chr", "m:chr"),
   ("m:limloc", "m:limLoc"),
   ("m:limlow", "m:limLow"),
   ("m:limupp", "m:limUpp"),
   ("m:lim", "m:lim"),
   ("m:rad", "m:rad"),
   ("m:radpr", "m:radPr"),
   ("m:deghide", "m:degHide"),
   ("m:deg", "m:deg"),
   ("m:func", "m:func"),
   ("m:funcpr", "m:funcPr"),
   ("m:fname", "m:fName"),
   ("m:d", "m:d"),
   ("m:dpr", "m:dPr"),
   ("m:begchr", "m:begChr"),
   ("m:endchr", "m:endChr"),
   ("m:eqarr", "m:eqArr"),
   ("m:m", "m:m"),
   ("m:mr", "m:mr"),
   ("m:mpr", "m:mPr"),
   ("m:mcs", "m:mcs"),
   ("m:mc", "m:mc"),
   ("m:mcpr", "m:mcPr"),
   ("m:count", "m:count"),
   ("m:mcjc", "m:mcJc"),
   ("m:ctrlpr", "m:ctrlPr"),
   ("m:rpr", "m:rPr"),
   ("m:sty", "m:sty"),
   ("m:brk", "m:brk"),
   ("m:aln", "m:aln"),
   ("m:bar", "m:bar"),
   ("m:barpr", "m:barPr"),
   ("m:pos", "m:pos"),
   ("m:box", "m:box"),
   ("m:boxpr", "m:boxPr"),
   ("m:acc", "m:acc"),
   ("m:accpr", "m:accPr"),
   ("m:groupchr", "m:groupChr"),
   ("m:groupchrpr", "m:groupChrPr"),
   ("m:borderbox", "m:borderBox"),
   ("m:borderboxpr", "m:borderBoxPr"),
   ("m:phantom", "m:phantom"),
   ("m:phantpr", "m:phantPr"),
   ("m:val", "m:val"),
   ("w:rpr", "w:rPr"),
   ("w:rfonts", "w:rFonts"),
   ("w:ascii", "w:ascii"),
   ("w:i", "w:i"),
   ("w:b", "w:b")]

/-- The name-level mapping used by both `replace_tag` and `replace_attr`
in `_restore_omml_case`: a known lowercased name maps to its proper case;
any other name is returned exactly as received. -/
def replaceOmmlName (name : List Char) : List Char :=
  match _OMML_TAG_CASE.lookup (String.mk (lowerL name)) with
  | some proper => proper.toList
  | none => name

/-- The name part of `_OMML_TAG_RE` after the `</?`:
`(m:[a-zA-Z]+|w:[a-zA-Z]+)(?=[\s/>])` with the lookahead not consumed;
returns the replaced name and the rest from the lookahead character on. -/
def tagNameCore (rest1 : List Char) : Option (List Char × List Char) :=
  match rest1 with
  | p :: ':' :: r2 =>
    if p = 'm' ∨ p = 'w' then
      let run := r2.takeWhile (fun c => c.isAlpha)
      if run ≠ [] then
        match r2.drop run.length with
        | c :: _ =>
          if isPySpace c ∨ c = '/' ∨ c = '>' then
            some (replaceOmmlName (p :: ':' :: run), r2.drop run.length)
          else none
        | [] => none
      else none
    else none
  | _ => none

theorem tagNameCore_len (l g r : List Char) (h : tagNameCore l = some (g, r)) :
    r.length < l.length := by
  match l with
  | [] => simp [tagNameCore] at h
  | [p] => simp [tagNameCore] at h
  | p :: c2 :: r2 =>
    by_cases hc2 : c2 = ':'
    · subst hc2
      by_cases hpw : p = 'm' ∨ p = 'w'
      · by_cases hrun : r2.takeWhile (fun c => c.isAlpha) ≠ []
        · match h1 : r2.drop (r2.takeWhile (fun c => c.isAlpha)).length with
          | [] => simp [tagNameCore, hpw, hrun, h1] at h
          | c :: t2 =>
            by_cases hla : isPySpace c ∨ c = '/' ∨ c = '>'
            · simp [tagNameCore, hpw, hrun, h1, hla] at h
              have hr : _ = r := h.2
              rw [← hr]
              have e1 : (c :: t2).length ≤ r2.length := by
                rw [← h1]; simp [List.length_drop]
              simp at e1 ⊢
              omega
            · simp [tagNameCore, hpw, hrun, h1, hla] at h
        · simp [tagNameCore, hpw, hrun] at h
      · simp [tagNameCore, hpw] at h
    · simp [tagNameCore, hc2] at h

/-- `_OMML_TAG_RE`: `(</?)(m:[a-zA-Z]+|w:[a-zA-Z]+)(?=[\s/>])`, replaced
through `replace_tag`. -/
def matchTagName (l : List Char) : Option (List Char × List Char) :=
  match l with
  | '<' :: '/' :: rest => (tagNameCore rest).map (fun p => ('<' :: '/' :: p.1, p.2))
  | '<' :: rest => (tagNameCore rest).map (fun p => ('<' :: p.1, p.2))
  | _ => none

theorem matchTagName_len (l g r : List Char) (h : matchTagName l = some (g, r)) :
    r.length < l.length := by
  match l with
  | [] => simp [matchTagName] at h
  | [c] =>
    by_cases hc : c = '<'
    · subst hc
      simp [matchTagName, tagNameCore] at h
    · simp [matchTagName, hc] at h
  | c1 :: c2 :: t =>
    by_cases hc : c1 = '<'
    · subst hc
      by_cases hd : c2 = '/'
      · subst hd
        match h1 : tagNameCore t with
        | none => simp [matchTagName, h1] at h
        | some (g1, r1) =>
          simp [matchTagName, h1] at h
          have hr : r1 = r := h.2
          have := tagNameCore_len t g1 r1 h1
          rw [← hr]
          simp
          omega
      · match h1 : tagNameCore (c2 :: t) with
        | none => simp [matchTagName, hd, h1] at h
        | some (g1, r1) =>
          simp [matchTagName, hd, h1] at h
          have hr : r1 = r := h.2
          have := tagNameCore_len (c2 :: t) g1 r1 h1
          rw [← hr]
          simp at this ⊢
          omega
    · simp [matchTagName, hc] at h

/-- The name-and-`=` part of `_OMML_ATTR_RE` after the `\s`:
`(m:[a-zA-Z]+|w:[a-zA-Z]+)(=)`; the `=` is part of the match. -/
def attrNameCore (rest1 : List Char) : Option (List Char × List Char) :=
  match rest1 with
  | p :: ':' :: r2 =>
    if p = 'm' ∨ p = 'w' then
      let run := r2.takeWhile (fun c => c.isAlpha)
      if run ≠ [] then
        match r2.drop run.length with
        | '=' :: r3 => some (replaceOmmlName (p :: ':' :: run), r3)
        | _ => none
      else none
    else none
  | _ => none

theorem attrNameCore_len (l g r : List Char) (h : attrNameCore l = some (g, r)) :
    r.length < l.length := by
  match l with
  | [] => simp [attrNameCore] at h
  | [p] => simp [attrNameCore] at h
  | p :: c2 :: r2 =>
    by_cases hc2 : c2 = ':'
    · subst hc2
      by_cases hpw : p = 'm' ∨ p = 'w'
      · by_cases hrun : r2.takeWhile (fun c => c.isAlpha) ≠ []
        · match h1 : r2.drop (r2.takeWhile (fun c => c.isAlpha)).length with
          | [] => simp [attrNameCore, hpw, hrun, h1] at h
          | c :: t2 =>
            by_cases he : c = '='
            · subst he
              simp [attrNameCore, hpw, hrun, h1] at h
              have hr : t2 = r := h.2
              have e1 : ('=' :: t2).length ≤ r2.length := by
                rw [← h1]; simp [List.length_drop]
              rw [← hr]
              simp at e1 ⊢
              omega
            · simp [attrNameCore, hpw, hrun, h1, he] at h
        · simp [attrNameCore, hpw, hrun] at h
      · simp [attrNameCore, hpw] at h
    · simp [attrNameCore, hc2] at h

/-- `_OMML_ATTR_RE`: `\s(m:[a-zA-Z]+|w:[a-zA-Z]+)(=)`, replaced through
`replace_attr` (the matched whitespace character is replaced by `' '`). -/
def matchAttrName (l : List Char) : Option (List Char × List Char) :=
  match l with
  | c0 :: rest1 =>
    if isPySpace c0 then
      match attrNameCore rest1 with
      | some (name, r3) => some (' ' :: (name ++ ['=']), r3)
      | none => none
    else none
  | [] => none

theorem matchAttrName_len (l g r : List Char) (h : matchAttrName l = some (g, r)) :
    r.length < l.length := by
  match l with
  | [] => simp [matchAttrName] at h
  | c0 :: rest1 =>
    by_cases hs : isPySpace c0
    · match h1 : attrNameCore rest1 with
      | none => simp [matchAttrName, hs, h1] at h
      | some (name, r3) =>
        simp [matchAttrName, hs, h1] at h
        have hr : r3 = r := h.2
        have := attrNameCore_len rest1 name r3 h1
        rw [← hr]
        simp
        omega
    · simp [matchAttrName, hs] at h

/-- `omml_to_latex._restore_omml_case`: the tag pass then the attribute
pass. -/
def _restore_omml_case (xml : String) : String :=
  String.mk (scanRepl matchAttrName matchAttrName_len
    (scanRepl matchTagName matchTagName_len xml.toList))

/-! ## `omml_to_latex.py`: the docx package and the Pandoc call
(lines 12-61, 121-204)

The in-memory zip (`_build_docx_bytes`) is modelled as the four named
parts it contains; the `pandoc` subprocess is an abstract function from
the package's `word/document.xml` content (the only part that varies) to
an outcome. -/

/-- `_DOCUMENT_XML` up to the `{omml}` placeholder. -/
def docXmlHead : String :=
  "<?xml version=\"1.0\" encoding=\"UTF-8\" standalone=\"yes\"?>\n" ++
  "<w:document xmlns:wpc=\"http://schemas.microsoft.com/office/word/2010/wordprocessingCanvas\"\n" ++
  "            xmlns:mc=\"http://schemas.openxmlformats.org/markup-compatibility/2006\"\n" ++
  "            xmlns:o=\"urn:schemas-microsoft-com:office:office\"\n" ++
  "            xmlns:r=\"http://schemas.openxmlformats.org/officeDocument/2006/relationships\"\n" ++
  "            xmlns:m=\"http://schemas.openxmlformats.org/officeDocument/2006/math\"\n" ++
  "            xmlns:v=\"urn:schemas-microsoft-com:vml\"\n" ++
  "            xmlns:wp=\"http://schemas.openxmlformats.org/drawingml/2006/wordprocessingDrawing\"\n" ++
  "            xmlns:w10=\"urn:schemas-microsoft-com:office:word\"\n" ++
  "            xmlns:w=\"http://schemas.openxmlformats.org/wordprocessingml/2006/main\"\n" ++
  "            xmlns:w14=\"http://schemas.microsoft.com/office/word/2010/wordml\"\n" ++
  "            xmlns:wpg=\"http://schemas.microsoft.com/office/word/2010/wordprocessingGroup\"\n" ++
  "            xmlns:wpi=\"http://schemas.microsoft.com/office/word/2010/wordprocessingInk\"\n" ++
  "            xmlns:wne=\"http://schemas.microsoft.com/office/word/2006/wordml\"\n" ++
  "            xmlns:wps=\"http://schemas.microsoft.com/office/word/2010/wordprocessingShape\"\n" ++
  "            mc:Ignorable=\"w14 wp14\">\n" ++
  "  <w:body>\n" ++
  "    <w:p>\n" ++
  "      "

/-- `_DOCUMENT_XML` after the `{omml}` placeholder. -/
def docXmlTail : String :=
  "\n    </w:p>\n  </w:body>\n</w:document>\n"

/-- `_CONTENT_TYPES_XML`. -/
def _CONTENT_TYPES_XML : String :=
  "<?xml version=\"1.0\" encoding=\"UTF-8\" standalone=\"yes\"?>\n" ++
  "<Types xmlns=\"http://schemas.openxmlformats.org/package/2006/content-types\">\n" ++
  "  <Default Extension=\"rels\" ContentType=\"application/vnd.openxmlformats-package.relationships+xml\"/>\n" ++
  "  <Default Extension=\"xml\" ContentType=\"application/xml\"/>\n" ++
  "  <Override PartName=\"/word/document.xml\"\n" ++
  "            ContentType=\"application/vnd.openxmlformats-officedocument.wordprocessingml.document.main+xml\"/>\n" ++
  "</Types>\n"

/-- `_RELS_XML`. -/
def _RELS_XML : String :=
  "<?xml version=\"1.0\" encoding=\"UTF-8\" standalone=\"yes\"?>\n" ++
  "<Relationships xmlns=\"http://schemas.openxmlformats.org/package/2006/relationships\">\n" ++
  "  <Relationship Id=\"rId1\"\n" ++
  "                Type=\"http://schemas.openxmlformats.org/officeDocument/2006/relationships/officeDocument\"\n" ++
  "                Target=\"word/document.xml\"/>\n" ++
  "</Relationships>\n"

/-- `_WORD_RELS_XML`. -/
def _WORD_RELS_XML : String :=
  "<?xml version=\"1.0\" encoding=\"UTF-8\" standalone=\"yes\"?>\n" ++
  "<Relationships xmlns=\"http://schemas.openxmlformats.org/package/2006/relationships\">\n" ++
  "</Relationships>\n"

/-- The four parts of the minimal docx package built by
`_build_docx_bytes` (the zip container byte layout carries no further
information relevant to the conversion). -/
structure Docx where
  contentTypes : String
  rels : String
  wordRels : String
  documentXml : String
deriving DecidableEq, Repr

/-- `omml_to_latex._build_docx_bytes`: clean the fragment (strip HTML
tags, wrap bare text runs, drop inlined `xmlns:` declarations, restore
OMML case) and place it into the envelope. -/
def _build_docx (omml_xml : String) : Docx :=
  let omml_clean := _strip_html_from_omml omml_xml
  let omml_clean := _wrap_bare_text_in_mt omml_clean
  let omml_clean := stripXmlnsDecls omml_clean
  let omml_clean := _restore_omml_case omml_clean
  { contentTypes := _CONTENT_TYPES_XML
    rels := _RELS_XML
    wordRels := _WORD_RELS_XML
    documentXml := docXmlHead ++ omml_clean ++ docXmlTail }

/-- Outcome of the `subprocess.run(["pandoc", …])` call: the binary may
be absent (`FileNotFoundError`), the call may exceed the 10-second
timeout (`TimeoutExpired`), or it completes with an exit code and
standard output. -/
inductive PandocOutcome where
  | missing
  | timeout
  | run (returncode : Int) (stdout : String)
deriving DecidableEq, Repr

/-- The external converter as an abstract function from the built
package's document part to the subprocess outcome. -/
def PandocFn : Type := String → PandocOutcome

/-- `omml_to_latex._strip_math_delimiters`. -/
def _strip_math_delimiters (latex : String) : String :=
  -- re.sub(r'^\\\[', '', …) and re.sub(r'\\\]$', '', …)
  let l := latex.toList
  let l := if ("\\[".toList).isPrefixOf l then l.drop 2 else l
  let l := if ("\\]".toList).isSuffixOf l then l.dropLast.dropLast else l
  -- if latex.startswith('$') and latex.endswith('$'): latex[1:-1]
  let l := if (['$'].isPrefixOf l) && (['$'].isSuffixOf l) then
             (l.drop 1).dropLast
           else l
  -- re.sub(r'^\\\(', '', …) and re.sub(r'\\\)$', '', …)
  let l := if ("\\(".toList).isPrefixOf l then l.drop 2 else l
  let l := if ("\\)".toList).isSuffixOf l then l.dropLast.dropLast else l
  String.mk (stripL l)

/-- `omml_to_latex._fallback_text_extract`:
`re.sub(r'<[^>]+>', '', xml).strip()`. -/
def matchAngleTag (l : List Char) : Option (List Char × List Char) :=
  match l with
  | '<' :: c :: t =>
    if c = '>' then none
    else
      match splitOnFirst ['>'] (c :: t) with
      | some (_, rest) => some ([], rest)
      | none => none
  | _ => none

theorem matchAngleTag_len (l g r : List Char) (h : matchAngleTag l = some (g, r)) :
    r.length < l.length := by
  match l with
  | [] => simp [matchAngleTag] at h
  | [c] => simp [matchAngleTag] at h
  | c1 :: c2 :: t =>
    by_cases hc : c1 = '<'
    · subst hc
      by_cases hg : c2 = '>'
      · simp [matchAngleTag, hg] at h
      · match h1 : splitOnFirst ['>'] (c2 :: t) with
        | none => simp [matchAngleTag, hg, h1] at h
        | some (b, rest) =>
          simp [matchAngleTag, hg, h1] at h
          have hr : rest = r := h.2
          have := splitOnFirst_len _ _ _ _ (by decide) h1
          rw [← hr]
          simp at this ⊢
          omega
    · simp [matchAngleTag, hc] at h

/-- `omml_to_latex._fallback_text_extract`. -/
def _fallback_text_extract (xml : String) : String :=
  pyStrip (String.mk (scanRepl matchAngleTag matchAngleTag_len xml.toList))

/-- `omml_to_latex.omml_to_latex`: builds the package and invokes the
converter.  `FileNotFoundError` (converter absent) is re-raised as a
`RuntimeError` — modelled as `.error` with the source's message; a
non-zero exit or a timeout degrades to `_fallback_text_extract`. -/
def pandocMissingMsg : String :=
  "Pandoc is not installed or not on PATH. " ++
  "Install it from https://pandoc.org/installing.html"

def omml_to_latex (pandoc : PandocFn) (omml_xml : String) : Except String String :=
  let docx := _build_docx omml_xml
  match pandoc docx.documentXml with
  | PandocOutcome.missing => Except.error pandocMissingMsg
  | PandocOutcome.timeout => Except.ok (_fallback_text_extract omml_xml)
  | PandocOutcome.run returncode stdout =>
    if returncode ≠ 0 then Except.ok (_fallback_text_extract omml_xml)
    else Except.ok (_strip_math_delimiters (pyStrip stdout))

/-! ## `parser.py`: the generic tree parser's output

`BeautifulSoup(html, "lxml")` is an external collaborator; its output is
modelled as the `Html` tree below, and the parser itself as an abstract
function `String → Html` (returning the element the source walks:
`soup.body or soup`).  The accessors mirror the `bs4` API used by the
source: `children`, `name`, `get`, `find`, `find_all`, `get_text`,
`str(tag)`. -/

mutual

inductive Html where
  | text (s : String)
  | elem (name : String) (attrs : List (String × String)) (children : HtmlList)

inductive HtmlList where
  | nil : HtmlList
  | cons : Html → HtmlList → HtmlList

end

/-- Build a child list from an ordinary list (for concrete trees). -/
def HtmlList.ofList : List Html → HtmlList
  | [] => HtmlList.nil
  | h :: t => HtmlList.cons h (HtmlList.ofList t)

def HtmlList.toList : HtmlList → List Html
  | HtmlList.nil => []
  | HtmlList.cons h t => h :: HtmlList.toList t

/-- `Html.elem` taking an ordinary list of children. -/
def elemN (name : String) (attrs : List (String × String))
    (children : List Html) : Html :=
  Html.elem name attrs (HtmlList.ofList children)

def Html.childrenOf : Html → HtmlList
  | Html.text _ => HtmlList.nil
  | Html.elem _ _ cs => cs

def Html.nameOf : Html → String
  | Html.text _ => ""
  | Html.elem n _ _ => n

/-- `tag.get(key, dflt)` for string-valued attributes. -/
def Html.attrD : Html → String → String → String
  | Html.text _, _, dflt => dflt
  | Html.elem _ attrs _, key, dflt =>
    match attrs.lookup key with
    | some v => v
    | none => dflt

/-- `tag.find_all(matcher)`: matching descendants in pre-order. -/
def findAllL (p : Html → Bool) : HtmlList → List Html
  | HtmlList.nil => []
  | HtmlList.cons (Html.text s) rest =>
    (if p (Html.text s) then [Html.text s] else []) ++ findAllL p rest
  | HtmlList.cons (Html.elem n a cs) rest =>
    (if p (Html.elem n a cs) then [Html.elem n a cs] else [])
      ++ findAllL p cs ++ findAllL p rest

def Html.findAll (t : Html) (p : Html → Bool) : List Html :=
  findAllL p t.childrenOf

/-- `tag.find(matcher)`: first matching descendant. -/
def Html.findFirst (t : Html) (p : Html → Bool) : Option Html :=
  (t.findAll p).head?

/-- Does an element have the given (exact) tag name? -/
def hasName (n : String) (t : Html) : Bool :=
  match t with
  | Html.text _ => false
  | Html.elem m _ _ => m = n

/-- `tag.get_text()`: concatenated descendant text. -/
def getTextL : HtmlList → String
  | HtmlList.nil => ""
  | HtmlList.cons (Html.text s) rest => s ++ getTextL rest
  | HtmlList.cons (Html.elem _ _ cs) rest => getTextL cs ++ getTextL rest

def Html.getText : Html → String
  | Html.text s => s
  | Html.elem _ _ cs => getTextL cs

/-- `tag.get_text(strip=True)`: each text fragment stripped, then joined. -/
def getTextStripL : HtmlList → String
  | HtmlList.nil => ""
  | HtmlList.cons (Html.text s) rest => pyStrip s ++ getTextStripL rest
  | HtmlList.cons (Html.elem _ _ cs) rest => getTextStripL cs ++ getTextStripL rest

def Html.getTextStrip : Html → String
  | Html.text s => pyStrip s
  | Html.elem _ _ cs => getTextStripL cs

/-- `str(tag)` / `tag.decode_contents()`: `bs4` serialization with `&<>`
escaped in text and `&"<>` in attribute values. -/
def escapeHtmlText (s : String) : String :=
  String.mk (s.toList.flatMap (fun c =>
    if c = '&' then "&amp;".toList
    else if c = '<' then "&lt;".toList
    else if c = '>' then "&gt;".toList
    else [c]))

def escapeHtmlAttr (s : String) : String :=
  String.mk (s.toList.flatMap (fun c =>
    if c = '&' then "&amp;".toList
    else if c = '"' then "&quot;".toList
    else [c]))

mutual

def serializeHtml : Html → String
  | Html.text s => escapeHtmlText s
  | Html.elem n attrs cs =>
    "<" ++ n
      ++ String.join (attrs.map (fun kv =>
            " " ++ kv.1 ++ "=\"" ++ escapeHtmlAttr kv.2 ++ "\""))
      ++ ">" ++ serializeHtmlList cs ++ "</" ++ n ++ ">"

def serializeHtmlList : HtmlList → String
  | HtmlList.nil => ""
  | HtmlList.cons c rest => serializeHtml c ++ serializeHtmlList rest

end

/-! ## `parser.py`: conditional-comment unwrapping (lines 41-75) -/

/-- Case-insensitive variant of `splitOnFirst`, keeping the original text
of the matched pattern region: `some (before, matchedOriginal, after)`. -/
def splitOnFirstCI (pat : List Char) (l : List Char) :
    Option (List Char × List Char × List Char) :=
  match l with
  | [] => none
  | c :: t =>
    if ciPrefix pat (c :: t) then
      some ([], (c :: t).take pat.length, (c :: t).drop pat.length)
    else
      match splitOnFirstCI pat t with
      | some (b, m, a) => some (c :: b, m, a)
      | none => none

theorem splitOnFirstCI_eq (pat l b m a : List Char)
    (h : splitOnFirstCI pat l = some (b, m, a)) : l = b ++ m ++ a := by
  induction l generalizing b with
  | nil => simp [splitOnFirstCI] at h
  | cons c t ih =>
    by_cases hp : ciPrefix pat (c :: t)
    · simp [splitOnFirstCI, hp] at h
      obtain ⟨hb, hm, ha⟩ := h
      subst hb; subst hm; subst ha
      simp
    · simp [splitOnFirstCI, hp] at h
      match hsp : splitOnFirstCI pat t with
      | some (b', m', a') =>
        rw [hsp] at h
        simp at h
        obtain ⟨hb, hm, ha⟩ := h
        subst hb; subst hm; subst ha
        simpa using ih _ hsp
      | none => rw [hsp] at h; simp at h

theorem splitOnFirstCI_lenpat (pat l b m a : List Char)
    (h : splitOnFirstCI pat l = some (b, m, a)) : m.length ≤ pat.length := by
  induction l generalizing b with
  | nil => simp [splitOnFirstCI] at h
  | cons c t ih =>
    by_cases hp : ciPrefix pat (c :: t)
    · simp [splitOnFirstCI, hp] at h
      obtain ⟨_, hm, _⟩ := h
      rw [← hm]
      simp
    · simp [splitOnFirstCI, hp] at h
      match hsp : splitOnFirstCI pat t with
      | some (b', m', a') =>
        rw [hsp] at h
        simp at h
        obtain ⟨hb, hm, ha⟩ := h
        subst hm; subst ha
        exact ih _ hsp
      | none => rw [hsp] at h; simp at h

theorem splitOnFirstCI_len (pat l b m a : List Char) (hne : pat ≠ [])
    (h : splitOnFirstCI pat l = some (b, m, a)) : a.length < l.length := by
  induction l generalizing b with
  | nil => simp [splitOnFirstCI] at h
  | cons c t ih =>
    by_cases hp : ciPrefix pat (c :: t)
    · simp [splitOnFirstCI, hp] at h
      obtain ⟨_, hm, ha⟩ := h
      have hple : 0 < pat.length := List.length_pos.mpr hne
      rw [← ha]
      simp
      omega
    · simp [splitOnFirstCI, hp] at h
      match hsp : splitOnFirstCI pat t with
      | some (b', m', a') =>
        rw [hsp] at h
        simp at h
        obtain ⟨hb, hm, ha⟩ := h
        subst hm; subst ha
        have := ih _ hsp
        simp
        omega
      | none => rw [hsp] at h; simp at h

def condOpenTok : List Char := "<!--[if".toList

def endifTokLower : List Char := "<![endif]-->".toList

def gteTokL : List Char := "gte".toList

def msequationTokL : List Char := "msequation".toList

def notMsequationTokL : List Char := "!msequation".toList

def brackGtTokL : List Char := (']' : Char) :: ['>']

/-! Small deterministic "eat one regex component" helpers used by the
conditional-comment matchers: each returns the remaining text. -/

/-- A case-insensitive literal. -/
def eatCI (tok l : List Char) : Option (List Char) :=
  if ciPrefix tok l then some (l.drop tok.length) else none

/-- A case-sensitive literal. -/
def eatLit (tok l : List Char) : Option (List Char) :=
  if tok.isPrefixOf l then some (l.drop tok.length) else none

/-- `\s+` (greedy). -/
def eatWs1 (l : List Char) : Option (List Char) :=
  match l with
  | c :: t => if isPySpace c then some (t.dropWhile (fun x => isPySpace x)) else none
  | [] => none

/-- `\d+` (greedy). -/
def eatDigits1 (l : List Char) : Option (List Char) :=
  match l with
  | c :: t => if c.isDigit then some (t.dropWhile (fun x => x.isDigit)) else none
  | [] => none

/-- A single `\s`. -/
def eatWsChar (l : List Char) : Option (List Char) :=
  match l with
  | c :: t => if isPySpace c then some t else none
  | [] => none

/-- `[^\]]*\]`: everything through the first `]`. -/
def eatToBracket (l : List Char) : Option (List Char) :=
  (splitOnFirst [']'] l).map (fun p => p.2)

theorem ciPrefix_len {pat l : List Char} (h : ciPrefix pat l = true) :
    pat.length ≤ l.length := by
  have := isPre_len h
  simp [lowerL] at this
  omega

theorem eatCI_lt {tok l t : List Char} (hne : tok ≠ []) (h : eatCI tok l = some t) :
    t.length < l.length := by
  unfold eatCI at h
  by_cases hp : ciPrefix tok l
  · rw [if_pos hp] at h
    simp at h
    have e1 := ciPrefix_len hp
    have e2 : 0 < tok.length := List.length_pos.mpr hne
    rw [← h]
    simp [List.length_drop]
    omega
  · rw [if_neg hp] at h; simp at h

theorem eatLit_lt {tok l t : List Char} (hne : tok ≠ []) (h : eatLit tok l = some t) :
    t.length < l.length := by
  unfold eatLit at h
  by_cases hp : tok.isPrefixOf l
  · rw [if_pos hp] at h
    simp at h
    have e1 := isPre_len hp
    have e2 : 0 < tok.length := List.length_pos.mpr hne
    rw [← h]
    simp [List.length_drop]
    omega
  · rw [if_neg hp] at h; simp at h

theorem eatWs1_lt {l t : List Char} (h : eatWs1 l = some t) : t.length < l.length := by
  match l with
  | [] => simp [eatWs1] at h
  | c :: r =>
    by_cases hc : isPySpace c
    · simp [eatWs1, hc] at h
      have := length_dropWhile_le (fun x => isPySpace x) r
      rw [← h]
      simp
      omega
    · simp [eatWs1, hc] at h

theorem eatDigits1_lt {l t : List Char} (h : eatDigits1 l = some t) :
    t.length < l.length := by
  match l with
  | [] => simp [eatDigits1] at h
  | c :: r =>
    by_cases hc : c.isDigit
    · simp [eatDigits1, hc] at h
      have := length_dropWhile_le (fun x => x.isDigit) r
      rw [← h]
      simp
      omega
    · simp [eatDigits1, hc] at h

theorem eatWsChar_lt {l t : List Char} (h : eatWsChar l = some t) :
    t.length < l.length := by
  match l with
  | [] => simp [eatWsChar] at h
  | c :: r =>
    by_cases hc : isPySpace c
    · simp [eatWsChar, hc] at h
      rw [← h]
      simp
    · simp [eatWsChar, hc] at h

theorem eatToBracket_lt {l t : List Char} (h : eatToBracket l = some t) :
    t.length < l.length := by
  unfold eatToBracket at h
  match h1 : splitOnFirst [']'] l with
  | none => rw [h1] at h; simp at h
  | some (b, a) =>
    rw [h1] at h
    simp at h
    rw [← h]
    exact splitOnFirst_len _ _ _ _ (by decide) h1

/-- `_OMML_CONDITIONAL_RE`:
`<!--\[if\s+gte\s+msEquation\s+\d+\]>(.*?)<!\[endif\]-->` (CI, DOTALL),
replaced by the group — i.e. the wrapper is removed, the content kept. -/
def matchOmmlCond (l : List Char) : Option (List Char × List Char) := do
  let t1 ← eatCI condOpenTok l
  let t2 ← eatWs1 t1
  let t3 ← eatCI gteTokL t2
  let t4 ← eatWs1 t3
  let t5 ← eatCI msequationTokL t4
  let t6 ← eatWs1 t5
  let t7 ← eatDigits1 t6
  let t8 ← eatLit brackGtTokL t7
  let (inner, _, rest) ← splitOnFirstCI endifTokLower t8
  pure (inner, rest)

/-- `_FALLBACK_CONDITIONAL_RE`:
`<!--\[if\s+!msEquation\]>.*?<!\[endif\]-->` (CI, DOTALL) → `''`. -/
def matchFallbackCond (l : List Char) : Option (List Char × List Char) := do
  let t1 ← eatCI condOpenTok l
  let t2 ← eatWs1 t1
  let t3 ← eatCI notMsequationTokL t2
  let t4 ← eatLit brackGtTokL t3
  let (_, _, rest) ← splitOnFirstCI endifTokLower t4
  pure ([], rest)

/-- `_REMAINING_CONDITIONAL_RE`:
`<!--\[if\s[^\]]*\]>.*?<!\[endif\]-->` (DOTALL, case-sensitive) → `''`. -/
def matchRemainingCond (l : List Char) : Option (List Char × List Char) := do
  let t1 ← eatLit condOpenTok l
  let t2 ← eatWsChar t1
  let t3 ← eatToBracket t2
  let t4 ← eatLit ['>'] t3
  let p ← splitOnFirst endifTokLower t4
  pure ([], p.2)

theorem matchOmmlCond_len (l g r : List Char) (h : matchOmmlCond l = some (g, r)) :
    r.length < l.length := by
  unfold matchOmmlCond at h
  match h1 : eatCI condOpenTok l with
  | none => simp [h1] at h
  | some t1 =>
  match h2 : eatWs1 t1 with
  | none => simp [h1, h2] at h
  | some t2 =>
  match h3 : eatCI gteTokL t2 with
  | none => simp [h1, h2, h3] at h
  | some t3 =>
  match h4 : eatWs1 t3 with
  | none => simp [h1, h2, h3, h4] at h
  | some t4 =>
  match h5 : eatCI msequationTokL t4 with
  | none => simp [h1, h2, h3, h4, h5] at h
  | some t5 =>
  match h6 : eatWs1 t5 with
  | none => simp [h1, h2, h3, h4, h5, h6] at h
  | some t6 =>
  match h7 : eatDigits1 t6 with
  | none => simp [h1, h2, h3, h4, h5, h6, h7] at h
  | some t7 =>
  match h8 : eatLit brackGtTokL t7 with
  | none => simp [h1, h2, h3, h4, h5, h6, h7, h8] at h
  | some t8 =>
  match h9 : splitOnFirstCI endifTokLower t8 with
  | none => simp [h1, h2, h3, h4, h5, h6, h7, h8, h9] at h
  | some (inner, morig, rest) =>
    simp [h1, h2, h3, h4, h5, h6, h7, h8, h9] at h
    have hr : rest = r := h.2
    have e1 := eatCI_lt (by decide) h1
    have e2 := eatWs1_lt h2
    have e3 := eatCI_lt (by decide) h3
    have e4 := eatWs1_lt h4
    have e5 := eatCI_lt (by decide) h5
    have e6 := eatWs1_lt h6
    have e7 := eatDigits1_lt h7
    have e8 := eatLit_lt (by decide) h8
    have e9 := splitOnFirstCI_len _ _ _ _ _ (by decide) h9
    subst hr
    omega

theorem matchFallbackCond_len (l g r : List Char) (h : matchFallbackCond l = some (g, r)) :
    r.length < l.length := by
  unfold matchFallbackCond at h
  match h1 : eatCI condOpenTok l with
  | none => simp [h1] at h
  | some t1 =>
  match h2 : eatWs1 t1 with
  | none => simp [h1, h2] at h
  | some t2 =>
  match h3 : eatCI notMsequationTokL t2 with
  | none => simp [h1, h2, h3] at h
  | some t3 =>
  match h4 : eatLit brackGtTokL t3 with
  | none => simp [h1, h2, h3, h4] at h
  | some t4 =>
  match h5 : splitOnFirstCI endifTokLower t4 with
  | none => simp [h1, h2, h3, h4, h5] at h
  | some (inner, morig, rest) =>
    simp [h1, h2, h3, h4, h5] at h
    have hr : rest = r := h.2
    have e1 := eatCI_lt (by decide) h1
    have e2 := eatWs1_lt h2
    have e3 := eatCI_lt (by decide) h3
    have e4 := eatLit_lt (by decide) h4
    have e5 := splitOnFirstCI_len _ _ _ _ _ (by decide) h5
    subst hr
    omega

theorem matchRemainingCond_len (l g r : List Char) (h : matchRemainingCond l = some (g, r)) :
    r.length < l.length := by
  unfold matchRemainingCond at h
  match h1 : eatLit condOpenTok l with
  | none => simp [h1] at h
  | some t1 =>
  match h2 : eatWsChar t1 with
  | none => simp [h1, h2] at h
  | some t2 =>
  match h3 : eatToBracket t2 with
  | none => simp [h1, h2, h3] at h
  | some t3 =>
  match h4 : eatLit ['>'] t3 with
  | none => simp [h1, h2, h3, h4] at h
  | some t4 =>
  match h5 : splitOnFirst endifTokLower t4 with
  | none => simp [h1, h2, h3, h4, h5] at h
  | some (b, rest) =>
    simp [h1, h2, h3, h4, h5] at h
    have hr : rest = r := h.2
    have e1 := eatLit_lt (by decide) h1
    have e2 := eatWsChar_lt h2
    have e3 := eatToBracket_lt h3
    have e4 := eatLit_lt (by decide) h4
    have e5 := splitOnFirst_len _ _ _ _ (by decide) h5
    subst hr
    omega

/-- `parser._unwrap_omml_conditionals`: unwrap the `gte msEquation`
blocks, strip the `!msEquation` fallbacks, strip remaining conditional
comments. -/
def _unwrap_omml_conditionals (html : String) : String :=
  String.mk (scanRepl matchRemainingCond matchRemainingCond_len
    (scanRepl matchFallbackCond matchFallbackCond_len
      (scanRepl matchOmmlCond matchOmmlCond_len html.toList)))

/-! ## `parser.py`: OMML placeholder extraction (lines 78-129) -/

/-- Match `<m:oMathPara\b[^>]*>.*?</m:oMathPara>` (or the `oMath`
variant; CI, DOTALL) at the head; returns the matched text verbatim and
the rest. -/
def matchOmmlBlock (openTokL closeTokL : List Char) (l : List Char) :
    Option (List Char × List Char) :=
  if ciPrefix openTokL l then
    let t := l.drop openTokL.length
    let bOk : Bool := match t with
                      | [] => true
                      | c :: _ => !isWordChar c
    if bOk then
      match splitOnFirst ['>'] t with
      | some (attrs, afterGt) =>
        match splitOnFirstCI closeTokL afterGt with
        | some (inner, closeOrig, rest) =>
          some (l.take openTokL.length ++ attrs ++ '>' :: inner ++ closeOrig, rest)
        | none => none
      | none => none
    else none
  else none

theorem matchOmmlBlock_len (ot ct : List Char) (hct : ct ≠ []) (l g r : List Char)
    (h : matchOmmlBlock ot ct l = some (g, r)) : r.length < l.length := by
  by_cases hp : ciPrefix ot l
  · by_cases hb : (match l.drop ot.length with
                   | [] => true
                   | c :: _ => !isWordChar c) = true
    · match h1 : splitOnFirst ['>'] (l.drop ot.length) with
      | none => simp [matchOmmlBlock, hp, hb, h1] at h
      | some (attrs, afterGt) =>
        match h2 : splitOnFirstCI ct afterGt with
        | none => simp [matchOmmlBlock, hp, hb, h1, h2] at h
        | some (inner, closeOrig, rest) =>
          simp [matchOmmlBlock, hp, hb, h1, h2] at h
          have hr : rest = r := by tauto
          subst hr
          have e1 := splitOnFirst_len _ _ _ _ (by decide) h1
          have e2 := splitOnFirstCI_len _ _ _ _ _ hct h2
          have e3 : (l.drop ot.length).length ≤ l.length := by simp [List.length_drop]
          omega
    · simp [matchOmmlBlock, hp, hb] at h
  · simp [matchOmmlBlock, hp] at h

def oMathParaOpenL : List Char := "<m:omathpara".toList

def oMathParaCloseL : List Char := "</m:omathpara>".toList

def oMathOpenL : List Char := "<m:omath".toList

def oMathCloseL : List Char := "</m:omath>".toList

/-- `_DISPLAY_PLACEHOLDER.format(id)`. -/
def displayPlaceholder (id : Nat) : List Char :=
  ("<omml-display data-id=\"" ++ toString id ++ "\"></omml-display>").toList

/-- `_INLINE_PLACEHOLDER.format(id)`. -/
def inlinePlaceholder (id : Nat) : List Char :=
  ("<omml-inline data-id=\"" ++ toString id ++ "\"></omml-inline>").toList

/-- One `re.sub` pass with the id counter and the `id → original text`
table threaded through (the `replace_display` / `replace_inline`
closures). -/
def extractPassF (m : List Char → Option (List Char × List Char))
    (mkPh : Nat → List Char) :
    Nat → Nat → List Char → List Char × List (String × String) × Nat
  | 0, counter, l => (l, [], counter)
  | fuel + 1, counter, l =>
    match m l with
    | some (blk, rest) =>
      let res := extractPassF m mkPh fuel (counter + 1) rest
      (mkPh counter ++ res.1, (toString counter, String.mk blk) :: res.2.1,
        res.2.2)
    | none =>
      match l with
      | [] => ([], [], counter)
      | c :: t =>
        let res := extractPassF m mkPh fuel counter t
        (c :: res.1, res.2.1, res.2.2)

/-- The matcher only ever shrinks its input (`hm`), so fuel
`l.length + 1` always suffices (`extractPassF_congr`). -/
def extractPass (m : List Char → Option (List Char × List Char))
    (_hm : ∀ l g r, m l = some (g, r) → r.length < l.length)
    (mkPh : Nat → List Char)
    (counter : Nat) (l : List Char) :
    List Char × List (String × String) × Nat :=
  extractPassF m mkPh (l.length + 1) counter l

theorem extractPassF_succ (m : List Char → Option (List Char × List Char))
    (mkPh : Nat → List Char) (fuel counter : Nat) (l : List Char) :
    extractPassF m mkPh (fuel + 1) counter l =
      match m l with
      | some (blk, rest) =>
        let res := extractPassF m mkPh fuel (counter + 1) rest
        (mkPh counter ++ res.1, (toString counter, String.mk blk) :: res.2.1,
          res.2.2)
      | none =>
        match l with
        | [] => ([], [], counter)
        | c :: t =>
          let res := extractPassF m mkPh fuel counter t
          (c :: res.1, res.2.1, res.2.2) := rfl

theorem extractPassF_congr (m : List Char → Option (List Char × List Char))
    (mkPh : Nat → List Char)
    (hm : ∀ l g r, m l = some (g, r) → r.length < l.length) :
    ∀ (f1 f2 counter : Nat) (l : List Char), l.length < f1 → l.length < f2 →
      extractPassF m mkPh f1 counter l = extractPassF m mkPh f2 counter l := by
  intro f1
  induction f1 with
  | zero => intro f2 counter l h1; omega
  | succ g1 ih =>
    intro f2 counter l h1 h2
    match f2 with
    | 0 => omega
    | g2 + 1 =>
      rw [extractPassF_succ, extractPassF_succ]
      match hml : m l with
      | some (blk, rest) =>
        have := hm l blk rest hml
        simp only [hml]
        rw [ih g2 (counter + 1) rest (by omega) (by omega)]
      | none =>
        simp only [hml]
        match l with
        | [] => rfl
        | c :: t =>
          simp only [List.length_cons] at h1 h2
          dsimp only
          rw [ih g2 counter t (by omega) (by omega)]

/-- One-step unfolding of `extractPass`. -/
theorem extractPass_eq (m : List Char → Option (List Char × List Char))
    (hm : ∀ l g r, m l = some (g, r) → r.length < l.length)
    (mkPh : Nat → List Char) (counter : Nat) (l : List Char) :
    extractPass m hm mkPh counter l =
      match m l with
      | some (blk, rest) =>
        let res := extractPass m hm mkPh (counter + 1) rest
        (mkPh counter ++ res.1, (toString counter, String.mk blk) :: res.2.1,
          res.2.2)
      | none =>
        match l with
        | [] => ([], [], counter)
        | c :: t =>
          let res := extractPass m hm mkPh counter t
          (c :: res.1, res.2.1, res.2.2) := by
  unfold extractPass
  rw [extractPassF_succ]
  match hml : m l with
  | some (blk, rest) =>
    have := hm l blk rest hml
    simp only [hml]
    rw [extractPassF_congr m mkPh hm l.length (rest.length + 1) (counter + 1)
      rest (by omega) (by omega)]
  | none =>
    simp only [hml]
    match l with
    | [] => rfl
    | c :: t =>
      dsimp only
      rw [extractPassF_congr m mkPh hm (c :: t).length (t.length + 1) counter t
        (by simp) (by omega)]

/-- `parser._extract_omml_blocks`: display blocks first, then the
remaining standalone inline blocks; the id counter is shared. -/
def _extract_omml_blocks (html : String) :
    String × List (String × String) × List (String × String) :=
  let d := extractPass (matchOmmlBlock oMathParaOpenL oMathParaCloseL)
    (matchOmmlBlock_len _ _ (by decide)) displayPlaceholder 0 html.toList
  let i := extractPass (matchOmmlBlock oMathOpenL oMathCloseL)
    (matchOmmlBlock_len _ _ (by decide)) inlinePlaceholder d.2.2 d.1
  (String.mk i.1, d.2.1, i.2.1)

/-! ## `parser.py`: `_detect_math_env_from_xml` (lines 132-143) -/

/-- Count `re.findall(r'<m:oMath\b', xml, re.IGNORECASE)` (matches cannot
overlap; the scan resumes after each match). -/
def countOmathF : Nat → List Char → Nat
  | 0, _ => 0
  | fuel + 1, l =>
    match l with
    | [] => 0
    | c :: t =>
      if ciPrefix oMathOpenL (c :: t) &&
         (match (c :: t).drop oMathOpenL.length with
          | [] => true
          | x :: _ => !isWordChar x) then
        1 + countOmathF fuel ((c :: t).drop oMathOpenL.length)
      else countOmathF fuel t

/-- Each step consumes at least one character (the tag on a match, the
head otherwise), so fuel `l.length + 1` always suffices. -/
def countOmath (l : List Char) : Nat :=
  countOmathF (l.length + 1) l

/-- `re.search(r'<m:m\b', xml_lower)` as a Bool. -/
def hasMatrixTag (l : List Char) : Bool :=
  match l with
  | [] => false
  | _ :: t =>
    (("<m:m".toList).isPrefixOf l &&
      (match l.drop 4 with
       | [] => true
       | c :: _ => !isWordChar c))
    || hasMatrixTag t

/-- `parser._detect_math_env_from_xml`. -/
def _detect_math_env_from_xml (xml : String) : String :=
  let xmlLower := String.mk (lowerL xml.toList)
  if pyContains "<m:eqarr" xmlLower then "aligned"
  else if 1 < countOmath xml.toList then "multiline"
  else if hasMatrixTag xmlLower.toList then "pmatrix"
  else ""

/-! ## `parser.py`: `NodeType`, `DocNode` (lines 12-32) and the tree walk
(lines 150-462) -/

inductive NodeType where
  | text
  | inline_math
  | display_math
  | heading
  | list
  | paragraph
  | table
deriving Repr, DecidableEq

mutual

/-- `parser.DocNode`.  `children` is a list of nodes and `table_rows` a
list of rows of cells (a cell being a list of nodes); the lists are
given as the mutual types `DNList` / `CellList` / `RowList` so that all
recursion over the tree is structural. -/
inductive DocNode where
  | mk (type : NodeType) (content : String) (level : Nat)
       (children : DNList) (omml_xml : String) (html : String)
       (list_ordered : Bool) (math_env : String)
       (table_rows : RowList)

inductive DNList where
  | nil : DNList
  | cons : DocNode → DNList → DNList

inductive CellList where
  | nil : CellList
  | cons : DNList → CellList → CellList

inductive RowList where
  | nil : RowList
  | cons : CellList → RowList → RowList

end

def DNList.ofList : List DocNode → DNList
  | [] => DNList.nil
  | h :: t => DNList.cons h (DNList.ofList t)

def DNList.toList : DNList → List DocNode
  | DNList.nil => []
  | DNList.cons h t => h :: DNList.toList t

def CellList.ofCells : List (List DocNode) → CellList
  | [] => CellList.nil
  | c :: t => CellList.cons (DNList.ofList c) (CellList.ofCells t)

def RowList.ofRows : List (List (List DocNode)) → RowList
  | [] => RowList.nil
  | r :: t => RowList.cons (CellList.ofCells r) (RowList.ofRows t)

def DocNode.type : DocNode → NodeType
  | DocNode.mk t _ _ _ _ _ _ _ _ => t

def DocNode.content : DocNode → String
  | DocNode.mk _ c _ _ _ _ _ _ _ => c

def DocNode.level : DocNode → Nat
  | DocNode.mk _ _ lv _ _ _ _ _ _ => lv

def DocNode.children : DocNode → DNList
  | DocNode.mk _ _ _ ch _ _ _ _ _ => ch

def DocNode.omml_xml : DocNode → String
  | DocNode.mk _ _ _ _ o _ _ _ _ => o

def DocNode.htmlOf : DocNode → String
  | DocNode.mk _ _ _ _ _ h _ _ _ => h

def DocNode.list_ordered : DocNode → Bool
  | DocNode.mk _ _ _ _ _ _ lo _ _ => lo

def DocNode.math_env : DocNode → String
  | DocNode.mk _ _ _ _ _ _ _ me _ => me

def DocNode.table_rows : DocNode → RowList
  | DocNode.mk _ _ _ _ _ _ _ _ tr => tr

/-- `DocNode(type=TEXT, content=…, html=…)`. -/
def textDoc (content html : String) : DocNode :=
  DocNode.mk NodeType.text content 0 DNList.nil "" html false "" RowList.nil

/-- `DocNode(type=DISPLAY_MATH, omml_xml=…, math_env=…)`. -/
def displayDoc (omml env : String) : DocNode :=
  DocNode.mk NodeType.display_math "" 0 DNList.nil omml "" false env RowList.nil

/-- `DocNode(type=INLINE_MATH, omml_xml=…)`. -/
def inlineDoc (omml : String) : DocNode :=
  DocNode.mk NodeType.inline_math "" 0 DNList.nil omml "" false "" RowList.nil

/-- `DocNode(type=HEADING, content=…, level=…)`. -/
def headingDoc (content : String) (level : Nat) : DocNode :=
  DocNode.mk NodeType.heading content level DNList.nil "" "" false "" RowList.nil

/-- `parser._normalize_text`: collapse whitespace runs to one space, then
strip. -/
def collapseWsF : Nat → List Char → List Char
  | 0, l => l
  | fuel + 1, l =>
    match l with
    | [] => []
    | c :: t =>
      if isPySpace c then
        ' ' :: collapseWsF fuel (t.dropWhile (fun x => isPySpace x))
      else c :: collapseWsF fuel t

/-- Each step consumes at least the head character, so fuel
`l.length + 1` always suffices. -/
def collapseWs (l : List Char) : List Char :=
  collapseWsF (l.length + 1) l

def _normalize_text (s : String) : String :=
  pyStrip (String.mk (collapseWs s.toList))

/-- `parser._FORMATTING_TAGS`. -/
def _FORMATTING_TAGS : List String :=
  ["b", "strong", "i", "em", "u", "sup", "sub", "s", "strike"]

/-- `HEADING_RE.match(c)`: does the class token start (case-insensitively)
with `MsoHeading` followed by a digit?  Returns the digit. -/
def msoHeadingLevel (w : String) : Option Nat :=
  let l := w.toList
  if ciPrefix ("msoheading".toList) l then
    match l.drop 10 with
    | d :: _ => if d.isDigit then some (d.toNat - '0'.toNat) else none
    | [] => none
  else none

/-- Python `str.split()` (split on whitespace runs, no empty pieces). -/
def splitWsWordsF : Nat → List Char → List String
  | 0, _ => []
  | fuel + 1, l =>
    match l.dropWhile (fun c => isPySpace c) with
    | [] => []
    | c :: t =>
      let w := (c :: t).takeWhile (fun x => !isPySpace x)
      String.mk w :: splitWsWordsF fuel ((c :: t).drop w.length)

/-- Each step consumes at least the first word character, so fuel
`l.length + 1` always suffices. -/
def splitWsWords (l : List Char) : List String :=
  splitWsWordsF (l.length + 1) l

/-- `parser._detect_heading`: `h1`-`h6` by name, else the first class
token matching `MsoHeading<digit>`. -/
def _detect_heading (name : String) (attrs : List (String × String)) : Option Nat :=
  let n := String.mk (lowerL name.toList)
  if n = "h1" then some 1
  else if n = "h2" then some 2
  else if n = "h3" then some 3
  else if n = "h4" then some 4
  else if n = "h5" then some 5
  else if n = "h6" then some 6
  else
    let cls := match attrs.lookup "class" with
               | some v => splitWsWords v.toList
               | none => []
    cls.findSome? msoHeadingLevel

def Html.attrsOf : Html → List (String × String)
  | Html.text _ => []
  | Html.elem _ a _ => a

/-- `blocks.get(block_id, "")`. -/
def lookupD (tbl : List (String × String)) (k : String) : String :=
  match tbl.lookup k with
  | some v => v
  | none => ""

/-- `parser._extract_inline` (lines 358-394), as a function from the
parent's children to the extracted inline nodes. -/
def _extract_inline (inl : List (String × String)) : HtmlList → List DocNode
  | HtmlList.nil => []
  | HtmlList.cons (Html.text s) rest =>
    let t := _normalize_text s
    (if t ≠ "" then [textDoc t t] else []) ++ _extract_inline inl rest
  | HtmlList.cons (Html.elem n a cs) rest =>
    (let child := Html.elem n a cs
     let tag := String.mk (lowerL n.toList)
     if tag = "omml-inline" then
       let xml := lookupD inl (child.attrD "data-id" "")
       if xml ≠ "" then [inlineDoc xml] else []
     else if _FORMATTING_TAGS.contains tag then
       let text := child.getText
       if pyStrip text ≠ "" then [textDoc text (serializeHtml child)] else []
     else
       let inner := _extract_inline inl cs
       if inner.isEmpty then
         let text := child.getText
         if pyStrip text ≠ "" then [textDoc text (serializeHtml child)] else []
       else inner)
    ++ _extract_inline inl rest

/-- `parser._handle_list` (lines 397-409). -/
def _handle_list (t : Html) : List DocNode :=
  match t with
  | Html.elem n _ cs =>
    let ordered := String.mk (lowerL n.toList) = "ol"
    let items := cs.toList.filterMap (fun c =>
      match c with
      | Html.elem cn _ _ =>
        if String.mk (lowerL cn.toList) = "li" then
          some (textDoc c.getTextStrip (serializeHtml c))
        else none
      | Html.text _ => none)
    [DocNode.mk NodeType.list "" 0 (DNList.ofList items) "" "" ordered ""
      RowList.nil]
  | Html.text _ => []

/-- `parser._handle_paragraph` (lines 262-302). -/
def _handle_paragraph (disp inl : List (String × String)) (p : Html) : List DocNode :=
  match p.findFirst (hasName "omml-display") with
  | some ph =>
    let xml := lookupD disp (ph.attrD "data-id" "")
    if xml ≠ "" then [displayDoc xml (_detect_math_env_from_xml xml)] else []
  | none =>
    match _detect_heading p.nameOf p.attrsOf with
    | some lv => [headingDoc p.getTextStrip lv]
    | none =>
      let para := _extract_inline inl p.childrenOf
      match para with
      | [] => []
      | [single] => [single]
      | _ => [DocNode.mk NodeType.paragraph "" 0 (DNList.ofList para) ""
                (serializeHtml p) false "" RowList.nil]

/-- `parser._handle_word_paragraph` (lines 305-350). -/
def _handle_word_paragraph (disp inl : List (String × String)) (wp : Html) : List DocNode :=
  match wp.findFirst (hasName "omml-display") with
  | some ph =>
    let xml := lookupD disp (ph.attrD "data-id" "")
    if xml ≠ "" then [displayDoc xml (_detect_math_env_from_xml xml)] else []
  | none =>
    let found := wp.findAll (fun t => hasName "w:t" t || hasName "omml-inline" t)
    let para := found.flatMap (fun wt =>
      let tag := String.mk (lowerL wt.nameOf.toList)
      if tag = "omml-inline" then
        let xml := lookupD inl (wt.attrD "data-id" "")
        if xml ≠ "" then [inlineDoc xml] else []
      else if tag = "w:t" then
        let text := wt.getText
        if pyStrip text ≠ "" then [textDoc text text] else []
      else [])
    match para with
    | [] => []
    | [single] => [single]
    | _ => [DocNode.mk NodeType.paragraph "" 0 (DNList.ofList para) "" "" false
              "" RowList.nil]

/-- `parser._extract_cell_content` (lines 434-462). -/
def _extract_cell_content (disp inl : List (String × String)) (cell : Html) :
    List DocNode :=
  let paragraphs := cell.findAll (hasName "p")
  if paragraphs.isEmpty then _extract_inline inl cell.childrenOf
  else
    paragraphs.flatMap (fun p =>
      match p.findFirst (hasName "omml-display") with
      | some ph =>
        let xml := lookupD disp (ph.attrD "data-id" "")
        if xml ≠ "" then [displayDoc xml (_detect_math_env_from_xml xml)] else []
      | none => _extract_inline inl p.childrenOf)

/-- `parser._handle_table` (lines 412-431). -/
def _handle_table (disp inl : List (String × String)) (tbl : Html) : List DocNode :=
  let rows := (tbl.findAll (hasName "tr")).filterMap (fun tr =>
    let row_cells := (tr.findAll (fun c => hasName "td" c || hasName "th" c)).map
      (fun cell => _extract_cell_content disp inl cell)
    if row_cells.isEmpty then none else some row_cells)
  if rows.isEmpty then []
  else [DocNode.mk NodeType.table "" 0 DNList.nil "" "" false ""
          (RowList.ofRows rows)]

/-- `parser._walk_elements` (lines 173-243), as a function from the
parent's children to the extracted nodes. -/
def walkChildren (disp inl : List (String × String)) : HtmlList → List DocNode
  | HtmlList.nil => []
  | HtmlList.cons (Html.text s) rest =>
    (let t := _normalize_text s
     if t ≠ "" ∧ t ≠ "StartFragment" ∧ t ≠ "EndFragment" then [textDoc t t] else [])
    ++ walkChildren disp inl rest
  | HtmlList.cons (Html.elem n a cs) rest =>
    (let child := Html.elem n a cs
     let tag := String.mk (lowerL n.toList)
     if tag = "omml-display" then
       let xml := lookupD disp (child.attrD "data-id" "")
       if xml ≠ "" then [displayDoc xml (_detect_math_env_from_xml xml)] else []
     else if tag = "omml-inline" then
       let xml := lookupD inl (child.attrD "data-id" "")
       if xml ≠ "" then [inlineDoc xml] else []
     else if tag = "table" then _handle_table disp inl child
     else if tag = "ul" ∨ tag = "ol" then _handle_list child
     else if tag = "p" then _handle_paragraph disp inl child
     else
       match _detect_heading n a with
       | some lv => [headingDoc child.getTextStrip lv]
       | none =>
         if tag = "w:p" then _handle_word_paragraph disp inl child
         else walkChildren disp inl cs)
    ++ walkChildren disp inl rest

/-- `parser.parse_clipboard_html`, parameterized by the generic tree
parser (`BeautifulSoup(html, "lxml")` plus the `soup.body or soup`
selection). -/
def parse_clipboard_html (bs4 : String → Html) (html : String) : List DocNode :=
  let html1 := _unwrap_omml_conditionals html
  let er := _extract_omml_blocks html1
  let body := bs4 er.1
  walkChildren er.2.1 er.2.2 body.childrenOf

/-! ## `html_to_latex.py` -/

/-- `str.replace(pat, rep)`: all non-overlapping occurrences, left to
right, the replacement not rescanned. -/
def replaceAllF (pat rep : List Char) : Nat → List Char → List Char
  | 0, l => l
  | fuel + 1, l =>
    match splitOnFirst pat l with
    | none => l
    | some (b, a) => b ++ rep ++ replaceAllF pat rep fuel a

/-- Each step consumes at least the nonempty pattern (`hne` with
`splitOnFirst_len`), so fuel `l.length + 1` always suffices. -/
def replaceAllL (pat rep : List Char) (_hne : pat ≠ []) (l : List Char) :
    List Char :=
  replaceAllF pat rep (l.length + 1) l

/-- `html_to_latex._escape_latex`: the source's sequence of `str.replace`
calls (note the backslash is replaced first, and the brace replacements
later re-escape the braces it introduced). -/
def _escape_latex (text : String) : String :=
  let l := text.toList
  let l := replaceAllL "\\".toList "\\textbackslash\x7b\x7d".toList (by decide) l
  let l := replaceAllL "&".toList "\\&".toList (by decide) l
  let l := replaceAllL "%".toList "\\%".toList (by decide) l
  let l := replaceAllL "$".toList "\\$".toList (by decide) l
  let l := replaceAllL "#".toList "\\#".toList (by decide) l
  let l := replaceAllL "_".toList "\\_".toList (by decide) l
  let l := replaceAllL "\x7b".toList "\\\x7b".toList (by decide) l
  let l := replaceAllL "\x7d".toList "\\\x7d".toList (by decide) l
  let l := replaceAllL "~".toList "\\textasciitilde\x7b\x7d".toList (by decide) l
  let l := replaceAllL "^".toList "\\textasciicircum\x7b\x7d".toList (by decide) l
  String.mk l

/-- `html_to_latex._heading_command`. -/
def _heading_command (level : Nat) : String :=
  if level = 1 then "section"
  else if level = 2 then "subsection"
  else if level = 3 then "subsubsection"
  else if level = 4 then "paragraph"
  else if level = 5 then "subparagraph"
  else if level = 6 then "subparagraph"
  else "section"

/-- First `MsoHeading<digit>` class token of an element's `class`
attribute (the renderers re-run `HEADING_RE` inline). -/
def msoClassLevel (attrs : List (String × String)) : Option Nat :=
  let cls := match attrs.lookup "class" with
             | some v => splitWsWords v.toList
             | none => []
  cls.findSome? msoHeadingLevel

mutual

/-- `html_to_latex._convert_element`. -/
def convertElementLatex : Html → String
  | Html.text s => _escape_latex s
  | Html.elem n attrs cs =>
    let tag := String.mk (lowerL n.toList)
    let inner := convertElementLatexList cs
    if tag = "b" ∨ tag = "strong" then "\\textbf\x7b" ++ inner ++ "\x7d"
    else if tag = "i" ∨ tag = "em" then "\\textit\x7b" ++ inner ++ "\x7d"
    else if tag = "u" then "\\underline\x7b" ++ inner ++ "\x7d"
    else if tag = "sup" then "\\textsuperscript\x7b" ++ inner ++ "\x7d"
    else if tag = "sub" then "\\textsubscript\x7b" ++ inner ++ "\x7d"
    else if tag = "br" then " \\\\\n"
    else if tag = "ul" then
      let items := collectListItemsLatex cs
      "\\begin\x7bitemize\x7d\n"
        ++ String.intercalate "\n" (items.map (fun it => "  \\item " ++ it))
        ++ "\n\\end\x7bitemize\x7d"
    else if tag = "ol" then
      let items := collectListItemsLatex cs
      "\\begin\x7benumerate\x7d\n"
        ++ String.intercalate "\n" (items.map (fun it => "  \\item " ++ it))
        ++ "\n\\end\x7benumerate\x7d"
    else if tag = "li" then inner
    else if tag = "p" then inner ++ "\n\n"
    else
      match msoClassLevel attrs with
      | some level =>
        "\\" ++ _heading_command level ++ "\x7b" ++ pyStrip inner ++ "\x7d\n\n"
      | none => inner

def convertElementLatexList : HtmlList → String
  | HtmlList.nil => ""
  | HtmlList.cons c rest => convertElementLatex c ++ convertElementLatexList rest

/-- `html_to_latex._collect_list_items`: direct `li` children, converted
and stripped. -/
def collectListItemsLatex : HtmlList → List String
  | HtmlList.nil => []
  | HtmlList.cons (Html.text _) rest => collectListItemsLatex rest
  | HtmlList.cons (Html.elem cn ca cc) rest =>
    (if String.mk (lowerL cn.toList) = "li" then
       [pyStrip (convertElementLatex (Html.elem cn ca cc))]
     else []) ++ collectListItemsLatex rest

end

/-- `html_to_latex.html_to_latex` (parameterized by the tree parser). -/
def html_to_latex (bs4 : String → Html) (html : String) : String :=
  pyStrip (convertElementLatex (bs4 html))

/-! ## `html_to_markdown.py` -/

mutual

/-- `html_to_markdown._convert_element`. -/
def convertElementMd : Html → String
  | Html.text s => s
  | Html.elem n attrs cs =>
    let tag := String.mk (lowerL n.toList)
    let inner := convertElementMdList cs
    if tag = "b" ∨ tag = "strong" then "**" ++ inner ++ "**"
    else if tag = "i" ∨ tag = "em" then "*" ++ inner ++ "*"
    else if tag = "u" then "<u>" ++ inner ++ "</u>"
    else if tag = "sup" then "<sup>" ++ inner ++ "</sup>"
    else if tag = "sub" then "<sub>" ++ inner ++ "</sub>"
    else if tag = "br" then "\n"
    else if tag = "ul" then
      let items := collectListItemsMd cs
      String.intercalate "\n" (items.map (fun it => "- " ++ it))
    else if tag = "ol" then
      let items := collectListItemsMd cs
      String.intercalate "\n"
        ((items.enum.map (fun p => toString (p.1 + 1) ++ ". " ++ p.2)))
    else if tag = "li" then pyStrip inner
    else if tag = "p" then inner ++ "\n\n"
    else
      match msoClassLevel attrs with
      | some level =>
        String.mk (List.replicate level '#') ++ " " ++ pyStrip inner ++ "\n\n"
      | none => inner

def convertElementMdList : HtmlList → String
  | HtmlList.nil => ""
  | HtmlList.cons c rest => convertElementMd c ++ convertElementMdList rest

/-- `html_to_markdown._collect_list_items`. -/
def collectListItemsMd : HtmlList → List String
  | HtmlList.nil => []
  | HtmlList.cons (Html.text _) rest => collectListItemsMd rest
  | HtmlList.cons (Html.elem cn ca cc) rest =>
    (if String.mk (lowerL cn.toList) = "li" then
       [pyStrip (convertElementMd (Html.elem cn ca cc))]
     else []) ++ collectListItemsMd rest

end

/-- `html_to_markdown.html_to_markdown`. -/
def html_to_markdown (bs4 : String → Html) (html : String) : String :=
  pyStrip (convertElementMd (bs4 html))

/-! ## `html_to_html.py` -/

/-- `html_to_html._escape_html`. -/
def _escape_html (text : String) : String :=
  let l := text.toList
  let l := replaceAllL "&".toList "&amp;".toList (by decide) l
  let l := replaceAllL "<".toList "&lt;".toList (by decide) l
  let l := replaceAllL ">".toList "&gt;".toList (by decide) l
  let l := replaceAllL "\"".toList "&quot;".toList (by decide) l
  String.mk l

/-- `html_to_html._clean_tag`, as a pure transformation of the
attribute list. -/
def cleanAttrs (a : List (String × String)) : List (String × String) :=
  let a1 := a.filter (fun kv => kv.1 ≠ "style")
  let a2 := a1.filterMap (fun kv =>
    if kv.1 = "class" then
      let cleaned := (splitWsWords kv.2.toList).filter (fun c => ¬ c.startsWith "Mso")
      if cleaned.isEmpty then none
      else some ("class", String.intercalate " " cleaned)
    else some kv)
  a2.filter (fun kv => ¬ kv.1.startsWith "data-" ∧ kv.1 ≠ "lang" ∧ kv.1 ≠ "xml:lang")

mutual

def cleanTree : Html → Html
  | Html.text s => Html.text s
  | Html.elem n a cs => Html.elem n (cleanAttrs a) (cleanTreeList cs)

def cleanTreeList : HtmlList → HtmlList
  | HtmlList.nil => HtmlList.nil
  | HtmlList.cons c rest => HtmlList.cons (cleanTree c) (cleanTreeList rest)

end

/-- `html_to_html.clean_html`: clean every descendant tag, serialize the
body's contents, strip. -/
def clean_html (bs4 : String → Html) (html : String) : String :=
  pyStrip (serializeHtmlList (cleanTreeList (bs4 html).childrenOf))

/-! ## Node renderers (`node_to_latex`, `node_to_markdown`,
`node_to_html`) -/

mutual

/-- `html_to_latex.node_to_latex`. -/
def node_to_latex (bs4 : String → Html) : DocNode → String
  | DocNode.mk NodeType.text content _ _ _ html _ _ _ =>
    if html ≠ "" then html_to_latex bs4 html else _escape_latex content
  | DocNode.mk NodeType.inline_math _ _ _ _ _ _ _ _ => ""
  | DocNode.mk NodeType.display_math _ _ _ _ _ _ _ _ => ""
  | DocNode.mk NodeType.heading content level _ _ _ _ _ _ =>
    "\\" ++ _heading_command level ++ "\x7b" ++ _escape_latex content ++ "\x7d"
  | DocNode.mk NodeType.paragraph _ _ children _ _ _ _ _ =>
    String.join (nodeListLatex bs4 children)
  | DocNode.mk NodeType.list _ _ children _ _ ordered _ _ =>
    let env := if ordered then "enumerate" else "itemize"
    "\\begin\x7b" ++ env ++ "\x7d\n"
      ++ String.intercalate "\n"
          ((nodeListLatex bs4 children).map (fun it => "  \\item " ++ it))
      ++ "\n\\end\x7b" ++ env ++ "\x7d"
  | DocNode.mk NodeType.table _ _ _ _ _ _ _ _ => ""

def nodeListLatex (bs4 : String → Html) : DNList → List String
  | DNList.nil => []
  | DNList.cons c rest => node_to_latex bs4 c :: nodeListLatex bs4 rest

end

mutual

/-- `html_to_markdown.node_to_markdown`. -/
def node_to_markdown (bs4 : String → Html) : DocNode → String
  | DocNode.mk NodeType.text content _ _ _ html _ _ _ =>
    if html ≠ "" then html_to_markdown bs4 html else content
  | DocNode.mk NodeType.inline_math _ _ _ _ _ _ _ _ => ""
  | DocNode.mk NodeType.display_math _ _ _ _ _ _ _ _ => ""
  | DocNode.mk NodeType.heading content level _ _ _ _ _ _ =>
    String.mk (List.replicate level '#') ++ " " ++ content
  | DocNode.mk NodeType.paragraph _ _ children _ _ _ _ _ =>
    String.join (nodeListMd bs4 children)
  | DocNode.mk NodeType.list _ _ children _ _ ordered _ _ =>
    String.intercalate "\n"
      ((nodeListMd bs4 children).enum.map (fun p =>
        (if ordered then toString (p.1 + 1) ++ "." else "-") ++ " " ++ p.2))
  | DocNode.mk NodeType.table content _ _ _ _ _ _ _ => content

def nodeListMd (bs4 : String → Html) : DNList → List String
  | DNList.nil => []
  | DNList.cons c rest => node_to_markdown bs4 c :: nodeListMd bs4 rest

end

mutual

/-- `html_to_html.node_to_html`. -/
def node_to_html (bs4 : String → Html) : DocNode → String
  | DocNode.mk NodeType.text content _ _ _ html _ _ _ =>
    if html ≠ "" then clean_html bs4 html else _escape_html content
  | DocNode.mk NodeType.inline_math _ _ _ _ _ _ _ _ => ""
  | DocNode.mk NodeType.display_math _ _ _ _ _ _ _ _ => ""
  | DocNode.mk NodeType.heading content level _ _ _ _ _ _ =>
    let lv := min level 6
    "<h" ++ toString lv ++ ">" ++ _escape_html content ++ "</h" ++ toString lv ++ ">"
  | DocNode.mk NodeType.paragraph _ _ children _ _ _ _ _ =>
    "<p>" ++ String.join (nodeListHtml bs4 children) ++ "</p>"
  | DocNode.mk NodeType.list _ _ children _ _ ordered _ _ =>
    let tag := if ordered then "ol" else "ul"
    "<" ++ tag ++ ">"
      ++ String.join ((nodeListHtml bs4 children).map (fun it => "<li>" ++ it ++ "</li>"))
      ++ "</" ++ tag ++ ">"
  | DocNode.mk NodeType.table content _ _ _ _ _ _ _ => _escape_html content

def nodeListHtml (bs4 : String → Html) : DNList → List String
  | DNList.nil => []
  | DNList.cons c rest => node_to_html bs4 c :: nodeListHtml bs4 rest

end

/-! ## `converter.py` -/

/-- The two external collaborators of the conversion pipeline. -/
structure Ext where
  bs4 : String → Html
  pandoc : PandocFn

/-- `converter._convert_math`: empty fragment → warning; the Math
Bridge's `RuntimeError` (converter missing) is caught and recorded as a
warning with an empty result; otherwise the LaTeX is postprocessed.
(The source's final `except Exception` guard has no counterpart here
because every embedded operation is total.) -/
def _convert_math (ext : Ext) (node : DocNode) (warnings : List String) :
    String × List String :=
  if node.omml_xml = "" then
    ("", warnings ++ ["Math node has no OMML XML content."])
  else
    match omml_to_latex ext.pandoc node.omml_xml with
    | Except.error e => ("", warnings ++ [e])
    | Except.ok raw => (postprocess_latex raw, warnings)

/-- The parts one node contributes to `latex_parts` / `md_parts` /
`html_parts`. -/
structure ConvParts where
  latex : List String
  md : List String
  html : List String
deriving Repr

def ConvParts.append (a b : ConvParts) : ConvParts :=
  ⟨a.latex ++ b.latex, a.md ++ b.md, a.html ++ b.html⟩

def emptyParts : ConvParts := ⟨[], [], []⟩

/-- `" ".join(p for p in parts if p)`. -/
def joinSp (parts : List String) : String :=
  String.intercalate " " (parts.filter (fun p => p ≠ ""))

/-- `_convert_cell`'s `to_line`:
`re.sub(r'\s+', ' ', ' '.join(p for p in parts if p.strip())).strip()`. -/
def toLine (parts : List String) : String :=
  _normalize_text
    (String.intercalate " " (parts.filter (fun p => pyStrip p ≠ "")))

def padTo (n : Nat) (row : List String) : List String :=
  row ++ List.replicate (n - row.length) ""

def maxCols (rows : List (List String)) : Nat :=
  rows.foldl (fun m r => max m r.length) 0

/-- `_convert_table`'s LaTeX `tabular` output (rows padded to
`numCols`). -/
def renderLatexTable (rows : List (List String)) (numCols : Nat) : String :=
  let colSpec := "|" ++ String.intercalate "|" (List.replicate numCols "l") ++ "|"
  String.intercalate "\n"
    (["\\begin\x7btabular\x7d\x7b" ++ colSpec ++ "\x7d", "\\hline"]
      ++ rows.flatMap (fun row =>
          [String.intercalate " & " (padTo numCols row) ++ " \\\\", "\\hline"])
      ++ ["\\end\x7btabular\x7d"])

/-- `_convert_table`'s Markdown pipe-table output (rows padded, pipes
escaped, header separator after row 0). -/
def renderMdTable (rows : List (List String)) (numCols : Nat) : String :=
  String.intercalate "\n"
    (rows.enum.flatMap (fun p =>
      let escaped := (padTo numCols p.2).map (fun c =>
        String.mk (replaceAllL "|".toList "\\|".toList (by decide) c.toList))
      ["| " ++ String.intercalate " | " escaped ++ " |"]
        ++ (if p.1 = 0 then
              ["| " ++ String.intercalate " | " (List.replicate numCols "---") ++ " |"]
            else [])))

/-- `_convert_table`'s HTML output: row 0 gets `th` cells, others `td`;
rows are emitted with their own cell counts. -/
def renderHtmlTable (rows : List (List String)) : String :=
  String.intercalate "\n"
    (["<table>"]
      ++ rows.enum.flatMap (fun p =>
          let tag := if p.1 = 0 then "th" else "td"
          ["<tr>"]
            ++ p.2.map (fun cell => "  <" ++ tag ++ ">" ++ cell ++ "</" ++ tag ++ ">")
            ++ ["</tr>"])
      ++ ["</table>"])

mutual

/-- `converter._convert_node`, returning the parts this node appends. -/
def _convert_node (ext : Ext) (node : DocNode) (warnings : List String) :
    ConvParts × List String :=
  match node with
  | DocNode.mk NodeType.inline_math c lv ch o h lo me tr =>
    let n := DocNode.mk NodeType.inline_math c lv ch o h lo me tr
    let (m, ws) := _convert_math ext n warnings
    (⟨["$" ++ m ++ "$"], ["$" ++ m ++ "$"],
      ["<span class=\"math inline\">\\(" ++ m ++ "\\)</span>"]⟩, ws)
  | DocNode.mk NodeType.display_math c lv ch o h lo me tr =>
    let n := DocNode.mk NodeType.display_math c lv ch o h lo me tr
    let (m, ws) := _convert_math ext n warnings
    let latexBlock :=
      if me = "aligned" ∨ me = "multiline" then
        "\\[\n\\begin\x7baligned\x7d\n" ++ m ++ "\n\\end\x7baligned\x7d\n\\]"
      else "\\[\n" ++ m ++ "\n\\]"
    let mdBlock :=
      if me = "aligned" ∨ me = "multiline" then
        "$$\n\\begin\x7baligned\x7d\n" ++ m ++ "\n\\end\x7baligned\x7d\n$$"
      else "$$\n" ++ m ++ "\n$$"
    (⟨[latexBlock], [mdBlock],
      ["<div class=\"math display\">\\[" ++ m ++ "\\]</div>"]⟩, ws)
  | DocNode.mk NodeType.paragraph c lv children o h lo me tr =>
    let (p, ws) := _convert_nodes ext children warnings
    (⟨[joinSp p.latex], [joinSp p.md], ["<p>" ++ joinSp p.html ++ "</p>"]⟩, ws)
  | DocNode.mk NodeType.heading c lv ch o h lo me tr =>
    let n := DocNode.mk NodeType.heading c lv ch o h lo me tr
    (⟨[node_to_latex ext.bs4 n], [node_to_markdown ext.bs4 n],
      [node_to_html ext.bs4 n]⟩, warnings)
  | DocNode.mk NodeType.list c lv ch o h lo me tr =>
    let n := DocNode.mk NodeType.list c lv ch o h lo me tr
    (⟨[node_to_latex ext.bs4 n], [node_to_markdown ext.bs4 n],
      [node_to_html ext.bs4 n]⟩, warnings)
  | DocNode.mk NodeType.table c lv ch o h lo me rows =>
    let (r3, ws) := _convert_rows ext rows warnings
    if r3.1.isEmpty then (emptyParts, ws)
    else
      let numCols := maxCols r3.1
      (⟨[renderLatexTable r3.1 numCols], [renderMdTable r3.2.1 numCols],
        [renderHtmlTable r3.2.2]⟩, ws)
  | DocNode.mk NodeType.text c lv ch o h lo me tr =>
    let n := DocNode.mk NodeType.text c lv ch o h lo me tr
    (⟨[node_to_latex ext.bs4 n], [node_to_markdown ext.bs4 n],
      [node_to_html ext.bs4 n]⟩, warnings)

def _convert_nodes (ext : Ext) (nodes : DNList) (warnings : List String) :
    ConvParts × List String :=
  match nodes with
  | DNList.nil => (emptyParts, warnings)
  | DNList.cons n rest =>
    let (p1, ws1) := _convert_node ext n warnings
    let (p2, ws2) := _convert_nodes ext rest ws1
    (p1.append p2, ws2)

/-- The per-child loop of `converter._convert_cell` (math forced inline,
non-math via `_convert_node`). -/
def _convert_cellParts (ext : Ext) (children : DNList) (warnings : List String) :
    ConvParts × List String :=
  match children with
  | DNList.nil => (emptyParts, warnings)
  | DNList.cons child rest =>
    let (p1, ws1) :=
      if child.type = NodeType.inline_math ∨ child.type = NodeType.display_math then
        let (m, ws) := _convert_math ext child warnings
        let m := pyStrip m
        if m ≠ "" then
          ((⟨["$" ++ m ++ "$"], ["$" ++ m ++ "$"],
            ["<span class=\"math inline\">\\(" ++ m ++ "\\)</span>"]⟩ : ConvParts), ws)
        else (emptyParts, ws)
      else _convert_node ext child warnings
    let (p2, ws2) := _convert_cellParts ext rest ws1
    (p1.append p2, ws2)

/-- The cells of one table row. -/
def _convert_rowCells (ext : Ext) (cells : CellList) (warnings : List String) :
    (List String × List String × List String) × List String :=
  match cells with
  | CellList.nil => (([], [], []), warnings)
  | CellList.cons cell rest =>
    let (p, ws1) := _convert_cellParts ext cell warnings
    let (r2, ws2) := _convert_rowCells ext rest ws1
    ((toLine p.latex :: r2.1, toLine p.md :: r2.2.1, toLine p.html :: r2.2.2), ws2)

def _convert_rows (ext : Ext) (rows : RowList)
    (warnings : List String) :
    (List (List String) × List (List String) × List (List String)) × List String :=
  match rows with
  | RowList.nil => (([], [], []), warnings)
  | RowList.cons row rest =>
    let (r1, ws1) := _convert_rowCells ext row warnings
    let (r2, ws2) := _convert_rows ext rest ws1
    ((r1.1 :: r2.1, r1.2.1 :: r2.2.1, r1.2.2 :: r2.2.2), ws2)

end

/-- `converter._convert_table` (the body of `_convert_node`'s table
case). -/
def _convert_table (ext : Ext) (rows : RowList)
    (warnings : List String) : ConvParts × List String :=
  let (r3, ws) := _convert_rows ext rows warnings
  if r3.1.isEmpty then (emptyParts, ws)
  else
    let numCols := maxCols r3.1
    (⟨[renderLatexTable r3.1 numCols], [renderMdTable r3.2.1 numCols],
      [renderHtmlTable r3.2.2]⟩, ws)

/-- The record returned by `converter.convert_html`. -/
structure ConvResult where
  latex : String
  markdown : String
  html : String
  warnings : List String
deriving Repr, DecidableEq

/-- `"\n\n".join(p for p in parts if p.strip()).strip()`. -/
def joinParts (sep : String) (parts : List String) : String :=
  pyStrip (String.intercalate sep (parts.filter (fun p => pyStrip p ≠ "")))

/-- `converter.convert_html`. -/
def convert_html (ext : Ext) (html : String) : ConvResult :=
  let nodes := parse_clipboard_html ext.bs4 html
  if nodes.isEmpty then
    ⟨"", "", "", ["No content found in clipboard HTML."]⟩
  else
    let (parts, warnings) := _convert_nodes ext (DNList.ofList nodes) []
    ⟨joinParts "\n\n" parts.latex, joinParts "\n\n" parts.md,
     joinParts "\n" parts.html, warnings⟩

/-! ## Claim C1: error handling of the external converter -/

/-- A tree parser returning a body whose only child is the inline-math
placeholder with id 0 (what `lxml` produces for the extracted markup of
a single standalone `<m:oMath>` fragment). -/
def c1bs4 : String → Html := fun _ =>
  elemN "body" [] [elemN "omml-inline" [("data-id", "0")] []]

def c1extMissing : Ext := ⟨c1bs4, fun _ => PandocOutcome.missing⟩

def c1extTimeout : Ext := ⟨c1bs4, fun _ => PandocOutcome.timeout⟩

/-- C1, counterexample.  With the converter binary absent, `_convert_math`
returns normally with an empty fragment and the missing-converter message
appended to the warnings, and `convert_html` completes the whole request
with that warning — the failure is downgraded to a warning, not surfaced
as a hard failure that aborts the request.  With a timeout — which the
claim says is downgraded to a warning — the fragment silently degrades
to the fallback text extraction and no warning at all is recorded. -/
theorem C1_counterexample :
    _convert_math c1extMissing (inlineDoc "<m:oMath>x</m:oMath>") []
        = ("", [pandocMissingMsg]) ∧
    (convert_html c1extMissing "<m:oMath>x</m:oMath>").warnings
        = [pandocMissingMsg] ∧
    (convert_html c1extMissing "<m:oMath>x</m:oMath>").latex = "$$" ∧
    _convert_math c1extTimeout (inlineDoc "<m:oMath>x</m:oMath>") []
        = ("x", []) := by
  refine ⟨by decide, by decide, by decide, by decide⟩

/-- C1, amended: every converter failure is contained at the fragment
level and the request continues.  The missing binary is recorded as a
warning with an empty fragment result; a timeout or a non-zero exit
degrades to the fallback text extraction with no warning recorded. -/
theorem C1_math_error_containment (ext : Ext) (node : DocNode)
    (ws : List String) (hx : node.omml_xml ≠ "") :
    (ext.pandoc (_build_docx node.omml_xml).documentXml
        = PandocOutcome.missing →
      _convert_math ext node ws = ("", ws ++ [pandocMissingMsg])) ∧
    (ext.pandoc (_build_docx node.omml_xml).documentXml
        = PandocOutcome.timeout →
      _convert_math ext node ws =
        (postprocess_latex (_fallback_text_extract node.omml_xml), ws)) ∧
    (∀ rc out, rc ≠ 0 →
      ext.pandoc (_build_docx node.omml_xml).documentXml
          = PandocOutcome.run rc out →
      _convert_math ext node ws =
        (postprocess_latex (_fallback_text_extract node.omml_xml), ws)) := by
  refine ⟨?_, ?_, ?_⟩
  · intro h
    simp [_convert_math, omml_to_latex, hx, h]
  · intro h
    simp [_convert_math, omml_to_latex, hx, h]
  · intro rc out hrc h
    simp [_convert_math, omml_to_latex, hx, h, hrc]

theorem C1_math_error_containment_witness :
    ((inlineDoc "<m:oMath>x</m:oMath>").omml_xml ≠ "") ∧
    ((c1extMissing.pandoc
        (_build_docx (inlineDoc "<m:oMath>x</m:oMath>").omml_xml).documentXml
          = PandocOutcome.missing →
      _convert_math c1extMissing (inlineDoc "<m:oMath>x</m:oMath>") []
        = ("", [] ++ [pandocMissingMsg])) ∧
     (c1extMissing.pandoc
        (_build_docx (inlineDoc "<m:oMath>x</m:oMath>").omml_xml).documentXml
          = PandocOutcome.timeout →
      _convert_math c1extMissing (inlineDoc "<m:oMath>x</m:oMath>") []
        = (postprocess_latex
            (_fallback_text_extract (inlineDoc "<m:oMath>x</m:oMath>").omml_xml),
           [])) ∧
     (∀ rc out, rc ≠ 0 →
      c1extMissing.pandoc
        (_build_docx (inlineDoc "<m:oMath>x</m:oMath>").omml_xml).documentXml
          = PandocOutcome.run rc out →
      _convert_math c1extMissing (inlineDoc "<m:oMath>x</m:oMath>") []
        = (postprocess_latex
            (_fallback_text_extract (inlineDoc "<m:oMath>x</m:oMath>").omml_xml),
           []))) :=
  ⟨by decide, C1_math_error_containment c1extMissing
    (inlineDoc "<m:oMath>x</m:oMath>") [] (by decide)⟩

/-! ## Claim C2: table rendering with unequal row lengths -/

theorem le_foldl_max (t : List (List String)) :
    ∀ i : Nat, i ≤ t.foldl (fun m r => max m r.length) i := by
  induction t with
  | nil => intro i; simp
  | cons r t ih =>
    intro i
    calc i ≤ max i r.length := le_max_left _ _
    _ ≤ t.foldl (fun m r => max m r.length) (max i r.length) := ih _

theorem maxCols_ge (rows : List (List String)) (row : List String)
    (h : row ∈ rows) : row.length ≤ maxCols rows := by
  have aux : ∀ (rs : List (List String)) (init : Nat), row ∈ rs →
      row.length ≤ rs.foldl (fun m r => max m r.length) init := by
    intro rs
    induction rs with
    | nil => intro init hm; simp at hm
    | cons r t ih =>
      intro init hm
      rcases List.mem_cons.mp hm with hm | hm
      · subst hm
        simp only [List.foldl_cons]
        exact le_trans (le_max_right init row.length) (le_foldl_max t _)
      · simp only [List.foldl_cons]
        exact ih _ hm
  exact aux rows 0 h

theorem padTo_length (n : Nat) (row : List String) (h : row.length ≤ n) :
    (padTo n row).length = n := by
  simp [padTo]
  omega

/-- A two-row table whose first row has one cell and whose second has
two (the `DocNode` cells hold plain text). -/
def c2rows : RowList :=
  RowList.ofRows [[[textDoc "a" ""]], [[textDoc "b" ""], [textDoc "c" ""]]]

/-- C2, counterexample.  On a table whose rows have 1 and 2 cells, the
markup-format output equals the row-by-row rendering of the unpadded
cell lists `[["a"], ["b", "c"]]` and differs from the rendering of the
lists padded to the maximum column count — the first `<tr>` holds a
single `<th>`.  The math-typesetting output, by contrast, does equal
the padded rendering. -/
theorem C2_counterexample :
    (_convert_table c1extMissing c2rows []).1.html
        = [renderHtmlTable [["a"], ["b", "c"]]] ∧
    (_convert_table c1extMissing c2rows []).1.html
        ≠ [renderHtmlTable (List.map (padTo 2) [["a"], ["b", "c"]])] ∧
    maxCols [["a"], ["b", "c"]] = 2 ∧
    (_convert_table c1extMissing c2rows []).1.latex
        = [renderLatexTable [["a"], ["b", "c"]] 2] ∧
    renderLatexTable [["a"], ["b", "c"]] 2
        = renderLatexTable (List.map (padTo 2) [["a"], ["b", "c"]]) 2 := by
  refine ⟨by decide, by decide, by decide, by decide, by decide⟩

/-- C2, amended: the math-typesetting and lightweight-markup renderings
pad every row to the maximum cell count (`renderLatexTable` and
`renderMdTable` apply `padTo numCols`, which reaches exactly `numCols`
entries on every converted row), while the semantic-markup rendering
emits each row with its own cell count. -/
theorem C2_table_padding (ext : Ext) (rows : RowList) (ws : List String)
    (h : ((_convert_rows ext rows ws).1.1).isEmpty = false) :
    _convert_table ext rows ws =
      (⟨[renderLatexTable (_convert_rows ext rows ws).1.1
           (maxCols (_convert_rows ext rows ws).1.1)],
        [renderMdTable (_convert_rows ext rows ws).1.2.1
           (maxCols (_convert_rows ext rows ws).1.1)],
        [renderHtmlTable (_convert_rows ext rows ws).1.2.2]⟩,
       (_convert_rows ext rows ws).2) ∧
    ∀ row ∈ (_convert_rows ext rows ws).1.1,
      (padTo (maxCols (_convert_rows ext rows ws).1.1) row).length
        = maxCols (_convert_rows ext rows ws).1.1 := by
  constructor
  · unfold _convert_table
    simp [h]
  · intro row hr
    exact padTo_length _ _ (maxCols_ge _ _ hr)

theorem C2_table_padding_witness :
    (((_convert_rows c1extMissing c2rows []).1.1).isEmpty = false) ∧
    (_convert_table c1extMissing c2rows [] =
      (⟨[renderLatexTable (_convert_rows c1extMissing c2rows []).1.1
           (maxCols (_convert_rows c1extMissing c2rows []).1.1)],
        [renderMdTable (_convert_rows c1extMissing c2rows []).1.2.1
           (maxCols (_convert_rows c1extMissing c2rows []).1.1)],
        [renderHtmlTable (_convert_rows c1extMissing c2rows []).1.2.2]⟩,
       (_convert_rows c1extMissing c2rows []).2) ∧
     ∀ row ∈ (_convert_rows c1extMissing c2rows []).1.1,
      (padTo (maxCols (_convert_rows c1extMissing c2rows []).1.1) row).length
        = maxCols (_convert_rows c1extMissing c2rows []).1.1) :=
  ⟨by decide, C2_table_padding c1extMissing c2rows [] (by decide)⟩

/-! ## Claim C7: style-class heading detection -/

/-- The tree `lxml` produces for `<p class="HeadingStyle1">Introduction</p>`
(a body whose only child is the class-attributed paragraph). -/
def c7bs4HeadingStyle : String → Html := fun _ =>
  elemN "body" []
    [elemN "p" [("class", "HeadingStyle1")] [Html.text "Introduction"]]

def c7bs4MsoHeading : String → Html := fun _ =>
  elemN "body" []
    [elemN "p" [("class", "MsoHeading1")] [Html.text "Introduction"]]

def c7bs4MsoUpper : String → Html := fun _ =>
  elemN "body" []
    [elemN "p" [("class", "MSOHEADING2")] [Html.text "Intro"]]

/-- C7, counterexample.  Structure extraction of
`<p class="HeadingStyle1">Introduction</p>` yields one Text node, not a
Heading node: the heading pattern is `MsoHeading<N>`, and the class
token `HeadingStyle1` does not match it. -/
theorem C7_counterexample :
    parse_clipboard_html c7bs4HeadingStyle
        "<p class=\"HeadingStyle1\">Introduction</p>"
      = [textDoc "Introduction" "Introduction"] ∧
    (textDoc "Introduction" "Introduction").type = NodeType.text ∧
    NodeType.text ≠ NodeType.heading ∧
    _detect_heading "p" [("class", "HeadingStyle1")] = none := by
  refine ⟨rfl, rfl, by decide, by decide⟩

/-- C7, amended: the vendor style-class heading pattern is
`MsoHeading<N>` matched case-insensitively, so
`<p class="MsoHeading1">Introduction</p>` yields exactly one Heading
node with level 1 and content `Introduction` (and an upper-cased
`MSOHEADING2` class yields level 2), while `HeadingStyle1` yields a
Text node. -/
theorem C7_heading_detection :
    parse_clipboard_html c7bs4MsoHeading
        "<p class=\"MsoHeading1\">Introduction</p>"
      = [headingDoc "Introduction" 1] ∧
    (headingDoc "Introduction" 1).type = NodeType.heading ∧
    (headingDoc "Introduction" 1).level = 1 ∧
    (headingDoc "Introduction" 1).content = "Introduction" ∧
    parse_clipboard_html c7bs4MsoUpper
        "<p class=\"MSOHEADING2\">Intro</p>"
      = [headingDoc "Intro" 2] ∧
    _detect_heading "p" [("class", "MsoHeading1")] = some 1 ∧
    _detect_heading "p" [("class", "msoheading3")] = some 3 ∧
    _detect_heading "h4" [] = some 4 := by
  refine ⟨rfl, rfl, by decide, by decide, rfl, by decide, by decide, by decide⟩

/-! ## Claim C8: empty input -/

/-- C8: when the tree parser finds no children in the (empty) extracted
markup, the conversion entry point returns all three format strings
empty and exactly one warning explaining why. -/
theorem C8_empty_input (ext : Ext)
    (h : (ext.bs4 "").childrenOf = HtmlList.nil) :
    convert_html ext "" =
      ⟨"", "", "", ["No content found in clipboard HTML."]⟩ ∧
    (convert_html ext "").warnings.length = 1 := by
  have h1 : _unwrap_omml_conditionals "" = "" := by decide
  have h2 : _extract_omml_blocks "" = ("", [], []) := by decide
  have hp : parse_clipboard_html ext.bs4 "" = [] := by
    unfold parse_clipboard_html
    dsimp only
    rw [h1, h2]
    simp only [h]
    rfl
  constructor
  · unfold convert_html
    rw [hp]
    rfl
  · unfold convert_html
    rw [hp]
    rfl

def c8ext : Ext := ⟨fun _ => elemN "body" [] [], fun _ => PandocOutcome.missing⟩

theorem C8_empty_input_witness :
    (c8ext.bs4 "").childrenOf = HtmlList.nil ∧
    (convert_html c8ext "" =
        ⟨"", "", "", ["No content found in clipboard HTML."]⟩ ∧
      (convert_html c8ext "").warnings.length = 1) :=
  ⟨rfl, C8_empty_input c8ext rfl⟩

/-! ## Claim C9: case repair of math markup names -/

/-- C9: the per-name case-repair maps a name whose lowercasing is in
`_OMML_TAG_CASE` to that table entry and leaves any other name exactly
as received; over whole fragments, both the lowercased and the already
canonical spelling of every known tag name are restored to the
canonical spelling (never force-lowercased), and likewise for attribute
names. -/
theorem C9_case_repair :
    (∀ name : List Char,
      (∀ proper, _OMML_TAG_CASE.lookup (String.mk (lowerL name)) = some proper →
        replaceOmmlName name = proper.toList) ∧
      (_OMML_TAG_CASE.lookup (String.mk (lowerL name)) = none →
        replaceOmmlName name = name)) ∧
    (∀ p ∈ _OMML_TAG_CASE,
      _restore_omml_case ("<" ++ p.1 ++ "/>") = "<" ++ p.2 ++ "/>" ∧
      _restore_omml_case ("<" ++ p.2 ++ "/>") = "<" ++ p.2 ++ "/>" ∧
      _restore_omml_case ("<m:f " ++ p.1 ++ "=\"v\"/>")
        = "<m:f " ++ p.2 ++ "=\"v\"/>") := by
  constructor
  · intro name
    constructor
    · intro proper h
      simp [replaceOmmlName, h]
    · intro h
      simp [replaceOmmlName, h]
  · decide

theorem C9_case_repair_witness :
    (_OMML_TAG_CASE.lookup (String.mk (lowerL "M:OMATH".toList))
        = some "m:oMath" →
      replaceOmmlName "M:OMATH".toList = "m:oMath".toList) ∧
    (("m:omath", "m:oMath") ∈ _OMML_TAG_CASE ∧
      _restore_omml_case "<m:omath/>" = "<m:oMath/>" ∧
      _restore_omml_case "<m:oMath/>" = "<m:oMath/>" ∧
      _restore_omml_case "<m:f m:omath=\"v\"/>" = "<m:f m:oMath=\"v\"/>") :=
  ⟨(C9_case_repair.1 "M:OMATH".toList).1 "m:oMath",
   ⟨by decide, (C9_case_repair.2 ("m:omath", "m:oMath") (by decide))⟩⟩

/-! ## Claim C3: verbatim storage of extracted math fragments -/

theorem matchOmmlBlock_slice (ot ct l g r : List Char)
    (h : matchOmmlBlock ot ct l = some (g, r)) : l = g ++ r := by
  by_cases hp : ciPrefix ot l
  · by_cases hb : (match l.drop ot.length with
                   | [] => true
                   | c :: _ => !isWordChar c) = true
    · match h1 : splitOnFirst ['>'] (l.drop ot.length) with
      | none => simp [matchOmmlBlock, hp, hb, h1] at h
      | some (attrs, afterGt) =>
        match h2 : splitOnFirstCI ct afterGt with
        | none => simp [matchOmmlBlock, hp, hb, h1, h2] at h
        | some (inner, closeOrig, rest) =>
          simp [matchOmmlBlock, hp, hb, h1, h2] at h
          have hg : l.take ot.length ++ (attrs ++ '>' :: (inner ++ closeOrig)) = g := by
            tauto
          have hr : rest = r := by tauto
          subst hg; subst hr
          have e1 := splitOnFirst_eq ['>'] (l.drop ot.length) attrs afterGt
            (by decide) h1
          have e2 := splitOnFirstCI_eq ct afterGt inner closeOrig rest h2
          conv_lhs => rw [(List.take_append_drop ot.length l).symm, e1, e2]
          simp
    · simp [matchOmmlBlock, hp, hb] at h
  · simp [matchOmmlBlock, hp] at h

/-- Every value stored by an extraction pass whose matcher returns the
matched slice verbatim (`hsl`) is an infix of the scanned text. -/
theorem extractPass_verbatim (m : List Char → Option (List Char × List Char))
    (hm : ∀ l g r, m l = some (g, r) → r.length < l.length)
    (hsl : ∀ l g r, m l = some (g, r) → l = g ++ r)
    (mkPh : Nat → List Char) :
    ∀ (n : Nat) (l : List Char), l.length ≤ n →
      ∀ (counter : Nat) (kv : String × String),
        kv ∈ (extractPass m hm mkPh counter l).2.1 →
        List.IsInfix kv.2.toList l := by
  intro n
  induction n with
  | zero =>
    intro l hl counter kv hmem
    have hnil : l = [] := List.length_eq_zero.mp (Nat.le_zero.mp hl)
    subst hnil
    rw [extractPass_eq] at hmem
    match hml : m [] with
    | some (blk, rest) =>
      have := hm [] blk rest hml
      simp at this
    | none => simp [hml] at hmem
  | succ n ih =>
    intro l hl counter kv hmem
    rw [extractPass_eq] at hmem
    match hml : m l with
    | some (blk, rest) =>
      simp only [hml] at hmem
      have hlr := hsl l blk rest hml
      have hlt := hm l blk rest hml
      rcases List.mem_cons.mp hmem with hkv | hkv
      · subst hkv
        exact ⟨[], rest, by simp [hlr]⟩
      · have hinf := ih rest (by omega) (counter + 1) kv hkv
        exact hinf.trans ⟨blk, [], by simp [hlr]⟩
    | none =>
      simp only [hml] at hmem
      match l with
      | [] => simp at hmem
      | c :: t =>
        dsimp only at hmem
        have hinf := ih t (by simpa using hl) counter kv hmem
        exact hinf.trans ⟨[c], [], by simp⟩

/-! ### Every math node of the parsed tree carries a stored table value -/

mutual

/-- Does every math node in the tree carry an `omml_xml` that is one of
the values of the corresponding lookup table? -/
def mathOk (disp inl : List (String × String)) : DocNode → Bool
  | DocNode.mk ty _ _ ch o _ _ _ tr =>
    (match ty with
     | NodeType.display_math => (disp.map Prod.snd).contains o
     | NodeType.inline_math => (inl.map Prod.snd).contains o
     | _ => true) && mathOkL disp inl ch && mathOkR disp inl tr

def mathOkL (disp inl : List (String × String)) : DNList → Bool
  | DNList.nil => true
  | DNList.cons n t => mathOk disp inl n && mathOkL disp inl t

def mathOkC (disp inl : List (String × String)) : CellList → Bool
  | CellList.nil => true
  | CellList.cons c t => mathOkL disp inl c && mathOkC disp inl t

def mathOkR (disp inl : List (String × String)) : RowList → Bool
  | RowList.nil => true
  | RowList.cons r t => mathOkC disp inl r && mathOkR disp inl t

end

theorem mathOkL_ofList (disp inl : List (String × String)) (ns : List DocNode) :
    mathOkL disp inl (DNList.ofList ns) = true ↔
      ∀ n ∈ ns, mathOk disp inl n = true := by
  induction ns with
  | nil => simp [DNList.ofList, mathOkL]
  | cons n t ih => simp [DNList.ofList, mathOkL, ih]

theorem mathOkC_ofCells (disp inl : List (String × String))
    (cs : List (List DocNode)) :
    mathOkC disp inl (CellList.ofCells cs) = true ↔
      ∀ c ∈ cs, ∀ n ∈ c, mathOk disp inl n = true := by
  induction cs with
  | nil => simp [CellList.ofCells, mathOkC]
  | cons c t ih => simp [CellList.ofCells, mathOkC, ih, mathOkL_ofList]

theorem mathOkR_ofRows (disp inl : List (String × String))
    (rs : List (List (List DocNode))) :
    mathOkR disp inl (RowList.ofRows rs) = true ↔
      ∀ r ∈ rs, ∀ c ∈ r, ∀ n ∈ c, mathOk disp inl n = true := by
  induction rs with
  | nil => simp [RowList.ofRows, mathOkR]
  | cons r t ih => simp [RowList.ofRows, mathOkR, ih, mathOkC_ofCells]

theorem lookupD_contains (tbl : List (String × String)) (k : String)
    (h : lookupD tbl k ≠ "") :
    ((tbl.map Prod.snd).contains (lookupD tbl k)) = true := by
  induction tbl with
  | nil => simp [lookupD] at h
  | cons kv t ih =>
    by_cases hk : k = kv.1
    · simp [lookupD, List.lookup, hk]
    · have hne : (k == kv.1) = false := by simp [hk]
      simp only [lookupD, List.lookup, hne] at h ⊢
      have := ih (by simpa [lookupD] using h)
      simp only [lookupD] at this
      simp only [List.map_cons, List.contains_cons]
      rw [Bool.or_eq_true]
      right
      exact this

theorem mathOk_textDoc (disp inl : List (String × String)) (a b : String) :
    mathOk disp inl (textDoc a b) = true := rfl

theorem mathOk_headingDoc (disp inl : List (String × String)) (a : String)
    (lv : Nat) : mathOk disp inl (headingDoc a lv) = true := rfl

theorem mathOk_inlineDoc (disp inl : List (String × String)) (xml : String)
    (h : (inl.map Prod.snd).contains xml = true) :
    mathOk disp inl (inlineDoc xml) = true := by
  simp only [mathOk, inlineDoc, mathOkL, mathOkR, h, Bool.and_true,
    Bool.true_and]

theorem mathOk_displayDoc (disp inl : List (String × String)) (xml env : String)
    (h : (disp.map Prod.snd).contains xml = true) :
    mathOk disp inl (displayDoc xml env) = true := by
  simp only [mathOk, displayDoc, mathOkL, mathOkR, h, Bool.and_true,
    Bool.true_and]

theorem extract_inline_ok (disp inl : List (String × String)) :
    ∀ (cs : HtmlList) (node : DocNode), node ∈ _extract_inline inl cs →
      mathOk disp inl node = true := by
  intro cs
  induction cs using _extract_inline.induct inl with
  | case1 => intro node h; simp [_extract_inline] at h
  | case2 s rest ih =>
    intro node h
    simp only [_extract_inline] at h
    rcases List.mem_append.mp h with h | h
    · split at h
      · simp at h
        subst h
        exact mathOk_textDoc disp inl _ _
      · simp at h
    · exact ih node h
  | case3 n a cs2 rest ih1 ih2 =>
    intro node h
    simp only [_extract_inline] at h
    rcases List.mem_append.mp h with h | h
    · split at h
      · split at h
        · simp at h
          subst h
          exact mathOk_inlineDoc disp inl _
            (lookupD_contains inl _ (by assumption))
        · simp at h
      · split at h
        · split at h
          · simp at h
            subst h
            exact mathOk_textDoc disp inl _ _
          · simp at h
        · split at h
          · split at h
            · simp at h
              subst h
              exact mathOk_textDoc disp inl _ _
            · simp at h
          · exact ih1 node h
    · exact ih2 node h

theorem handle_list_ok (disp inl : List (String × String)) (t : Html)
    (node : DocNode) (h : node ∈ _handle_list t) :
    mathOk disp inl node = true := by
  unfold _handle_list at h
  split at h
  · dsimp only at h
    simp only [List.mem_singleton] at h
    subst h
    simp only [mathOk, mathOkL, mathOkR, Bool.and_true, Bool.true_and]
    rw [mathOkL_ofList]
    intro n hn
    rcases List.mem_filterMap.mp hn with ⟨c, _, hc⟩
    split at hc
    · split at hc
      · simp at hc
        subst hc
        exact mathOk_textDoc disp inl _ _
      · simp at hc
    · simp at hc
  · simp at h

theorem handle_paragraph_ok (disp inl : List (String × String)) (p : Html)
    (node : DocNode) (h : node ∈ _handle_paragraph disp inl p) :
    mathOk disp inl node = true := by
  unfold _handle_paragraph at h
  split at h
  · dsimp only at h
    split at h
    · simp only [List.mem_singleton] at h
      subst h
      exact mathOk_displayDoc disp inl _ _ (lookupD_contains disp _ (by assumption))
    · simp at h
  · split at h
    · simp only [List.mem_singleton] at h
      subst h
      exact mathOk_headingDoc disp inl _ _
    · dsimp only at h
      split at h
      · simp at h
      · rename_i single heq
        simp only [List.mem_singleton] at h
        subst h
        have hm : node ∈ _extract_inline inl p.childrenOf := by
          rw [heq]
          exact List.mem_singleton.mpr rfl
        exact extract_inline_ok disp inl _ _ hm
      · simp only [List.mem_singleton] at h
        subst h
        simp only [mathOk, mathOkL, mathOkR, Bool.and_true, Bool.true_and]
        rw [mathOkL_ofList]
        intro n hn
        exact extract_inline_ok disp inl _ _ hn

theorem handle_word_paragraph_ok (disp inl : List (String × String)) (wp : Html)
    (node : DocNode) (h : node ∈ _handle_word_paragraph disp inl wp) :
    mathOk disp inl node = true := by
  unfold _handle_word_paragraph at h
  split at h
  · dsimp only at h
    split at h
    · simp only [List.mem_singleton] at h
      subst h
      exact mathOk_displayDoc disp inl _ _ (lookupD_contains disp _ (by assumption))
    · simp at h
  · dsimp only at h
    have key : ∀ n, n ∈ ((wp.findAll
        (fun t => hasName "w:t" t || hasName "omml-inline" t)).flatMap
        (fun wt =>
          if String.mk (lowerL wt.nameOf.toList) = "omml-inline" then
            if lookupD inl (wt.attrD "data-id" "") ≠ "" then
              [inlineDoc (lookupD inl (wt.attrD "data-id" ""))]
            else []
          else if String.mk (lowerL wt.nameOf.toList) = "w:t" then
            if pyStrip wt.getText ≠ "" then [textDoc wt.getText wt.getText]
            else []
          else [])) → mathOk disp inl n = true := by
      intro n hn
      rcases List.mem_flatMap.mp hn with ⟨wt, _, hw⟩
      split at hw
      · split at hw
        · simp at hw
          subst hw
          exact mathOk_inlineDoc disp inl _
            (lookupD_contains inl _ (by assumption))
        · simp at hw
      · split at hw
        · split at hw
          · simp at hw
            subst hw
            exact mathOk_textDoc disp inl _ _
          · simp at hw
        · simp at hw
    split at h
    · simp at h
    · rename_i single heq
      simp only [List.mem_singleton] at h
      subst h
      apply key
      rw [heq]
      exact List.mem_singleton.mpr rfl
    · simp only [List.mem_singleton] at h
      subst h
      simp only [mathOk, mathOkL, mathOkR, Bool.and_true, Bool.true_and]
      rw [mathOkL_ofList]
      intro n hn
      exact key n hn

theorem cell_content_ok (disp inl : List (String × String)) (cell : Html)
    (node : DocNode) (h : node ∈ _extract_cell_content disp inl cell) :
    mathOk disp inl node = true := by
  unfold _extract_cell_content at h
  dsimp only at h
  split at h
  · exact extract_inline_ok disp inl _ _ h
  · rcases List.mem_flatMap.mp h with ⟨p, _, hp⟩
    split at hp
    · split at hp
      · simp at hp
        subst hp
        exact mathOk_displayDoc disp inl _ _ (lookupD_contains disp _ (by assumption))
      · simp at hp
    · exact extract_inline_ok disp inl _ _ hp

theorem handle_table_ok (disp inl : List (String × String)) (tbl : Html)
    (node : DocNode) (h : node ∈ _handle_table disp inl tbl) :
    mathOk disp inl node = true := by
  unfold _handle_table at h
  dsimp only at h
  split at h
  · simp at h
  · simp only [List.mem_singleton] at h
    subst h
    simp only [mathOk, mathOkL, mathOkR, Bool.and_true, Bool.true_and]
    rw [mathOkR_ofRows]
    intro r hr c hc n hn
    rcases List.mem_filterMap.mp hr with ⟨tr, _, htr⟩
    split at htr
    · simp at htr
    · simp only [Option.some.injEq] at htr
      subst htr
      rcases List.mem_map.mp hc with ⟨cellHtml, _, hch⟩
      subst hch
      exact cell_content_ok disp inl cellHtml n hn

theorem walkChildren_ok (disp inl : List (String × String)) :
    ∀ (hl : HtmlList) (node : DocNode), node ∈ walkChildren disp inl hl →
      mathOk disp inl node = true := by
  intro hl
  induction hl using walkChildren.induct disp inl with
  | case1 => intro node h; simp [walkChildren] at h
  | case2 s rest ih =>
    intro node h
    simp only [walkChildren] at h
    rcases List.mem_append.mp h with h | h
    · split at h
      · simp at h
        subst h
        exact mathOk_textDoc disp inl _ _
      · simp at h
    · exact ih node h
  | case3 n a cs rest ih1 ih2 =>
    intro node h
    simp only [walkChildren] at h
    rcases List.mem_append.mp h with h | h
    · split at h
      · split at h
        · simp at h
          subst h
          exact mathOk_displayDoc disp inl _ _ (lookupD_contains disp _ (by assumption))
        · simp at h
      · split at h
        · split at h
          · simp at h
            subst h
            exact mathOk_inlineDoc disp inl _ (lookupD_contains inl _ (by assumption))
          · simp at h
        · split at h
          · exact handle_table_ok disp inl _ node h
          · split at h
            · exact handle_list_ok disp inl _ node h
            · split at h
              · exact handle_paragraph_ok disp inl _ node h
              · split at h
                · simp at h
                  subst h
                  exact mathOk_headingDoc disp inl _ _
                · split at h
                  · exact handle_word_paragraph_ok disp inl _ node h
                  · exact ih1 node h
    · exact ih2 node h

/-- C3: every value stored in the display table is a verbatim substring
of the scanned markup; every value stored in the inline table is a
verbatim substring of the markup the inline pass scans (the output of
the display pass); and every math node of the parsed tree carries an
`omml_xml` equal to one of the stored table values. -/
theorem C3_verbatim_math_storage (html : String) :
    (∀ kv ∈ (_extract_omml_blocks html).2.1,
      List.IsInfix kv.2.toList html.toList) ∧
    (∀ kv ∈ (_extract_omml_blocks html).2.2,
      List.IsInfix kv.2.toList
        (extractPass (matchOmmlBlock oMathParaOpenL oMathParaCloseL)
          (matchOmmlBlock_len _ _ (by decide)) displayPlaceholder 0
          html.toList).1) ∧
    (∀ (bs4 : String → Html) (node : DocNode),
      node ∈ parse_clipboard_html bs4 html →
      mathOk (_extract_omml_blocks (_unwrap_omml_conditionals html)).2.1
             (_extract_omml_blocks (_unwrap_omml_conditionals html)).2.2
             node = true) := by
  refine ⟨?_, ?_, ?_⟩
  · intro kv hkv
    have h2 : (_extract_omml_blocks html).2.1
        = (extractPass (matchOmmlBlock oMathParaOpenL oMathParaCloseL)
            (matchOmmlBlock_len _ _ (by decide)) displayPlaceholder 0
            html.toList).2.1 := rfl
    rw [h2] at hkv
    exact extractPass_verbatim _ _
      (fun l g r => matchOmmlBlock_slice _ _ l g r) _
      html.toList.length html.toList le_rfl 0 kv hkv
  · intro kv hkv
    have h2 : (_extract_omml_blocks html).2.2
        = (extractPass (matchOmmlBlock oMathOpenL oMathCloseL)
            (matchOmmlBlock_len _ _ (by decide)) inlinePlaceholder
            (extractPass (matchOmmlBlock oMathParaOpenL oMathParaCloseL)
              (matchOmmlBlock_len _ _ (by decide)) displayPlaceholder 0
              html.toList).2.2
            (extractPass (matchOmmlBlock oMathParaOpenL oMathParaCloseL)
              (matchOmmlBlock_len _ _ (by decide)) displayPlaceholder 0
              html.toList).1).2.1 := rfl
    rw [h2] at hkv
    exact extractPass_verbatim _ _
      (fun l g r => matchOmmlBlock_slice _ _ l g r) _
      _ _ le_rfl _ kv hkv
  · intro bs4 node hnode
    have h2 : parse_clipboard_html bs4 html
        = walkChildren
            (_extract_omml_blocks (_unwrap_omml_conditionals html)).2.1
            (_extract_omml_blocks (_unwrap_omml_conditionals html)).2.2
            (bs4 (_extract_omml_blocks (_unwrap_omml_conditionals html)).1).childrenOf
        := rfl
    rw [h2] at hnode
    exact walkChildren_ok _ _ _ node hnode

theorem C3_verbatim_math_storage_witness :
    (("0", "<m:oMath>x</m:oMath>")
        ∈ (_extract_omml_blocks "a<m:oMath>x</m:oMath>b").2.2) ∧
    List.IsInfix ("<m:oMath>x</m:oMath>" : String).toList
      (extractPass (matchOmmlBlock oMathParaOpenL oMathParaCloseL)
        (matchOmmlBlock_len _ _ (by decide)) displayPlaceholder 0
        ("a<m:oMath>x</m:oMath>b" : String).toList).1 ∧
    ((inlineDoc "<m:oMath>x</m:oMath>")
        ∈ parse_clipboard_html c1bs4 "<m:oMath>x</m:oMath>" ∧
      mathOk (_extract_omml_blocks
                (_unwrap_omml_conditionals "<m:oMath>x</m:oMath>")).2.1
             (_extract_omml_blocks
                (_unwrap_omml_conditionals "<m:oMath>x</m:oMath>")).2.2
             (inlineDoc "<m:oMath>x</m:oMath>") = true) := by
  have hmem : ("0", "<m:oMath>x</m:oMath>")
      ∈ (_extract_omml_blocks "a<m:oMath>x</m:oMath>b").2.2 := by decide
  have hpm : (inlineDoc "<m:oMath>x</m:oMath>")
      ∈ parse_clipboard_html c1bs4 "<m:oMath>x</m:oMath>" := by
    rw [show parse_clipboard_html c1bs4 "<m:oMath>x</m:oMath>"
        = [inlineDoc "<m:oMath>x</m:oMath>"] from rfl]
    exact List.mem_singleton.mpr rfl
  exact ⟨hmem,
    (C3_verbatim_math_storage "a<m:oMath>x</m:oMath>b").2.1
      ("0", "<m:oMath>x</m:oMath>") hmem,
    hpm,
    (C3_verbatim_math_storage "<m:oMath>x</m:oMath>").2.2 c1bs4
      (inlineDoc "<m:oMath>x</m:oMath>") hpm⟩

/-! ## Claim C6: alignment-marker insertion -/

theorem RELATION_OPS_lit_ne : ∀ op ∈ _RELATION_OPS, op.lit ≠ [] := by decide

/-- Position `q` of `line` holds a relation-operator match whose
preceding text has non-positive brace depth (the source's eligibility
condition). -/
def eligAt (line : List Char) (q : Nat) : Prop :=
  ∃ op ∈ _RELATION_OPS,
    (matchOpAt op (line.take q) (line.drop q)
      && decide (braceDepth (line.take q) ≤ 0)) = true

theorem eligAt_lt (line : List Char) (q : Nat) (h : eligAt line q) :
    q < line.length := by
  obtain ⟨op, hop, hcond⟩ := h
  by_contra hge
  have hdrop : line.drop q = [] := List.drop_eq_nil_of_le (by omega)
  rw [Bool.and_eq_true] at hcond
  have hpre : op.lit.isPrefixOf (line.drop q) = true := by
    have := hcond.1
    rw [matchOpAt, Bool.and_eq_true, Bool.and_eq_true] at this
    exact this.1.1
  rw [hdrop] at hpre
  have : op.lit = [] := by
    have := List.isPrefixOf_iff_prefix.mp hpre
    simpa using this
  exact RELATION_OPS_lit_ne op hop this

theorem firstElig_some_spec (op : OpPat) :
    ∀ (suf pre : List Char) (p : Nat),
      firstElig op pre suf = some p →
      pre.length ≤ p ∧ p < pre.length + suf.length ∧
      (matchOpAt op ((pre ++ suf).take p) ((pre ++ suf).drop p)
        && decide (braceDepth ((pre ++ suf).take p) ≤ 0)) = true ∧
      ∀ q, pre.length ≤ q → q < p →
        (matchOpAt op ((pre ++ suf).take q) ((pre ++ suf).drop q)
          && decide (braceDepth ((pre ++ suf).take q) ≤ 0)) = false := by
  intro suf
  induction suf with
  | nil => intro pre p h; simp [firstElig] at h
  | cons c t ih =>
    intro pre p h
    rw [firstElig] at h
    by_cases hm : (matchOpAt op pre (c :: t)
        && decide (braceDepth pre ≤ 0)) = true
    · rw [if_pos hm] at h
      have hp : p = pre.length := by
        simpa using h.symm
      subst hp
      refine ⟨le_rfl, by simp, ?_, ?_⟩
      · rw [List.take_left, List.drop_left]
        exact hm
      · intro q hq hqp
        omega
    · rw [if_neg hm] at h
      have hres := ih (pre ++ [c]) p h
      have heq : (pre ++ [c]) ++ t = pre ++ c :: t := by simp
      rw [heq] at hres
      obtain ⟨h1, h2, h3, h4⟩ := hres
      simp only [List.length_append, List.length_cons, List.length_nil]
        at h1 h2
      refine ⟨by omega, ?_, h3, ?_⟩
      · simp only [List.length_cons]
        omega
      · intro q hq hqp
        by_cases hqe : q = pre.length
        · subst hqe
          rw [List.take_left, List.drop_left]
          exact Bool.not_eq_true _ ▸ (by simpa using hm)
        · refine h4 q ?_ hqp
          simp only [List.length_append, List.length_cons, List.length_nil]
          omega

theorem firstElig_none_spec (op : OpPat) :
    ∀ (suf pre : List Char),
      firstElig op pre suf = none →
      ∀ q, pre.length ≤ q → q < pre.length + suf.length →
        (matchOpAt op ((pre ++ suf).take q) ((pre ++ suf).drop q)
          && decide (braceDepth ((pre ++ suf).take q) ≤ 0)) = false := by
  intro suf
  induction suf with
  | nil =>
    intro pre _ q hq hlt
    simp only [List.length_nil] at hlt
    omega
  | cons c t ih =>
    intro pre h q hq hlt
    rw [firstElig] at h
    by_cases hm : (matchOpAt op pre (c :: t)
        && decide (braceDepth pre ≤ 0)) = true
    · rw [if_pos hm] at h; exact absurd h (by simp)
    · rw [if_neg hm] at h
      by_cases hqe : q = pre.length
      · subst hqe
        rw [List.take_left, List.drop_left]
        exact Bool.not_eq_true _ ▸ (by simpa using hm)
      · have := ih (pre ++ [c]) h q
          (by
            simp only [List.length_append, List.length_cons, List.length_nil]
            omega)
          (by
            simp only [List.length_append, List.length_cons, List.length_nil]
            simp only [List.length_cons] at hlt
            omega)
        rw [show (pre ++ [c]) ++ t = pre ++ c :: t by simp] at this
        exact this

theorem foldBest_some (line : List Char) :
    ∀ (ops : List OpPat) (acc : Option Nat) (r : Nat),
      ops.foldl
        (fun best op =>
          match firstElig op [] line with
          | none => best
          | some p =>
            match best with
            | none => some p
            | some b => if p < b then some p else best) acc = some r →
      (acc = some r ∨ ∃ op ∈ ops, firstElig op [] line = some r) ∧
      (∀ b, acc = some b → r ≤ b) ∧
      (∀ op ∈ ops, ∀ q, firstElig op [] line = some q → r ≤ q) := by
  intro ops
  induction ops with
  | nil =>
    intro acc r h
    simp only [List.foldl_nil] at h
    refine ⟨Or.inl h, ?_, ?_⟩
    · intro b hb
      rw [h] at hb
      simp at hb
      omega
    · intro op hop; simp at hop
  | cons op ops ih =>
    intro acc r h
    simp only [List.foldl_cons] at h
    match hf : firstElig op [] line with
    | none =>
      rw [hf] at h
      obtain ⟨hor, hacc, hops⟩ := ih acc r h
      refine ⟨?_, hacc, ?_⟩
      · rcases hor with hor | ⟨op2, hop2, h2⟩
        · exact Or.inl hor
        · exact Or.inr ⟨op2, List.mem_cons_of_mem _ hop2, h2⟩
      · intro op2 hop2 q hq
        rcases List.mem_cons.mp hop2 with hop2 | hop2
        · subst hop2; rw [hf] at hq; exact absurd hq (by simp)
        · exact hops op2 hop2 q hq
    | some p =>
      rw [hf] at h
      match hacc : acc with
      | none =>
        dsimp only at h
        obtain ⟨hor, haccle, hops⟩ := ih (some p) r h
        have hrp : r ≤ p := haccle p rfl
        refine ⟨?_, ?_, ?_⟩
        · rcases hor with hor | ⟨op2, hop2, h2⟩
          · simp at hor
            subst hor
            exact Or.inr ⟨op, List.mem_cons_self _ _, hf⟩
          · exact Or.inr ⟨op2, List.mem_cons_of_mem _ hop2, h2⟩
        · intro b hb; simp at hb
        · intro op2 hop2 q hq
          rcases List.mem_cons.mp hop2 with hop2 | hop2
          · subst hop2
            rw [hf] at hq
            simp at hq
            subst hq
            exact hrp
          · exact hops op2 hop2 q hq
      | some b =>
        dsimp only at h
        by_cases hpb : p < b
        · rw [if_pos hpb] at h
          obtain ⟨hor, haccle, hops⟩ := ih (some p) r h
          have hrp : r ≤ p := haccle p rfl
          refine ⟨?_, ?_, ?_⟩
          · rcases hor with hor | ⟨op2, hop2, h2⟩
            · simp at hor
              subst hor
              exact Or.inr ⟨op, List.mem_cons_self _ _, hf⟩
            · exact Or.inr ⟨op2, List.mem_cons_of_mem _ hop2, h2⟩
          · intro b2 hb2
            simp at hb2
            subst hb2
            omega
          · intro op2 hop2 q hq
            rcases List.mem_cons.mp hop2 with hop2 | hop2
            · subst hop2
              rw [hf] at hq
              simp at hq
              subst hq
              exact hrp
            · exact hops op2 hop2 q hq
        · rw [if_neg hpb] at h
          obtain ⟨hor, haccle, hops⟩ := ih (some b) r h
          have hrb : r ≤ b := haccle b rfl
          refine ⟨?_, ?_, ?_⟩
          · rcases hor with hor | ⟨op2, hop2, h2⟩
            · simp at hor
              subst hor
              exact Or.inl rfl
            · exact Or.inr ⟨op2, List.mem_cons_of_mem _ hop2, h2⟩
          · intro b2 hb2
            simp at hb2
            subst hb2
            exact hrb
          · intro op2 hop2 q hq
            rcases List.mem_cons.mp hop2 with hop2 | hop2
            · subst hop2
              rw [hf] at hq
              simp at hq
              subst hq
              omega
            · exact hops op2 hop2 q hq

theorem foldBest_none (line : List Char) :
    ∀ (ops : List OpPat) (acc : Option Nat),
      ops.foldl
        (fun best op =>
          match firstElig op [] line with
          | none => best
          | some p =>
            match best with
            | none => some p
            | some b => if p < b then some p else best) acc = none →
      acc = none ∧ ∀ op ∈ ops, firstElig op [] line = none := by
  intro ops
  induction ops with
  | nil =>
    intro acc h
    simp only [List.foldl_nil] at h
    exact ⟨h, by intro op hop; simp at hop⟩
  | cons op ops ih =>
    intro acc h
    simp only [List.foldl_cons] at h
    match hf : firstElig op [] line with
    | none =>
      rw [hf] at h
      obtain ⟨hacc, hops⟩ := ih acc h
      refine ⟨hacc, ?_⟩
      intro op2 hop2
      rcases List.mem_cons.mp hop2 with hop2 | hop2
      · subst hop2; exact hf
      · exact hops op2 hop2
    | some p =>
      rw [hf] at h
      match hacc : acc with
      | none =>
        dsimp only at h
        have := (ih (some p) h).1
        simp at this
      | some b =>
        dsimp only at h
        by_cases hpb : p < b
        · rw [if_pos hpb] at h
          have := (ih (some p) h).1
          simp at this
        · rw [if_neg hpb] at h
          have := (ih (some b) h).1
          simp at this

theorem bestOpPos_some_spec (line : List Char) (p : Nat)
    (h : bestOpPos line = some p) :
    eligAt line p ∧ ∀ q, eligAt line q → p ≤ q := by
  obtain ⟨hor, _, hops⟩ := foldBest_some line _RELATION_OPS none p h
  constructor
  · rcases hor with hor | ⟨op, hop, hf⟩
    · simp at hor
    · have := firstElig_some_spec op line [] p (by simpa using hf)
      simp only [List.nil_append, List.length_nil] at this
      exact ⟨op, hop, this.2.2.1⟩
  · intro q hq
    obtain ⟨op, hop, hcond⟩ := hq
    match hfe : firstElig op [] line with
    | none =>
      have := firstElig_none_spec op line [] (by simpa using hfe) q
        (by simp)
        (by
          simp only [List.length_nil]
          have := eligAt_lt line q ⟨op, hop, hcond⟩
          omega)
      simp only [List.nil_append] at this
      rw [hcond] at this
      exact absurd this (by simp)
    | some r =>
      have hpr := hops op hop r hfe
      have hspec := firstElig_some_spec op line [] r (by simpa using hfe)
      simp only [List.nil_append, List.length_nil] at hspec
      by_cases hqr : q < r
      · have := hspec.2.2.2 q (by omega) hqr
        rw [hcond] at this
        exact absurd this (by simp)
      · omega

theorem bestOpPos_none_spec (line : List Char)
    (h : bestOpPos line = none) : ∀ q, ¬ eligAt line q := by
  intro q hq
  obtain ⟨_, hops⟩ := foldBest_none line _RELATION_OPS none h
  obtain ⟨op, hop, hcond⟩ := hq
  have := firstElig_none_spec op line [] (by simpa using hops op hop) q
    (by simp)
    (by
      simp only [List.length_nil]
      have := eligAt_lt line q ⟨op, hop, hcond⟩
      omega)
  simp only [List.nil_append] at this
  rw [hcond] at this
  exact absurd this (by simp)

theorem containsSub_single (x : Char) : ∀ l, containsSub [x] l = true ↔ x ∈ l := by
  intro l
  induction l with
  | nil => simp [containsSub, List.isPrefixOf]
  | cons c t ih =>
    simp only [containsSub, List.isPrefixOf, Bool.or_eq_true, ih,
      List.mem_cons]
    constructor
    · rintro (hp | hp)
      · left
        have : (x == c) = true := by
          cases hxc : (x == c) <;> simp [hxc] at hp ⊢
        simpa using this
      · right; exact hp
    · rintro (hp | hp)
      · subst hp; left; simp [List.isPrefixOf]
      · right; exact hp

/-- C6: a row that already contains an alignment marker is returned
unchanged; a row with no eligible relation-operator match is returned
unchanged; otherwise exactly one `&` is inserted, immediately before
the leftmost eligible match (the smallest position carrying a
relation-operator match whose preceding text is not inside braces);
and the multi-row pass applies this insertion row by row. -/
theorem C6_alignment_insertion :
    (∀ line : List Char, containsSub ['&'] line = true →
      _insert_alignment line = line) ∧
    (∀ line : List Char, containsSub ['&'] line = false →
      bestOpPos line = none →
      _insert_alignment line = line ∧ ∀ q, ¬ eligAt line q) ∧
    (∀ (line : List Char) (p : Nat), containsSub ['&'] line = false →
      bestOpPos line = some p →
      _insert_alignment line = line.take p ++ '&' :: line.drop p ∧
      eligAt line p ∧ (∀ q, eligAt line q → p ≤ q) ∧
      (line.take p ++ '&' :: line.drop p).count '&' = 1) ∧
    (∀ (latex : String), containsSub ['\\', '\\'] latex.toList = true →
      2 ≤ (splitRows latex.toList).length →
      _add_alignment_markers latex
        = String.mk (List.intercalate rowSep
            ((splitRows latex.toList).map _insert_alignment))) := by
  refine ⟨?_, ?_, ?_, ?_⟩
  · intro line h
    simp [_insert_alignment, h]
  · intro line h hb
    refine ⟨by simp [_insert_alignment, h, hb], bestOpPos_none_spec line hb⟩
  · intro line p h hb
    have hx : '&' ∉ line := by
      rw [← containsSub_single]
      simp [h]
    have hspec := bestOpPos_some_spec line p hb
    refine ⟨by simp [_insert_alignment, h, hb], hspec.1, hspec.2, ?_⟩
    have h1 : (line.take p).count '&' = 0 :=
      List.count_eq_zero.mpr (fun hm => hx (List.mem_of_mem_take hm))
    have h2 : (line.drop p).count '&' = 0 :=
      List.count_eq_zero.mpr (fun hm => hx (List.mem_of_mem_drop hm))
    simp [List.count_append, List.count_cons, h1, h2]
  · intro latex h1 h2
    unfold _add_alignment_markers
    dsimp only
    rw [if_neg (by simp; exact h1)]
    rw [if_neg (by omega)]

theorem C6_alignment_insertion_witness :
    (containsSub ['&'] ("a &= b" : String).toList = true ∧
      _insert_alignment ("a &= b" : String).toList
        = ("a &= b" : String).toList) ∧
    (containsSub ['&'] ("xyz" : String).toList = false ∧
      bestOpPos ("xyz" : String).toList = none ∧
      (_insert_alignment ("xyz" : String).toList = ("xyz" : String).toList ∧
        ∀ q, ¬ eligAt ("xyz" : String).toList q)) ∧
    (containsSub ['&'] ("m - M = 5" : String).toList = false ∧
      bestOpPos ("m - M = 5" : String).toList = some 6 ∧
      (_insert_alignment ("m - M = 5" : String).toList
          = ("m - M = 5" : String).toList.take 6
              ++ '&' :: ("m - M = 5" : String).toList.drop 6 ∧
        eligAt ("m - M = 5" : String).toList 6 ∧
        (∀ q, eligAt ("m - M = 5" : String).toList q → 6 ≤ q) ∧
        (("m - M = 5" : String).toList.take 6
            ++ '&' :: ("m - M = 5" : String).toList.drop 6).count '&' = 1)) ∧
    (containsSub ['\\', '\\'] ("a = b \\\\ c" : String).toList = true ∧
      2 ≤ (splitRows ("a = b \\\\ c" : String).toList).length ∧
      _add_alignment_markers "a = b \\\\ c"
        = String.mk (List.intercalate rowSep
            ((splitRows ("a = b \\\\ c" : String).toList).map
              _insert_alignment))) :=
  ⟨⟨by decide, C6_alignment_insertion.1 _ (by decide)⟩,
   ⟨by decide, by decide, C6_alignment_insertion.2.1 _ (by decide) (by decide)⟩,
   ⟨by decide, by decide,
     C6_alignment_insertion.2.2.1 _ 6 (by decide) (by decide)⟩,
   ⟨by decide, by decide,
     C6_alignment_insertion.2.2.2 "a = b \\\\ c" (by decide) (by decide)⟩⟩

/-! ## Claims C4 and C5: the multi-line unwrap pass -/

theorem isPySpace_not_special (c : Char) (h : isPySpace c = true) :
    c ≠ '{' ∧ c ≠ '}' ∧ c ≠ '\\' := by
  simp only [isPySpace, Bool.or_eq_true, decide_eq_true_eq] at h
  rcases h with ((((h | h) | h) | h) | h) | h <;> subst h <;> refine ⟨by decide, by decide, by decide⟩

theorem ws_stripL (l : List Char) (h : ∀ c ∈ l, isPySpace c = true) :
    stripL l = [] := by
  have h1 : lstripL l = [] := by
    simp only [lstripL, List.dropWhile_eq_nil_iff]
    intro c hc
    simp [h c hc]
  simp [stripL, h1, rstripL]

theorem strip_decomp (l : List Char) :
    l = l.takeWhile (fun c => isPySpace c) ++ stripL l
          ++ ((lstripL l).reverse.takeWhile (fun c => isPySpace c)).reverse := by
  have h1 : l = l.takeWhile (fun c => isPySpace c) ++ lstripL l :=
    (List.takeWhile_append_dropWhile _ _).symm
  have h2 : lstripL l = stripL l
      ++ ((lstripL l).reverse.takeWhile (fun c => isPySpace c)).reverse := by
    have h3 : (lstripL l).reverse
        = (lstripL l).reverse.takeWhile (fun c => isPySpace c)
          ++ (lstripL l).reverse.dropWhile (fun c => isPySpace c) :=
      (List.takeWhile_append_dropWhile _ _).symm
    have h4 : lstripL l = ((lstripL l).reverse).reverse := by simp
    conv_lhs => rw [h4, h3]
    rw [List.reverse_append]
    simp [stripL, rstripL]
  conv_lhs => rw [h1, h2]
  simp

theorem stripL_nil_ws (l : List Char) (h : stripL l = []) :
    ∀ c ∈ l, isPySpace c = true := by
  intro c hc
  have hd := strip_decomp l
  rw [h] at hd
  rw [hd] at hc
  simp only [List.append_nil, List.nil_append, List.mem_append] at hc
  rcases hc with hc | hc
  · have := List.mem_takeWhile_imp hc
    simpa using this
  · rw [List.mem_reverse] at hc
    have := List.mem_takeWhile_imp hc
    simpa using this

theorem closeGroup_of_balanced :
    ∀ (g : List Char) (d : Nat) (rest : List Char),
      scanDepthL d g = some 0 →
      closeGroup d (g ++ '}' :: rest) = some (g, rest) := by
  intro g
  induction g with
  | nil =>
    intro d rest h
    simp only [scanDepthL, Option.some.injEq] at h
    subst h
    simp [closeGroup]
  | cons c t ih =>
    intro d rest h
    rw [List.cons_append, closeGroup_cons]
    by_cases hc : c = '{'
    · subst hc
      simp only [scanDepthL, if_pos rfl] at h
      rw [if_pos rfl, ih (d + 1) rest h]
      rfl
    · by_cases hc2 : c = '}'
      · subst hc2
        match d with
        | 0 => simp [scanDepthL] at h
        | e + 1 =>
          have h2 : scanDepthL e t = some 0 := by
            simpa [scanDepthL] using h
          rw [if_neg (by decide), if_pos rfl]
          dsimp only
          rw [ih e rest h2]
          rfl
      · simp only [scanDepthL, if_neg hc, if_neg hc2] at h
        rw [if_neg hc, if_neg hc2, ih d rest h]
        rfl

theorem scanTop_no_groups :
    ∀ (last : List Char), (∀ c ∈ last, c ≠ '{') →
      scanTop last = ([], last) := by
  intro last
  induction last with
  | nil => intro _; exact scanTop_nil
  | cons c t ih =>
    intro h
    rw [scanTop_cons]
    have hc : ¬ c = '{' := h c (List.mem_cons_self _ _)
    rw [if_neg hc]
    rw [ih (fun x hx => h x (List.mem_cons_of_mem _ hx))]

/-- Rebuild the text a depth-0 walk result denotes. -/
def buildSegs (segs : List (List Char × List Char)) (last : List Char) :
    List Char :=
  match segs with
  | [] => last
  | (gap, g) :: rest => gap ++ '{' :: g ++ '}' :: buildSegs rest last

theorem scanTop_build :
    ∀ (segs : List (List Char × List Char)) (last : List Char),
      (∀ p ∈ segs, scanDepthL 0 p.2 = some 0) →
      (∀ p ∈ segs, ∀ c ∈ p.1, c ≠ '{') →
      (∀ c ∈ last, c ≠ '{') →
      scanTop (buildSegs segs last) = (segs, last) := by
  intro segs
  induction segs with
  | nil => intro last _ _ hlast; exact scanTop_no_groups last hlast
  | cons p rest ih =>
    obtain ⟨gap, g⟩ := p
    intro last hbal hws hlast
    have hg : scanDepthL 0 g = some 0 := hbal (gap, g) (List.mem_cons_self _ _)
    have htail : scanTop (buildSegs rest last) = (rest, last) :=
      ih last (fun q hq => hbal q (List.mem_cons_of_mem _ hq))
        (fun q hq => hws q (List.mem_cons_of_mem _ hq)) hlast
    have hgap : ∀ c ∈ gap, c ≠ '{' :=
      fun c hc => hws (gap, g) (List.mem_cons_self _ _) c hc
    clear hbal hws ih
    show scanTop (gap ++ '{' :: g ++ '}' :: buildSegs rest last)
        = ((gap, g) :: rest, last)
    revert hgap
    induction gap with
    | nil =>
      intro _
      rw [List.nil_append, List.cons_append, scanTop_cons]
      rw [if_pos rfl, closeGroup_of_balanced g 0 (buildSegs rest last) hg]
      dsimp only
      rw [htail]
    | cons c gt ihg =>
      intro hgap
      have hc : ¬ c = '{' := hgap c (List.mem_cons_self _ _)
      simp only [List.cons_append, List.append_assoc]
      rw [scanTop_cons]
      rw [if_neg hc]
      have hrec := ihg (fun x hx => hgap x (List.mem_cons_of_mem _ hx))
      simp only [List.cons_append, List.append_assoc] at hrec
      rw [hrec]

/-- C5: on an input that is exactly consecutive top-level brace groups
(each with balanced braces) separated by whitespace only, the unwrap
pass rewrites to backslash-joined stripped lines exactly when a group
contains a line break, or there are at least 3 groups, or there are
exactly 2 and both strip to more than 5 characters; with fewer than two
groups, or with non-whitespace text between, before or after the
groups, the input is returned unchanged. -/
theorem unwrap_if_align (cnt k : Nat) (allb : Bool) (R U : String)
    (h2 : 2 ≤ k) :
    (if 1 ≤ cnt then R
     else if 3 ≤ k then R
     else if k = 2 then (if allb = true then R else U) else U)
      = (if 1 ≤ cnt ∨ 3 ≤ k ∨ (k = 2 ∧ allb = true) then R else U) := by
  by_cases h1 : 1 ≤ cnt
  · simp [h1]
  · by_cases h3 : 3 ≤ k
    · simp [h1, h3]
    · by_cases hk : k = 2
      · by_cases hb : allb = true
        · simp [h1, h3, hk, hb]
        · simp [h1, h3, hk, hb]
      · exfalso; omega

theorem C5_unwrap_heuristic :
    (∀ (segs : List (List Char × List Char)) (last : List Char),
      (∀ p ∈ segs, scanDepthL 0 p.2 = some 0) →
      (∀ p ∈ segs, ∀ c ∈ p.1, isPySpace c = true) →
      (∀ c ∈ last, isPySpace c = true) →
      2 ≤ segs.length →
      _unwrap_multiline_groups (String.mk (buildSegs segs last))
        = (if 1 ≤ (segs.map (fun p => p.2)).countP (fun g => g.contains '\n')
              ∨ 3 ≤ segs.length
              ∨ (segs.length = 2 ∧
                  ((segs.map (fun p => p.2)).map stripL).all
                    (fun c => 5 < c.length) = true)
           then String.mk (List.intercalate rowSep
                  ((segs.map (fun p => p.2)).map stripL))
           else String.mk (buildSegs segs last))) ∧
    (∀ (segs : List (List Char × List Char)) (last : List Char),
      (∀ p ∈ segs, scanDepthL 0 p.2 = some 0) →
      (∀ p ∈ segs, ∀ c ∈ p.1, c ≠ '{') →
      (∀ c ∈ last, c ≠ '{') →
      segs.length < 2 →
      _unwrap_multiline_groups (String.mk (buildSegs segs last))
        = String.mk (buildSegs segs last)) ∧
    (∀ (segs : List (List Char × List Char)) (last : List Char),
      (∀ p ∈ segs, scanDepthL 0 p.2 = some 0) →
      (∀ p ∈ segs, ∀ c ∈ p.1, c ≠ '{') →
      (∀ c ∈ last, c ≠ '{') →
      ((∃ p ∈ segs.drop 1, stripL p.1 ≠ []) ∨
        (∃ p ∈ segs.take 1, stripL p.1 ≠ []) ∨ stripL last ≠ []) →
      _unwrap_multiline_groups (String.mk (buildSegs segs last))
        = String.mk (buildSegs segs last)) := by
  have hcore : ∀ (segs : List (List Char × List Char)) (last : List Char),
      scanTop (buildSegs segs last) = (segs, last) →
      _unwrap_multiline_groups (String.mk (buildSegs segs last))
        = (if (segs.map (fun p => p.2)).length < 2 then
             String.mk (buildSegs segs last)
           else if ((segs.drop 1).map (fun p => p.1)).any
               (fun g => stripL g ≠ []) then
             String.mk (buildSegs segs last)
           else if stripL (match segs with
                           | (gap, _) :: _ => gap
                           | [] => []) ≠ [] ∨ stripL last ≠ [] then
             String.mk (buildSegs segs last)
           else
             let groups := segs.map (fun p => p.2)
             if 1 ≤ groups.countP (fun g => g.contains '\n') then
               String.mk (List.intercalate rowSep (groups.map stripL))
             else if 3 ≤ groups.length then
               String.mk (List.intercalate rowSep (groups.map stripL))
             else if groups.length = 2 then
               if (groups.map stripL).all (fun c => 5 < c.length) then
                 String.mk (List.intercalate rowSep (groups.map stripL))
               else String.mk (buildSegs segs last)
             else String.mk (buildSegs segs last)) := by
    intro segs last hscan
    unfold _unwrap_multiline_groups
    dsimp only
    have hL : (String.mk (buildSegs segs last)).toList = buildSegs segs last :=
      rfl
    rw [hL, hscan]
  refine ⟨?_, ?_, ?_⟩
  · intro segs last hbal hws hlast h2
    have hscan := scanTop_build segs last hbal
      (fun p hp c hc => (isPySpace_not_special c (hws p hp c hc)).1)
      (fun c hc => (isPySpace_not_special c (hlast c hc)).1)
    rw [hcore segs last hscan]
    rw [if_neg (by simp only [List.length_map]; omega)]
    have hany : ((segs.drop 1).map (fun p => p.1)).any
        (fun g => stripL g ≠ []) = false := by
      rw [List.any_eq_false]
      intro g hg
      rcases List.mem_map.mp hg with ⟨p, hp, hpe⟩
      subst hpe
      have := ws_stripL p.1
        (fun c hc => hws p (List.mem_of_mem_drop hp) c hc)
      simp [this]
    rw [if_neg (by rw [hany]; simp)]
    rcases segs with _ | ⟨⟨gap0, g0⟩, segs1⟩
    · simp at h2
    · have hbefore : stripL gap0 = [] :=
        ws_stripL gap0
          (fun c hc => hws (gap0, g0) (List.mem_cons_self _ _) c hc)
      have hafter : stripL last = [] := ws_stripL last hlast
      rw [if_neg (by simp [hbefore, hafter])]
      dsimp only
      simp only [List.length_map]
      exact unwrap_if_align _ _ _ _ _ h2
  · intro segs last hbal hgaps hlast hlen
    have hscan := scanTop_build segs last hbal hgaps hlast
    rw [hcore segs last hscan]
    rw [if_pos (by simp only [List.length_map]; omega)]
  · intro segs last hbal hgaps hlast hbad
    have hscan := scanTop_build segs last hbal hgaps hlast
    rw [hcore segs last hscan]
    by_cases hlen : (segs.map (fun p => p.2)).length < 2
    · rw [if_pos hlen]
    · rw [if_neg hlen]
      by_cases hany : ((segs.drop 1).map (fun p => p.1)).any
          (fun g => stripL g ≠ []) = true
      · rw [if_pos hany]
      · have hany2 : (((segs.drop 1).map (fun p => p.1)).any
            (fun g => stripL g ≠ [])) = false := by
          revert hany
          cases ((segs.drop 1).map (fun p => p.1)).any
            (fun g => stripL g ≠ []) <;> simp
        have hba : stripL (match segs with
            | (gap, _) :: _ => gap
            | [] => []) ≠ [] ∨ stripL last ≠ [] := by
          rcases hbad with ⟨p, hp, hpne⟩ | ⟨p, hp, hpne⟩ | hlast2
          · exfalso
            apply hpne
            rw [List.any_eq_false] at hany2
            have := hany2 p.1 (List.mem_map.mpr ⟨p, hp, rfl⟩)
            simpa using this
          · left
            rcases segs with _ | ⟨⟨qg, qr⟩, srest⟩
            · simp at hp
            · have hpq : p = (qg, qr) := by simpa using hp
              subst hpq
              exact hpne
          · right; exact hlast2
        rw [if_neg hany, if_pos hba]

def c5segs : List (List Char × List Char) :=
  [([], ("line one" : String).toList), ([' '], ("line two" : String).toList)]

theorem C5_unwrap_heuristic_witness :
    ((∀ p ∈ c5segs, scanDepthL 0 p.2 = some 0) ∧
      (∀ p ∈ c5segs, ∀ c ∈ p.1, isPySpace c = true) ∧
      (∀ c ∈ ([] : List Char), isPySpace c = true) ∧
      2 ≤ c5segs.length ∧
      _unwrap_multiline_groups (String.mk (buildSegs c5segs []))
        = (if 1 ≤ (c5segs.map (fun p => p.2)).countP
                (fun g => g.contains '\n')
              ∨ 3 ≤ c5segs.length
              ∨ (c5segs.length = 2 ∧
                  ((c5segs.map (fun p => p.2)).map stripL).all
                    (fun c => 5 < c.length) = true)
           then String.mk (List.intercalate rowSep
                  ((c5segs.map (fun p => p.2)).map stripL))
           else String.mk (buildSegs c5segs []))) ∧
    _unwrap_multiline_groups
        (String.mk (buildSegs [([], ("ab" : String).toList)] []))
      = String.mk (buildSegs [([], ("ab" : String).toList)] []) :=
  ⟨⟨by decide, by decide, by decide, by decide,
    C5_unwrap_heuristic.1 c5segs [] (by decide) (by decide) (by decide)
      (by decide)⟩,
   C5_unwrap_heuristic.2.1 [([], ("ab" : String).toList)] [] (by decide)
     (by decide) (by decide) (by decide)⟩

/-! ### Brace-depth theory for the idempotence of the unwrap pass -/

theorem scanDepth_append :
    ∀ (a : List Char) (d : Nat) (b : List Char),
      scanDepthL d (a ++ b) = (scanDepthL d a).bind (fun e => scanDepthL e b) := by
  intro a
  induction a with
  | nil => intro d b; simp [scanDepthL]
  | cons c t ih =>
    intro d b
    by_cases hc : c = '{'
    · subst hc
      simp only [List.cons_append, scanDepthL, if_pos rfl]
      exact ih (d + 1) b
    · by_cases hc2 : c = '}'
      · subst hc2
        simp only [List.cons_append, scanDepthL, reduceIte]
        match d with
        | 0 => rfl
        | e + 1 => exact ih e b
      · simp only [List.cons_append, scanDepthL, if_neg hc, if_neg hc2]
        exact ih d b

theorem scanDepth_shift :
    ∀ (l : List Char) (d e k : Nat), scanDepthL d l = some e →
      scanDepthL (d + k) l = some (e + k) := by
  intro l
  induction l with
  | nil =>
    intro d e k h
    simp only [scanDepthL, Option.some.injEq] at h ⊢
    omega
  | cons c t ih =>
    intro d e k h
    by_cases hc : c = '{'
    · subst hc
      simp only [scanDepthL, if_pos rfl] at h ⊢
      have := ih (d + 1) e k h
      rw [show d + 1 + k = d + k + 1 by omega] at this
      exact this
    · by_cases hc2 : c = '}'
      · subst hc2
        simp only [scanDepthL, reduceIte] at h ⊢
        match d with
        | 0 => exact absurd h (by simp)
        | d2 + 1 =>
          dsimp only at h ⊢
          rw [show d2 + 1 + k = d2 + k + 1 by omega]
          exact ih d2 e k h
      · simp only [scanDepthL, if_neg hc, if_neg hc2] at h ⊢
        exact ih d e k h

theorem scanDepth_noBrace (l : List Char)
    (h : ∀ c ∈ l, c ≠ '{' ∧ c ≠ '}') :
    ∀ d, scanDepthL d l = some d := by
  induction l with
  | nil => intro d; rfl
  | cons c t ih =>
    intro d
    have hc := h c (List.mem_cons_self _ _)
    simp only [scanDepthL, if_neg hc.1, if_neg hc.2]
    exact ih (fun x hx => h x (List.mem_cons_of_mem _ hx)) d

theorem scanDepth_ws (l : List Char)
    (h : ∀ c ∈ l, isPySpace c = true) :
    ∀ d, scanDepthL d l = some d :=
  scanDepth_noBrace l
    (fun c hc => ⟨(isPySpace_not_special c (h c hc)).1,
      (isPySpace_not_special c (h c hc)).2.1⟩)

theorem closeGroup_balanced :
    ∀ (l : List Char) (d : Nat) (c r : List Char),
      closeGroup d l = some (c, r) → scanDepthL d c = some 0 := by
  intro l
  induction l with
  | nil => intro d c r h; simp [closeGroup] at h
  | cons x t ih =>
    intro d c r h
    rw [closeGroup_cons] at h
    by_cases hx : x = '{'
    · subst hx
      rw [if_pos rfl] at h
      match hcg : closeGroup (d + 1) t with
      | none => rw [hcg] at h; simp at h
      | some (c2, r2) =>
        rw [hcg] at h
        simp only [Option.map_some', Option.some.injEq, Prod.mk.injEq] at h
        obtain ⟨hc, hr⟩ := h
        subst hc
        simp only [scanDepthL, if_pos rfl]
        exact ih (d + 1) c2 r2 hcg
    · by_cases hx2 : x = '}'
      · subst hx2
        rw [if_neg (by decide), if_pos rfl] at h
        match d with
        | 0 =>
          dsimp only at h
          simp only [Option.some.injEq, Prod.mk.injEq] at h
          obtain ⟨hc, hr⟩ := h
          subst hc
          rfl
        | e + 1 =>
          dsimp only at h
          match hcg : closeGroup e t with
          | none => rw [hcg] at h; simp at h
          | some (c2, r2) =>
            rw [hcg] at h
            simp only [Option.map_some', Option.some.injEq, Prod.mk.injEq] at h
            obtain ⟨hc, hr⟩ := h
            subst hc
            simp only [scanDepthL, reduceIte]
            exact ih e c2 r2 hcg
      · rw [if_neg hx, if_neg hx2] at h
        match hcg : closeGroup d t with
        | none => rw [hcg] at h; simp at h
        | some (c2, r2) =>
          rw [hcg] at h
          simp only [Option.map_some', Option.some.injEq, Prod.mk.injEq] at h
          obtain ⟨hc, hr⟩ := h
          subst hc
          simp only [scanDepthL, if_neg hx, if_neg hx2]
          exact ih d c2 r2 hcg

theorem scanDepth_prefix_some (a b : List Char) (d e : Nat)
    (h : scanDepthL d (a ++ b) = some e) :
    ∃ e2, scanDepthL d a = some e2 := by
  rw [scanDepth_append] at h
  match hm : scanDepthL d a with
  | none => rw [hm] at h; simp at h
  | some e2 => exact ⟨e2, rfl⟩

theorem stripL_balanced (g : List Char) (h : scanDepthL 0 g = some 0) :
    scanDepthL 0 (stripL g) = some 0 := by
  have hd := strip_decomp g
  have hprews : ∀ c ∈ g.takeWhile (fun c => isPySpace c), isPySpace c = true := by
    intro c hc
    simpa using List.mem_takeWhile_imp hc
  have hsufws : ∀ c ∈ ((lstripL g).reverse.takeWhile
      (fun c => isPySpace c)).reverse, isPySpace c = true := by
    intro c hc
    rw [List.mem_reverse] at hc
    simpa using List.mem_takeWhile_imp hc
  rw [hd, List.append_assoc, scanDepth_append, scanDepth_ws _ hprews 0] at h
  simp only [Option.some_bind] at h
  rw [scanDepth_append] at h
  match hm : scanDepthL 0 (stripL g) with
  | none => rw [hm] at h; simp at h
  | some e =>
    rw [hm] at h
    simp only [Option.some_bind] at h
    rw [scanDepth_ws _ hsufws e] at h
    simp only [Option.some.injEq] at h
    have he : e = 0 := by omega
    rw [he]

theorem scanTop_balanced :
    ∀ (n : Nat) (l : List Char), l.length ≤ n →
      ∀ p ∈ (scanTop l).1, scanDepthL 0 p.2 = some 0 := by
  intro n
  induction n with
  | zero =>
    intro l hl p hp
    have : l = [] := List.length_eq_zero.mp (Nat.le_zero.mp hl)
    subst this
    rw [scanTop_nil] at hp
    simp at hp
  | succ n ih =>
    intro l hl p hp
    match l with
    | [] => rw [scanTop_nil] at hp; simp at hp
    | c :: t =>
      rw [scanTop_cons] at hp
      by_cases hc : c = '{'
      · rw [if_pos hc] at hp
        match hcg : closeGroup 0 t with
        | none => rw [hcg] at hp; simp at hp
        | some (g, r) =>
          rw [hcg] at hp
          have hlen := closeGroup_len 0 t g r hcg
          simp only [List.length_cons] at hl
          rcases List.mem_cons.mp hp with hp | hp
          · subst hp
            exact closeGroup_balanced t 0 g r hcg
          · exact ih r (by omega) p hp
      · rw [if_neg hc] at hp
        simp only [List.length_cons] at hl
        rcases hseg : (scanTop t).1 with _ | ⟨⟨gap, g⟩, st⟩
        · rw [hseg] at hp
          simp at hp
        · rw [hseg] at hp
          dsimp only at hp
          rcases List.mem_cons.mp hp with hp | hp
          · subst hp
            have := ih t (by omega) (gap, g)
              (by rw [hseg]; exact List.mem_cons_self _ _)
            simpa using this
          · exact ih t (by omega) p
              (by rw [hseg]; exact List.mem_cons_of_mem _ hp)

theorem scanTop_reconstruct :
    ∀ (n : Nat) (l : List Char), l.length ≤ n →
      buildSegs (scanTop l).1 (scanTop l).2 = l := by
  intro n
  induction n with
  | zero =>
    intro l hl
    have : l = [] := List.length_eq_zero.mp (Nat.le_zero.mp hl)
    subst this
    rw [scanTop_nil]
    rfl
  | succ n ih =>
    intro l hl
    match l with
    | [] =>
      rw [scanTop_nil]
      rfl
    | c :: t =>
      rw [scanTop_cons]
      simp only [List.length_cons] at hl
      by_cases hc : c = '{'
      · rw [if_pos hc]
        subst hc
        match hcg : closeGroup 0 t with
        | none => rfl
        | some (g, r) =>
          have hlen := closeGroup_len 0 t g r hcg
          have hdec := closeGroup_decomp 0 t g r hcg
          dsimp only [buildSegs]
          rw [ih r (by omega)]
          rw [List.nil_append, hdec]
          simp
      · rw [if_neg hc]
        rcases hseg : (scanTop t).1 with _ | ⟨⟨gap, g⟩, st⟩
        · dsimp only [buildSegs]
          have := ih t (by omega)
          rw [hseg] at this
          dsimp only [buildSegs] at this
          rw [this]
        · dsimp only [buildSegs]
          have := ih t (by omega)
          rw [hseg] at this
          dsimp only [buildSegs] at this
          simp only [List.cons_append, List.append_assoc] at this ⊢
          rw [this]

/-- In a text made of balanced top-level brace groups separated by
whitespace only, every occurrence of a non-whitespace, non-brace
character lies strictly inside a group: the brace depth of the text
before it is at least 1. -/
theorem build_depth_pos :
    ∀ (segs : List (List Char × List Char)) (last A B : List Char)
      (c0 : Char),
      (∀ p ∈ segs, scanDepthL 0 p.2 = some 0) →
      (∀ p ∈ segs, ∀ x ∈ p.1, isPySpace x = true) →
      (∀ x ∈ last, isPySpace x = true) →
      buildSegs segs last = A ++ c0 :: B →
      isPySpace c0 = false → c0 ≠ '{' → c0 ≠ '}' →
      ∀ e, scanDepthL 0 A = some e → 1 ≤ e := by
  intro segs
  induction segs with
  | nil =>
    intro last A B c0 _ _ hlast heq hcw _ _ e _
    exfalso
    have hc : c0 ∈ last := by
      rw [show last = A ++ c0 :: B from heq]
      simp
    rw [hlast c0 hc] at hcw
    exact absurd hcw (by decide)
  | cons p rest ih =>
    obtain ⟨gap, g⟩ := p
    intro last A B c0 hbal hws hlast heq hcw hc1 hc2 e he
    have hg : scanDepthL 0 g = some 0 := hbal (gap, g) (List.mem_cons_self _ _)
    have hgapws : ∀ x ∈ gap, isPySpace x = true :=
      fun x hx => hws (gap, g) (List.mem_cons_self _ _) x hx
    have heq2 : gap ++ ('{' :: (g ++ '}' :: buildSegs rest last))
        = A ++ c0 :: B := by
      rw [← heq]
      simp [buildSegs]
    rcases List.append_eq_append_iff.mp heq2 with ⟨w, hw1, hw2⟩ | ⟨w, hw1, hw2⟩
    · match w, hw1, hw2 with
      | [], hw1, hw2 =>
        exfalso
        rw [List.nil_append] at hw2
        injection hw2 with h1 _
        exact hc1 h1.symm
      | wc :: wt, hw1, hw2 =>
        rw [List.cons_append] at hw2
        injection hw2 with hwc1 hwc2
        subst hwc1
        rcases List.append_eq_append_iff.mp hwc2 with ⟨u, hu1, hu2⟩ | ⟨u, hu1, hu2⟩
        · match u, hu1, hu2 with
          | [], hu1, hu2 =>
            exfalso
            rw [List.nil_append] at hu2
            injection hu2 with h1 _
            exact hc2 h1.symm
          | uc :: ut, hu1, hu2 =>
            rw [List.cons_append] at hu2
            injection hu2 with huc1 huc2
            subst huc1
            have hA : A = gap ++ '{' :: (g ++ '}' :: ut) := by
              rw [hw1, hu1]
            have hdA : scanDepthL 0 A = scanDepthL 0 ut := by
              rw [hA, scanDepth_append, scanDepth_ws gap hgapws 0,
                Option.some_bind]
              simp only [scanDepthL, if_pos rfl]
              rw [scanDepth_append]
              rw [show scanDepthL 1 g = some 1 from by
                have := scanDepth_shift g 0 0 1 hg
                simpa using this]
              rw [Option.some_bind]
              simp [scanDepthL]
            rw [hdA] at he
            exact ih last ut B c0
              (fun q hq => hbal q (List.mem_cons_of_mem _ hq))
              (fun q hq => hws q (List.mem_cons_of_mem _ hq))
              hlast huc2 hcw hc1 hc2 e he
        · match u, hu1, hu2 with
          | [], hu1, hu2 =>
            exfalso
            rw [List.nil_append] at hu2
            injection hu2 with h1 _
            exact hc2 h1
          | uc :: ut, hu1, hu2 =>
            rw [List.cons_append] at hu2
            injection hu2 with huc1 _
            have hA : A = gap ++ '{' :: wt := hw1
            have hpre : ∃ e0, scanDepthL 0 wt = some e0 := by
              refine scanDepth_prefix_some wt (uc :: ut) 0 0 ?_
              rw [← hu1]
              exact hg
            obtain ⟨e0, he0⟩ := hpre
            have hdA : scanDepthL 0 A = some (e0 + 1) := by
              rw [hA, scanDepth_append, scanDepth_ws gap hgapws 0,
                Option.some_bind]
              simp only [scanDepthL, if_pos rfl]
              have := scanDepth_shift wt 0 e0 1 he0
              simpa using this
            rw [hdA] at he
            simp only [Option.some.injEq] at he
            omega
    · match w, hw1, hw2 with
      | [], hw1, hw2 =>
        exfalso
        rw [List.nil_append] at hw2
        injection hw2 with h1 _
        exact hc1 h1
      | wc :: wt, hw1, hw2 =>
        exfalso
        rw [List.cons_append] at hw2
        injection hw2 with hwc1 _
        have hmem : c0 ∈ gap := by
          rw [hw1, hwc1]
          simp
        rw [hgapws c0 hmem] at hcw
        exact absurd hcw (by decide)

theorem intercalate_cons_cons (a b : List Char) (t : List (List Char)) :
    List.intercalate rowSep (a :: b :: t)
      = a ++ rowSep ++ List.intercalate rowSep (b :: t) := by
  simp [List.intercalate, List.intersperse]

/-- The unwrap pass either returns its input unchanged or returns the
backslash-join of at least two balanced lines. -/
theorem unwrap_cases (s : String) :
    _unwrap_multiline_groups s = s ∨
    ∃ lines : List (List Char), 2 ≤ lines.length ∧
      (∀ x ∈ lines, scanDepthL 0 x = some 0) ∧
      _unwrap_multiline_groups s = String.mk (List.intercalate rowSep lines) := by
  have hlines : ∀ x ∈ (((scanTop s.toList).1.map (fun p => p.2)).map stripL),
      scanDepthL 0 x = some 0 := by
    intro x hx
    rcases List.mem_map.mp hx with ⟨g, hg, hge⟩
    rcases List.mem_map.mp hg with ⟨p, hp, hpe⟩
    subst hge
    subst hpe
    exact stripL_balanced _ (scanTop_balanced s.toList.length s.toList le_rfl p hp)
  unfold _unwrap_multiline_groups
  dsimp only
  split_ifs with h1 h2 h3 h4 h5 h6 h7
  · exact Or.inl rfl
  · exact Or.inl rfl
  · exact Or.inl rfl
  · exact Or.inr ⟨_, by simp only [List.length_map] at h1 ⊢; omega, hlines, rfl⟩
  · exact Or.inr ⟨_, by simp only [List.length_map] at h1 ⊢; omega, hlines, rfl⟩
  · exact Or.inr ⟨_, by simp only [List.length_map] at h1 ⊢; omega, hlines, rfl⟩
  · exact Or.inl rfl
  · exact Or.inl rfl

theorem joined_checks_false (lines : List (List Char))
    (h2 : 2 ≤ lines.length) (hbal : ∀ x ∈ lines, scanDepthL 0 x = some 0)
    (segs : List (List Char × List Char)) (last : List Char)
    (hscan : scanTop (List.intercalate rowSep lines) = (segs, last))
    (hlen : 2 ≤ segs.length)
    (hgapsdrop : ∀ p ∈ segs.drop 1, stripL p.1 = [])
    (hbefore : ∀ p ∈ segs.take 1, stripL p.1 = [])
    (hlast : stripL last = []) : False := by
  have hbalsegs : ∀ p ∈ segs, scanDepthL 0 p.2 = some 0 := by
    intro p hp
    refine scanTop_balanced (List.intercalate rowSep lines).length
      (List.intercalate rowSep lines) le_rfl p ?_
    rw [hscan]
    exact hp
  have hrecon : buildSegs segs last = List.intercalate rowSep lines := by
    have := scanTop_reconstruct (List.intercalate rowSep lines).length
      (List.intercalate rowSep lines) le_rfl
    rw [hscan] at this
    exact this
  have hwssegs : ∀ p ∈ segs, ∀ x ∈ p.1, isPySpace x = true := by
    rcases segs with _ | ⟨⟨gap0, g0⟩, segs1⟩
    · intro p hp; simp at hp
    · intro p hp
      rcases List.mem_cons.mp hp with hp | hp
      · subst hp
        exact stripL_nil_ws _ (hbefore (gap0, g0) (by simp))
      · exact stripL_nil_ws _ (hgapsdrop p (by simpa using hp))
  have hlastws : ∀ x ∈ last, isPySpace x = true := stripL_nil_ws _ hlast
  match lines, h2 with
  | l0 :: l1 :: ls, _ =>
    have hbal0 : scanDepthL 0 l0 = some 0 :=
      hbal l0 (List.mem_cons_self _ _)
    have hR : List.intercalate rowSep (l0 :: l1 :: ls)
        = (l0 ++ [' ']) ++ '\\' ::
            ('\\' :: '\n' :: List.intercalate rowSep (l1 :: ls)) := by
      rw [intercalate_cons_cons]
      simp [rowSep]
    have hA : scanDepthL 0 (l0 ++ [' ']) = some 0 := by
      rw [scanDepth_append, hbal0, Option.some_bind]
      exact scanDepth_ws [' '] (by decide) 0
    have := build_depth_pos segs last (l0 ++ [' '])
      ('\\' :: '\n' :: List.intercalate rowSep (l1 :: ls)) '\\'
      hbalsegs hwssegs hlastws (by rw [hrecon, hR]) (by decide) (by decide)
      (by decide) 0 hA
    omega

/-- The rewritten output of the unwrap pass is a fixed point of the
pass. -/
theorem unwrap_joined_fixed (lines : List (List Char))
    (h2 : 2 ≤ lines.length) (hbal : ∀ x ∈ lines, scanDepthL 0 x = some 0) :
    _unwrap_multiline_groups (String.mk (List.intercalate rowSep lines))
      = String.mk (List.intercalate rowSep lines) := by
  unfold _unwrap_multiline_groups
  dsimp only
  have hL : (String.mk (List.intercalate rowSep lines)).toList
      = List.intercalate rowSep lines := rfl
  rw [hL]
  by_cases hc1 : ((scanTop (List.intercalate rowSep lines)).1.map
      (fun p => p.2)).length < 2
  · rw [if_pos hc1]
  · rw [if_neg hc1]
    by_cases hc2 : (((scanTop (List.intercalate rowSep lines)).1.drop 1).map
        (fun p => p.1)).any (fun g => stripL g ≠ []) = true
    · rw [if_pos hc2]
    · rw [if_neg hc2]
      by_cases hc3 : stripL (match (scanTop (List.intercalate rowSep lines)).1 with
          | (gap, _) :: _ => gap
          | [] => []) ≠ [] ∨
          stripL (scanTop (List.intercalate rowSep lines)).2 ≠ []
      · rw [if_pos hc3]
      · exfalso
        refine joined_checks_false lines h2 hbal
          (scanTop (List.intercalate rowSep lines)).1
          (scanTop (List.intercalate rowSep lines)).2
          rfl ?_ ?_ ?_ ?_
        · simp only [List.length_map] at hc1
          omega
        · intro p hp
          have hc2f : ((((scanTop (List.intercalate rowSep lines)).1.drop 1).map
              (fun p => p.1)).any (fun g => stripL g ≠ [])) = false := by
            revert hc2
            cases (((scanTop (List.intercalate rowSep lines)).1.drop 1).map
              (fun p => p.1)).any (fun g => stripL g ≠ []) <;> simp
          rw [List.any_eq_false] at hc2f
          have := hc2f p.1 (List.mem_map.mpr ⟨p, hp, rfl⟩)
          simpa using this
        · push_neg at hc3
          intro p hp
          rcases hseg : (scanTop (List.intercalate rowSep lines)).1
            with _ | ⟨⟨qg, qr⟩, srest⟩
          · rw [hseg] at hp
            simp at hp
          · rw [hseg] at hp
            have hpq : p = (qg, qr) := by simpa using hp
            subst hpq
            have hb := hc3.1
            rw [hseg] at hb
            simpa using hb
        · push_neg at hc3
          exact hc3.2

/-- C4: the multi-line unwrap pass is idempotent. -/
theorem C4_unwrap_idempotent (s : String) :
    _unwrap_multiline_groups (_unwrap_multiline_groups s)
      = _unwrap_multiline_groups s := by
  rcases unwrap_cases s with h | ⟨lines, hlen, hbal, h⟩
  · rw [h]
    exact h
  · rw [h]
    exact unwrap_joined_fixed lines hlen hbal

/-! ## C10: `_wrap_bare_text_in_mt` leaves wrapped runs unchanged and is
idempotent

The scan toolkit below analyses occurrences of a token inside a string:
a successful `splitOnFirst` pins the first occurrence, and replaying the
split against a different continuation finds the same `before` part
(windows that could straddle the boundary are excluded because the
tokens of interest contain `'<'` only in first position).  Each `fix_mr`
replacement re-matches as exactly itself, positions where no run matched
still fail after the tail is rewritten, and idempotence follows by
induction on the scan. -/

/-! ### Occurrence toolkit for the scan-replacement proofs -/

/-- Whether `p` is a prefix of `w ++ Y` does not depend on `Y` once `w`
is at least as long as `p`. -/
theorem prefix_append_iff_of_le (p w Y : List Char)
    (h : p.length ≤ w.length) : p <+: (w ++ Y) ↔ p <+: w := by
  constructor
  · intro hp
    have h2 := List.prefix_iff_eq_take.mp hp
    rw [List.take_append_of_le_length h] at h2
    exact List.prefix_iff_eq_take.mpr h2
  · intro hp
    exact hp.trans (List.prefix_append w Y)

/-- A failed split means the pattern occurs nowhere. -/
theorem splitOnFirst_none_noOcc (p l : List Char) (hne : p ≠ [])
    (h : splitOnFirst p l = none) : ∀ i, ¬ p <+: l.drop i := by
  induction l with
  | nil =>
    intro i hp
    rw [List.drop_nil] at hp
    exact hne (List.prefix_nil.mp hp)
  | cons c t ih =>
    by_cases hpre : p.isPrefixOf (c :: t)
    · simp [splitOnFirst, hpre] at h
    · simp only [splitOnFirst, hpre, Bool.false_eq_true, if_false] at h
      intro i hp
      match hsp : splitOnFirst p t with
      | some (b', a') => rw [hsp] at h; simp at h
      | none =>
        match i with
        | 0 =>
          rw [List.drop_zero] at hp
          exact hpre (List.isPrefixOf_iff_prefix.mpr hp)
        | j + 1 =>
          rw [List.drop_succ_cons] at hp
          exact ih hsp j hp

/-- A successful split has no occurrence of the pattern starting inside
the `before` part. -/
theorem splitOnFirst_noEarly (p l b a : List Char) (_hne : p ≠ [])
    (h : splitOnFirst p l = some (b, a)) :
    ∀ i, i < b.length → ¬ p <+: l.drop i := by
  induction l generalizing b with
  | nil => simp [splitOnFirst] at h
  | cons c t ih =>
    by_cases hpre : p.isPrefixOf (c :: t)
    · simp [splitOnFirst, hpre] at h
      obtain ⟨hb, _⟩ := h
      intro i hi
      rw [hb] at hi
      simp at hi
    · simp only [splitOnFirst, hpre, Bool.false_eq_true, if_false] at h
      match hsp : splitOnFirst p t with
      | some (b', a') =>
        rw [hsp] at h
        simp at h
        obtain ⟨hb, ha⟩ := h
        subst hb
        subst ha
        intro i hi
        match i with
        | 0 =>
          rw [List.drop_zero]
          intro hp
          exact hpre (List.isPrefixOf_iff_prefix.mpr hp)
        | j + 1 =>
          rw [List.drop_succ_cons]
          simp only [List.length_cons] at hi
          exact ih b' hsp j (by omega)
      | none => rw [hsp] at h; simp at h

/-- No early occurrence pins the split of `b ++ p ++ Y` at `b`. -/
theorem splitOnFirst_build (p b Y : List Char) (hne : p ≠ [])
    (hno : ∀ i, i < b.length → ¬ p <+: (b ++ (p ++ Y)).drop i) :
    splitOnFirst p (b ++ (p ++ Y)) = some (b, Y) := by
  induction b with
  | nil =>
    obtain ⟨pc, pt, rfl⟩ := List.exists_cons_of_ne_nil hne
    have hcond : (pc :: pt).isPrefixOf (pc :: (pt ++ Y)) = true := by
      rw [List.isPrefixOf_iff_prefix]
      exact List.prefix_append (pc :: pt) Y
    simp only [List.nil_append, List.cons_append, splitOnFirst, List.append_eq]
    rw [hcond]
    simp [List.drop_append_of_le_length]
  | cons c bt ih =>
    have h0 : ¬ p <+: (c :: bt ++ (p ++ Y)) := by
      have := hno 0 (by simp)
      simpa using this
    have hcond : p.isPrefixOf (c :: (bt ++ (p ++ Y))) = false := by
      rw [Bool.eq_false_iff]
      intro hx
      exact h0 (by simpa using List.isPrefixOf_iff_prefix.mp hx)
    have hrec : splitOnFirst p (bt ++ (p ++ Y)) = some (bt, Y) := by
      apply ih
      intro i hi
      have := hno (i + 1) (by simp only [List.length_cons]; omega)
      simpa [List.cons_append, List.drop_succ_cons] using this
    simp only [List.cons_append, splitOnFirst, List.append_eq, hcond, Bool.false_eq_true,
      if_false, hrec]

/-- No-early-occurrence is independent of the text beyond the pattern. -/
theorem noEarly_transfer (p b a Y : List Char)
    (h : ∀ i, i < b.length → ¬ p <+: (b ++ (p ++ a)).drop i) :
    ∀ i, i < b.length → ¬ p <+: (b ++ (p ++ Y)).drop i := by
  intro i hi hp
  apply h i hi
  have hd1 : (b ++ (p ++ Y)).drop i = (b ++ p).drop i ++ Y := by
    rw [← List.append_assoc, List.drop_append_of_le_length (by simp; omega)]
  have hd2 : (b ++ (p ++ a)).drop i = (b ++ p).drop i ++ a := by
    rw [← List.append_assoc, List.drop_append_of_le_length (by simp; omega)]
  have hlen : p.length ≤ ((b ++ p).drop i).length := by simp; omega
  rw [hd1] at hp
  rw [hd2]
  exact (prefix_append_iff_of_le p _ a hlen).mpr ((prefix_append_iff_of_le p _ Y hlen).mp hp)

/-- Replaying a successful split with a different continuation after the
matched pattern finds the same `before` part. -/
theorem splitOnFirst_roundtrip (p l b a Y : List Char) (hne : p ≠ [])
    (h : splitOnFirst p l = some (b, a)) :
    splitOnFirst p (b ++ (p ++ Y)) = some (b, Y) := by
  have hl := splitOnFirst_eq p l b a hne h
  have hno := splitOnFirst_noEarly p l b a hne h
  rw [hl, List.append_assoc] at hno
  exact splitOnFirst_build p b Y hne (noEarly_transfer p b a Y hno)

/-- No window of `p`'s length inside `x` matches `p`. -/
def noWin (p x : List Char) : Prop :=
  ∀ i, i + p.length ≤ x.length → ¬ p <+: x.drop i

theorem noWin_of_split (p l b a : List Char) (hne : p ≠ [])
    (h : splitOnFirst p l = some (b, a)) : noWin p b := by
  intro i hi hp
  have hpl : 0 < p.length := List.length_pos.mpr hne
  apply splitOnFirst_noEarly p l b a hne h i (by omega)
  have hl := splitOnFirst_eq p l b a hne h
  rw [hl, List.append_assoc, List.drop_append_of_le_length (by omega)]
  exact (prefix_append_iff_of_le p _ _ (by simp; omega)).mpr hp

theorem noWin_of_infix (p x y : List Char) (hx : x <:+: y) (hy : noWin p y) :
    noWin p x := by
  obtain ⟨u, v, huv⟩ := hx
  intro i hi hp
  apply hy (u.length + i) (by rw [← huv]; simp; omega)
  rw [← huv, List.append_assoc]
  have hsh : (u ++ (x ++ v)).drop (u.length + i) = (x ++ v).drop i := by
    simp [List.drop_append_eq_append_drop]
  rw [hsh, List.drop_append_of_le_length (by omega)]
  exact (prefix_append_iff_of_le p _ _ (by simp; omega)).mpr hp

theorem containsSub_iff (p l : List Char) :
    containsSub p l = true ↔ ∃ i, p <+: l.drop i := by
  induction l with
  | nil =>
    simp only [containsSub, List.isPrefixOf_iff_prefix, List.drop_nil]
    constructor
    · intro h; exact ⟨0, h⟩
    · rintro ⟨i, h⟩; exact h
  | cons c t ih =>
    simp only [containsSub, Bool.or_eq_true, List.isPrefixOf_iff_prefix, ih]
    constructor
    · rintro (h | ⟨i, h⟩)
      · exact ⟨0, by simpa using h⟩
      · exact ⟨i + 1, by simpa using h⟩
    · rintro ⟨i, h⟩
      match i with
      | 0 => exact Or.inl (by simpa using h)
      | j + 1 => exact Or.inr ⟨j, by simpa using h⟩

theorem noOcc_of_containsSub_false (p x : List Char)
    (h : containsSub p x = false) : ∀ i, ¬ p <+: x.drop i := by
  intro i hp
  have ht := (containsSub_iff p x).mpr ⟨i, hp⟩
  rw [h] at ht
  exact absurd ht (by decide)

theorem noWin_of_containsSub_false (p x : List Char)
    (h : containsSub p x = false) : noWin p x :=
  fun i _ => noOcc_of_containsSub_false p x h i

/-- No occurrence of `p` starts inside an arbitrary block `x`: windows
inside `x` are excluded by `noWin`, and a straddling window would place a
non-initial character of `p` on the `'<'` that heads the continuation. -/
theorem noStart_arb (p x z : List Char)
    (honly : ∀ j, 0 < j → j < p.length → p[j]? ≠ some '<')
    (hnw : noWin p x) (hz : z[0]? = some '<') :
    ∀ i, i < x.length → ¬ p <+: (x ++ z).drop i := by
  intro i hi hp
  by_cases hcase : i + p.length ≤ x.length
  · apply hnw i hcase
    rw [List.drop_append_of_le_length (by omega)] at hp
    exact (prefix_append_iff_of_le p _ _ (by simp; omega)).mp hp
  · apply honly (x.length - i) (by omega) (by
      obtain ⟨r, hr⟩ := hp
      have := hr ▸ (by simp : ((x ++ z).drop i).length = x.length + z.length - i)
      simp only [List.length_append] at this
      have hzlen : 0 < z.length := by
        cases z with
        | nil => simp at hz
        | cons a t => simp
      omega)
    obtain ⟨r, hr⟩ := hp
    have h1 : p[x.length - i]? = (p ++ r)[x.length - i]? := by
      rw [List.getElem?_append_left]
      omega
    rw [h1, hr, List.getElem?_drop]
    have h2 : i + (x.length - i) = x.length := by omega
    rw [h2, List.getElem?_append_right (Nat.le_refl _)]
    simpa using hz

/-- Per-index mismatch certificate: from every start offset inside `L`, the
pattern `p` disagrees with `L` at some offset still inside `L`. -/
def litNoStart (p L : List Char) : Bool :=
  (List.range L.length).all fun i =>
    (List.range p.length).any fun j =>
      decide (i + j < L.length) && decide (p[j]? ≠ L[i + j]?)

theorem noStart_of_lit (p L : List Char) (hc : litNoStart p L = true) :
    ∀ z i, i < L.length → ¬ p <+: (L ++ z).drop i := by
  intro z i hi hp
  have hall := (List.all_eq_true.mp hc) i (List.mem_range.mpr hi)
  obtain ⟨j, hjmem, hj⟩ := List.any_eq_true.mp hall
  have hj' : j < p.length := List.mem_range.mp hjmem
  rw [Bool.and_eq_true, decide_eq_true_eq, decide_eq_true_eq] at hj
  obtain ⟨hjlt, hne⟩ := hj
  apply hne
  obtain ⟨r, hr⟩ := hp
  calc p[j]? = (p ++ r)[j]? := (List.getElem?_append_left hj').symm
    _ = ((L ++ z).drop i)[j]? := by rw [hr]
    _ = (L ++ z)[i + j]? := List.getElem?_drop _ _ _
    _ = L[i + j]? := List.getElem?_append_left hjlt

/-- Chain two no-start facts across an append. -/
theorem noStart_append (p x y z : List Char)
    (hx : ∀ i, i < x.length → ¬ p <+: (x ++ (y ++ z)).drop i)
    (hy : ∀ i, i < y.length → ¬ p <+: (y ++ z).drop i) :
    ∀ i, i < (x ++ y).length → ¬ p <+: ((x ++ y) ++ z).drop i := by
  intro i hi hp
  rw [List.append_assoc] at hp
  by_cases hc : i < x.length
  · exact hx i hc hp
  · have hlt : i - x.length < y.length := by
      simp only [List.length_append] at hi; omega
    have h2 : x.length + (i - x.length) = i := by omega
    have hd : (x ++ (y ++ z)).drop (x.length + (i - x.length))
        = (y ++ z).drop (i - x.length) := by
      simp [List.drop_append_eq_append_drop]
    rw [h2] at hd
    rw [hd] at hp
    exact hy (i - x.length) hlt hp

/-- A scan whose matcher fires nowhere is the identity. -/
theorem scanRepl_id (m : List Char → Option (List Char × List Char))
    (hm : ∀ l g r, m l = some (g, r) → r.length < l.length) (t : List Char)
    (h : ∀ i, m (t.drop i) = none) : scanRepl m hm t = t := by
  induction t with
  | nil =>
    rw [scanRepl_eq]
    have h0 := h 0
    rw [List.drop_zero] at h0
    simp [h0]
  | cons c t ih =>
    rw [scanRepl_eq]
    have h0 := h 0
    rw [List.drop_zero] at h0
    simp only [h0]
    rw [ih (fun i => by simpa using h (i + 1))]

/-- A single-character split pinned by non-membership. -/
theorem singleton_split_build (c : Char) (b Z : List Char) (hb : c ∉ b) :
    splitOnFirst [c] (b ++ (c :: Z)) = some (b, Z) := by
  have h := splitOnFirst_build [c] b Z (by simp) (by
    intro i hi hp
    apply hb
    obtain ⟨r, hr⟩ := hp
    have h1 : (b ++ ([c] ++ Z))[i]? = some c := by
      have h2 : ((b ++ ([c] ++ Z)).drop i)[0]? = some c := by
        rw [← hr]; simp
      rw [List.getElem?_drop] at h2
      simpa using h2
    rw [List.getElem?_append_left hi] at h1
    obtain ⟨hlt, hc⟩ := List.getElem?_eq_some_iff.mp h1
    exact hc ▸ List.getElem_mem hlt)
  simpa using h

/-- The stripped text is an infix of the original. -/
theorem stripL_within (l : List Char) : stripL l <:+: l := by
  refine ⟨l.takeWhile (fun c => isPySpace c),
    ((lstripL l).reverse.takeWhile (fun c => isPySpace c)).reverse, ?_⟩
  exact (strip_decomp l).symm

/-! Concrete certificates for the tokens of `_wrap_bare_text_in_mt`. -/

theorem mrClose_only_lt :
    ∀ j < mrCloseTok.length, 0 < j → mrCloseTok[j]? ≠ some '<' := by decide

theorem mtOpen_only_lt :
    ∀ j < "<m:t>".toList.length, 0 < j → "<m:t>".toList[j]? ≠ some '<' := by decide

theorem mtSp_only_lt :
    ∀ j < "<m:t ".toList.length, 0 < j → "<m:t ".toList[j]? ≠ some '<' := by decide

theorem lit_close_rprOpen : litNoStart mrCloseTok rprOpenTok = true := by decide

theorem lit_close_rprClose : litNoStart mrCloseTok rprCloseTok = true := by decide

theorem lit_close_mtOpen : litNoStart mrCloseTok "<m:t>".toList = true := by decide

theorem lit_close_mtClose : litNoStart mrCloseTok "</m:t>".toList = true := by decide

theorem lit_mtOpen_rprOpen : litNoStart "<m:t>".toList rprOpenTok = true := by decide

theorem lit_mtOpen_rprClose : litNoStart "<m:t>".toList rprCloseTok = true := by decide

theorem lit_mtSp_rprOpen : litNoStart "<m:t ".toList rprOpenTok = true := by decide

theorem lit_mtSp_rprClose : litNoStart "<m:t ".toList rprCloseTok = true := by decide

theorem splitOnFirst_single_not_mem (c : Char) (l b a : List Char)
    (h : splitOnFirst [c] l = some (b, a)) : c ∉ b := by
  induction l generalizing b with
  | nil => simp [splitOnFirst] at h
  | cons x t ih =>
    by_cases hpre : [c].isPrefixOf (x :: t)
    · simp [splitOnFirst, hpre] at h
      obtain ⟨hb, _⟩ := h
      rw [hb]
      simp
    · simp only [splitOnFirst, hpre, Bool.false_eq_true, if_false] at h
      match hsp : splitOnFirst [c] t with
      | some (b', a') =>
        rw [hsp] at h
        simp at h
        obtain ⟨hb, ha⟩ := h
        subst hb
        subst ha
        intro hmem
        rcases List.mem_cons.mp hmem with rfl | hm
        · exact hpre (List.isPrefixOf_iff_prefix.mpr ⟨t, rfl⟩)
        · exact ih b' hsp hm
      | none => rw [hsp] at h; simp at h

theorem splitOnFirst_single_none_not_mem (c : Char) (x : List Char)
    (h : splitOnFirst [c] x = none) : c ∉ x := by
  induction x with
  | nil => simp
  | cons d t ih =>
    by_cases hpre : [c].isPrefixOf (d :: t)
    · simp [splitOnFirst, hpre] at h
    · simp only [splitOnFirst, hpre, Bool.false_eq_true, if_false] at h
      match hsp : splitOnFirst [c] t with
      | some (b, a) => rw [hsp] at h; simp at h
      | none =>
        intro hmem
        rcases List.mem_cons.mp hmem with rfl | hm
        · exact hpre (List.isPrefixOf_iff_prefix.mpr ⟨t, rfl⟩)
        · exact ih hsp hm

theorem containsSub_eq_false (p x : List Char) (hpne : p ≠ [])
    (h : ∀ i, i < x.length → ¬ p <+: x.drop i) : containsSub p x = false := by
  rw [Bool.eq_false_iff]
  intro hc
  obtain ⟨i, hp⟩ := (containsSub_iff p x).mp hc
  by_cases hi : i < x.length
  · exact h i hi hp
  · have hle := hp.length_le
    simp only [List.length_drop] at hle
    have hpl : 0 < p.length := List.length_pos.mpr hpne
    omega

/-- Evaluate `matchRprAt` on a canonically decomposed properties block. -/
theorem matchRprAt_run (mid rest2 : List Char)
    (hhead : ∀ a t', mid = a :: t' → isWordChar a = false)
    (hsplit : splitOnFirst rprCloseTok (mid ++ (rprCloseTok ++ rest2))
      = some (mid, rest2)) :
    matchRprAt (rprOpenTok ++ (mid ++ (rprCloseTok ++ rest2)))
      = some (rprOpenTok ++ mid ++ rprCloseTok, rest2) := by
  rcases mid with _ | ⟨a, t'⟩
  · simp only [List.nil_append] at hsplit ⊢
    have hx : rprCloseTok ++ rest2
        = '<' :: ('/' :: ('m' :: (':' :: ('r' :: ('P' :: ('r' :: ('>' :: rest2))))))) := rfl
    have hpre : rprOpenTok.isPrefixOf (rprOpenTok ++ (rprCloseTok ++ rest2)) = true :=
      List.isPrefixOf_iff_prefix.mpr (List.prefix_append _ _)
    have hdrop : (rprOpenTok ++ (rprCloseTok ++ rest2)).drop 6
        = rprCloseTok ++ rest2 := rfl
    simp only [matchRprAt, hpre, if_true, hdrop]
    rw [hx] at hsplit ⊢
    simp [hsplit]
    decide
  · have ha : isWordChar a = false := hhead a t' rfl
    have hpre : rprOpenTok.isPrefixOf
        (rprOpenTok ++ (a :: t' ++ (rprCloseTok ++ rest2))) = true :=
      List.isPrefixOf_iff_prefix.mpr (List.prefix_append _ _)
    have hdrop : (rprOpenTok ++ (a :: t' ++ (rprCloseTok ++ rest2))).drop 6
        = a :: (t' ++ (rprCloseTok ++ rest2)) := rfl
    simp only [List.cons_append] at hsplit
    simp only [matchRprAt, hpre, if_true, hdrop]
    simp [ha, hsplit, List.cons_append, List.append_assoc]

/-- Evaluate `matchMr` on a canonically decomposed run. -/
theorem matchMr_run (attrs inner rest : List Char)
    (hattrs : ('>' : Char) ∉ attrs)
    (hhead : ∀ a t', attrs = a :: t' → isWordChar a = false)
    (hclose : splitOnFirst mrCloseTok (inner ++ (mrCloseTok ++ rest))
      = some (inner, rest)) :
    matchMr ("<m:r".toList ++ (attrs ++ ('>' :: (inner ++ (mrCloseTok ++ rest)))))
      = some (fix_mr ("<m:r".toList ++ attrs ++ ['>']) inner, rest) := by
  have hgt : splitOnFirst ['>'] (attrs ++ ('>' :: (inner ++ (mrCloseTok ++ rest))))
      = some (attrs, inner ++ (mrCloseTok ++ rest)) :=
    singleton_split_build '>' attrs _ hattrs
  rcases attrs with _ | ⟨a, t'⟩
  · simp only [List.nil_append] at hgt ⊢
    have hpre : "<m:r".toList.isPrefixOf
        ("<m:r".toList ++ ('>' :: (inner ++ (mrCloseTok ++ rest)))) = true :=
      List.isPrefixOf_iff_prefix.mpr (List.prefix_append _ _)
    have hdrop : ("<m:r".toList ++ ('>' :: (inner ++ (mrCloseTok ++ rest)))).drop 4
        = '>' :: (inner ++ (mrCloseTok ++ rest)) := rfl
    simp only [matchMr, hpre, if_true, hdrop]
    simp [hgt, hclose]
    decide
  · have ha : isWordChar a = false := hhead a t' rfl
    have hpre : "<m:r".toList.isPrefixOf
        ("<m:r".toList ++ (a :: t' ++ ('>' :: (inner ++ (mrCloseTok ++ rest))))) = true :=
      List.isPrefixOf_iff_prefix.mpr (List.prefix_append _ _)
    have hdrop : ("<m:r".toList ++ (a :: t' ++ ('>' :: (inner ++ (mrCloseTok ++ rest))))).drop 4
        = a :: (t' ++ ('>' :: (inner ++ (mrCloseTok ++ rest)))) := rfl
    simp only [List.cons_append] at hgt
    simp only [matchMr, hpre, if_true, hdrop]
    simp [ha, hgt, hclose, List.cons_append, List.append_assoc]

/-- Structure of a successful `matchMr`. -/
theorem matchMr_elim (l g r : List Char) (h : matchMr l = some (g, r)) :
    ∃ attrs inner,
      l = "<m:r".toList ++ (attrs ++ ('>' :: (inner ++ (mrCloseTok ++ r)))) ∧
      ('>' : Char) ∉ attrs ∧
      (∀ a t', attrs = a :: t' → isWordChar a = false) ∧
      splitOnFirst mrCloseTok (inner ++ (mrCloseTok ++ r)) = some (inner, r) ∧
      noWin mrCloseTok inner ∧
      g = fix_mr ("<m:r".toList ++ attrs ++ ['>']) inner := by
  by_cases hp : "<m:r".toList.isPrefixOf l
  · by_cases hb : (match l.drop 4 with
                   | [] => true
                   | c :: _ => !isWordChar c) = true
    · match h1 : splitOnFirst ['>'] (l.drop 4) with
      | none => simp [matchMr, hp, hb, h1] at h
      | some (attrs, afterGt) =>
        match h2 : splitOnFirst mrCloseTok afterGt with
        | none => simp [matchMr, hp, hb, h1, h2] at h
        | some (inner, rest) =>
          simp [matchMr, hp, hb, h1, h2] at h
          have hgeq : fix_mr ("<m:r".toList ++ attrs ++ ['>']) inner = g := by tauto
          have hreq : r = rest := by tauto
          subst hreq
          obtain ⟨s, hs⟩ := List.isPrefixOf_iff_prefix.mp hp
          subst hs
          have hds : ("<m:r".toList ++ s).drop 4 = s := rfl
          rw [hds] at h1 hb
          have hseq := splitOnFirst_eq ['>'] s attrs afterGt (by decide) h1
          have haeq := splitOnFirst_eq mrCloseTok afterGt inner r (by decide) h2
          refine ⟨attrs, inner, ?_, ?_, ?_, ?_, ?_, ?_⟩
          · rw [hseq, haeq]
            simp [List.append_assoc]
          · exact splitOnFirst_single_not_mem '>' s attrs afterGt h1
          · intro a t' heq
            rw [hseq, heq] at hb
            simp only [List.cons_append] at hb
            simpa using hb
          · exact splitOnFirst_roundtrip mrCloseTok afterGt inner r r (by decide) h2
          · exact noWin_of_split mrCloseTok afterGt inner r (by decide) h2
          · exact hgeq.symm
    · simp [matchMr, hp, hb] at h
  · have hp' : ¬ ((['<', 'm', ':', 'r'] : List Char) <+: l) := by
      simpa [List.isPrefixOf_iff_prefix] using hp
    simp [matchMr, hp'] at h

/-- Structure of a successful `matchRprAt`. -/
theorem matchRprAt_elim (inner rpr rest2 : List Char)
    (h : matchRprAt inner = some (rpr, rest2)) :
    ∃ mid,
      rpr = rprOpenTok ++ (mid ++ rprCloseTok) ∧
      inner = rprOpenTok ++ (mid ++ (rprCloseTok ++ rest2)) ∧
      (∀ a t', mid = a :: t' → isWordChar a = false) ∧
      splitOnFirst rprCloseTok (mid ++ (rprCloseTok ++ rest2)) = some (mid, rest2) ∧
      noWin rprCloseTok mid := by
  by_cases hp : rprOpenTok.isPrefixOf inner
  · by_cases hb : (match inner.drop 6 with
                   | [] => true
                   | c :: _ => !isWordChar c) = true
    · match h3 : splitOnFirst rprCloseTok (inner.drop 6) with
      | none => simp [matchRprAt, hp, hb, h3] at h
      | some (mid, rest) =>
        simp [matchRprAt, hp, hb, h3] at h
        have hreq : rest2 = rest := by tauto
        have hrpr : rprOpenTok ++ (mid ++ rprCloseTok) = rpr := by tauto
        subst hreq
        obtain ⟨s, hs⟩ := List.isPrefixOf_iff_prefix.mp hp
        subst hs
        have hds : (rprOpenTok ++ s).drop 6 = s := rfl
        rw [hds] at h3 hb
        have hseq := splitOnFirst_eq rprCloseTok s mid rest2 (by decide) h3
        refine ⟨mid, ?_, ?_, ?_, ?_, ?_⟩
        · exact hrpr.symm
        · rw [hseq]; simp [List.append_assoc]
        · intro a t' heq
          rw [hseq, heq] at hb
          simp only [List.cons_append] at hb
          simpa using hb
        · exact splitOnFirst_roundtrip rprCloseTok s mid rest2 rest2 (by decide) h3
        · exact noWin_of_split rprCloseTok s mid rest2 (by decide) h3
    · simp [matchRprAt, hp, hb] at h
  · have hp' : ¬ (rprOpenTok <+: inner) := by
      simpa [List.isPrefixOf_iff_prefix] using hp
    simp [matchRprAt, hp'] at h

/-- Every `fix_mr` output starts with `<m:r`. -/
theorem fix_mr_head (op inner : List Char) (hop : ∃ u, op = "<m:r".toList ++ u) :
    ∃ s, fix_mr op inner = "<m:r".toList ++ s := by
  obtain ⟨u, hu⟩ := hop
  unfold fix_mr
  by_cases hct : (containsSub "<m:t>".toList inner
      || containsSub "<m:t ".toList inner) = true
  · rw [if_pos hct, hu]
    exact ⟨u ++ (inner ++ mrCloseTok), by simp [List.append_assoc]⟩
  · rw [if_neg hct]
    have h5 : "<m:r>".toList = "<m:r".toList ++ ['>'] := by decide
    have h10 : "<m:r><m:t>".toList = "<m:r".toList ++ ('>' :: "<m:t>".toList) := by decide
    have h11 : "<m:r></m:r>".toList = "<m:r".toList ++ ('>' :: mrCloseTok) := by decide
    rcases hm : matchRprAt inner with _ | ⟨rpr, rest2⟩
    · by_cases ht : stripL inner ≠ []
      · refine ⟨'>' :: ("<m:t>".toList ++ (stripL inner ++ "</m:t></m:r>".toList)), ?_⟩
        simp only [hm]
        rw [if_pos ht, h10]
        simp [List.append_assoc]
      · refine ⟨'>' :: mrCloseTok, ?_⟩
        simp only [hm]
        rw [if_neg ht, h11]
    · by_cases ht : stripL rest2 ≠ []
      · refine ⟨'>' :: (rpr ++ ("<m:t>".toList ++ (stripL rest2 ++ "</m:t></m:r>".toList))), ?_⟩
        simp only [hm]
        rw [if_pos ht, h5]
        simp [List.append_assoc]
      · refine ⟨'>' :: (rpr ++ mrCloseTok), ?_⟩
        simp only [hm]
        rw [if_neg ht, h5]
        simp [List.append_assoc]

/-- No occurrence of `</m:r>` starts inside a synthesized `<m:t>text</m:t>`. -/
theorem noStart_mtwrap (text z : List Char) (hnw : noWin mrCloseTok text) :
    ∀ i, i < ("<m:t>".toList ++ (text ++ "</m:t>".toList)).length →
      ¬ mrCloseTok <+: (("<m:t>".toList ++ (text ++ "</m:t>".toList)) ++ z).drop i := by
  have s3 := noStart_of_lit mrCloseTok "</m:t>".toList lit_close_mtClose z
  have s2 : ∀ i, i < text.length →
      ¬ mrCloseTok <+: (text ++ ("</m:t>".toList ++ z)).drop i :=
    noStart_arb mrCloseTok text ("</m:t>".toList ++ z)
      (fun j h1 h2 => mrClose_only_lt j h2 h1) hnw (by rfl)
  have s23 := noStart_append mrCloseTok text "</m:t>".toList z s2 s3
  have s1 := noStart_of_lit mrCloseTok "<m:t>".toList lit_close_mtOpen
    ((text ++ "</m:t>".toList) ++ z)
  exact noStart_append mrCloseTok "<m:t>".toList (text ++ "</m:t>".toList) z s1 s23

/-- No occurrence of `p` starts inside a `<m:rPr…</m:rPr>` block, for a
pattern starting with `'<'` and `'<'`-free elsewhere. -/
theorem noStart_rprBlock (p mid z : List Char)
    (honly : ∀ j < p.length, 0 < j → p[j]? ≠ some '<')
    (hl1 : litNoStart p rprOpenTok = true) (hl2 : litNoStart p rprCloseTok = true)
    (hnw : noWin p mid) :
    ∀ i, i < (rprOpenTok ++ (mid ++ rprCloseTok)).length →
      ¬ p <+: ((rprOpenTok ++ (mid ++ rprCloseTok)) ++ z).drop i := by
  have s3 := noStart_of_lit p rprCloseTok hl2 z
  have s2 : ∀ i, i < mid.length →
      ¬ p <+: (mid ++ (rprCloseTok ++ z)).drop i :=
    noStart_arb p mid (rprCloseTok ++ z)
      (fun j h1 h2 => honly j h2 h1) hnw (by rfl)
  have s23 := noStart_append p mid rprCloseTok z s2 s3
  have s1 := noStart_of_lit p rprOpenTok hl1 ((mid ++ rprCloseTok) ++ z)
  exact noStart_append p rprOpenTok (mid ++ rprCloseTok) z s1 s23

theorem containsSub_rpr_false (p mid : List Char) (hpne : p ≠ [])
    (honly : ∀ j < p.length, 0 < j → p[j]? ≠ some '<')
    (hl1 : litNoStart p rprOpenTok = true) (hl2 : litNoStart p rprCloseTok = true)
    (hnw : noWin p mid) :
    containsSub p (rprOpenTok ++ (mid ++ rprCloseTok)) = false := by
  apply containsSub_eq_false p _ hpne
  intro i hi hp2
  have hx := noStart_rprBlock p mid [] honly hl1 hl2 hnw i hi
  rw [List.append_nil] at hx
  exact hx hp2

/-- Re-scanning a `fix_mr` replacement finds exactly the replacement again
and reproduces it unchanged. -/
theorem matchMr_rescan (l g r : List Char) (h : matchMr l = some (g, r))
    (Y : List Char) : matchMr (g ++ Y) = some (g, Y) := by
  obtain ⟨attrs, inner, hl, hgtmem, hhead, hclose, hnwin, hg⟩ := matchMr_elim l g r h
  have h5 : "<m:r>".toList = "<m:r".toList ++ ['>'] := by decide
  have h10 : "<m:r><m:t>".toList = "<m:r".toList ++ ('>' :: "<m:t>".toList) := by decide
  have h11 : "<m:r></m:r>".toList = "<m:r".toList ++ ('>' :: mrCloseTok) := by decide
  have h12 : "</m:t></m:r>".toList = "</m:t>".toList ++ mrCloseTok := by decide
  by_cases hct : (containsSub "<m:t>".toList inner
      || containsSub "<m:t ".toList inner) = true
  · -- the run already holds a text wrapper: the replacement is the match
    have hgA : g = fix_mr ("<m:r".toList ++ attrs ++ ['>']) inner := hg
    have hgA2 : g = ("<m:r".toList ++ attrs ++ ['>']) ++ inner ++ mrCloseTok := by
      rw [hg]; unfold fix_mr; rw [if_pos hct]
    have hcloseY := splitOnFirst_roundtrip mrCloseTok _ inner r Y (by decide) hclose
    have hrun := matchMr_run attrs inner Y hgtmem hhead hcloseY
    have hshape : g ++ Y
        = "<m:r".toList ++ (attrs ++ ('>' :: (inner ++ (mrCloseTok ++ Y)))) := by
      rw [hgA2]; simp [List.append_assoc]
    rw [hshape, hrun, ← hg]
  · have hct1 : containsSub "<m:t>".toList inner = false := by
      rcases hb1 : containsSub "<m:t>".toList inner with _ | _
      · rfl
      · exact absurd (by rw [hb1]; simp) hct
    have hct2 : containsSub "<m:t ".toList inner = false := by
      rcases hb2 : containsSub "<m:t ".toList inner with _ | _
      · rfl
      · exact absurd (by rw [hb2]; simp) hct
    rcases hm : matchRprAt inner with _ | ⟨rpr, rest2⟩
    · by_cases ht : stripL inner ≠ []
      · -- no rPr, nonempty text: g = <m:r><m:t>text</m:t></m:r>
        have hgD : g = "<m:r".toList
            ++ ('>' :: (("<m:t>".toList ++ (stripL inner ++ "</m:t>".toList))
              ++ mrCloseTok)) := by
          rw [hg]; unfold fix_mr; rw [if_neg hct]
          simp only [hm]
          rw [if_pos ht, h10, h12]
          simp [List.append_assoc]
        have hnwt : noWin mrCloseTok (stripL inner) :=
          noWin_of_infix _ _ inner (stripL_within inner) hnwin
        have hns := noStart_mtwrap (stripL inner) (mrCloseTok ++ Y) hnwt
        have hbuild := splitOnFirst_build mrCloseTok
          ("<m:t>".toList ++ (stripL inner ++ "</m:t>".toList)) Y (by decide) hns
        have hrun := matchMr_run []
          ("<m:t>".toList ++ (stripL inner ++ "</m:t>".toList)) Y (by simp)
          (fun a t' hx => List.noConfusion hx) hbuild
        have hctD : (containsSub "<m:t>".toList
            ("<m:t>".toList ++ (stripL inner ++ "</m:t>".toList))
            || containsSub "<m:t ".toList
              ("<m:t>".toList ++ (stripL inner ++ "</m:t>".toList))) = true := by
          have := (containsSub_iff "<m:t>".toList
            ("<m:t>".toList ++ (stripL inner ++ "</m:t>".toList))).mpr
            ⟨0, by rw [List.drop_zero]; exact List.prefix_append _ _⟩
          rw [this]; simp
        have hfix : fix_mr ("<m:r".toList ++ [] ++ ['>'])
            ("<m:t>".toList ++ (stripL inner ++ "</m:t>".toList)) = g := by
          unfold fix_mr
          rw [if_pos hctD, hgD]
          simp [List.append_assoc]
        have hshape : g ++ Y = "<m:r".toList ++ ([] ++ ('>' ::
            (("<m:t>".toList ++ (stripL inner ++ "</m:t>".toList))
              ++ (mrCloseTok ++ Y)))) := by
          rw [hgD]; simp [List.append_assoc]
        rw [hshape, hrun, hfix]
      · -- no rPr, empty text: g = <m:r></m:r>
        have hgE : g = "<m:r".toList ++ ('>' :: mrCloseTok) := by
          rw [hg]; unfold fix_mr; rw [if_neg hct]
          simp only [hm]
          rw [if_neg ht, h11]
        have hbuild := splitOnFirst_build mrCloseTok [] Y (by decide)
          (fun i hi => absurd hi (by simp))
        have hrun := matchMr_run [] [] Y (by simp)
          (fun a t' hx => List.noConfusion hx) (by simpa using hbuild)
        have hfix : fix_mr ("<m:r".toList ++ [] ++ ['>']) ([] : List Char) = g := by
          rw [hgE, ← h11]
          decide
        have hshape : g ++ Y = "<m:r".toList
            ++ ([] ++ ('>' :: (([] : List Char) ++ (mrCloseTok ++ Y)))) := by
          rw [hgE]; simp [List.append_assoc]
        rw [hshape, hrun, hfix]
    · -- leading rPr block
      obtain ⟨mid, hrpreq, hinner, hmidhead, hmidsplit, _⟩ :=
        matchRprAt_elim inner rpr rest2 hm
      have hmidinf : mid <:+: inner :=
        ⟨rprOpenTok, rprCloseTok ++ rest2, by rw [hinner]; simp [List.append_assoc]⟩
      have hrest2inf : rest2 <:+: inner :=
        ⟨rprOpenTok ++ (mid ++ rprCloseTok), [], by rw [hinner]; simp [List.append_assoc]⟩
      have hnwmid : noWin mrCloseTok mid := noWin_of_infix _ _ inner hmidinf hnwin
      by_cases ht : stripL rest2 ≠ []
      · -- rPr, nonempty text: g = <m:r>rpr<m:t>text</m:t></m:r>
        have hnwt : noWin mrCloseTok (stripL rest2) :=
          noWin_of_infix _ _ inner ((stripL_within rest2).trans hrest2inf) hnwin
        have hgB : g = "<m:r".toList ++ ('>' ::
            (((rprOpenTok ++ (mid ++ rprCloseTok))
              ++ ("<m:t>".toList ++ (stripL rest2 ++ "</m:t>".toList)))
              ++ mrCloseTok)) := by
          rw [hg]; unfold fix_mr; rw [if_neg hct]
          simp only [hm]
          rw [if_pos ht, h5, h12, hrpreq]
          simp [List.append_assoc]
        have hx := noStart_rprBlock mrCloseTok mid
          (("<m:t>".toList ++ (stripL rest2 ++ "</m:t>".toList)) ++ (mrCloseTok ++ Y))
          (fun j h1 h2 => mrClose_only_lt j h1 h2) lit_close_rprOpen
          lit_close_rprClose hnwmid
        have hy := noStart_mtwrap (stripL rest2) (mrCloseTok ++ Y) hnwt
        have hns := noStart_append mrCloseTok (rprOpenTok ++ (mid ++ rprCloseTok))
          ("<m:t>".toList ++ (stripL rest2 ++ "</m:t>".toList)) (mrCloseTok ++ Y) hx hy
        have hbuild := splitOnFirst_build mrCloseTok
          ((rprOpenTok ++ (mid ++ rprCloseTok))
            ++ ("<m:t>".toList ++ (stripL rest2 ++ "</m:t>".toList))) Y
          (by decide) hns
        have hrun := matchMr_run []
          ((rprOpenTok ++ (mid ++ rprCloseTok))
            ++ ("<m:t>".toList ++ (stripL rest2 ++ "</m:t>".toList))) Y (by simp)
          (fun a t' hx2 => List.noConfusion hx2) hbuild
        have hctB : (containsSub "<m:t>".toList
            ((rprOpenTok ++ (mid ++ rprCloseTok))
              ++ ("<m:t>".toList ++ (stripL rest2 ++ "</m:t>".toList)))
            || containsSub "<m:t ".toList
              ((rprOpenTok ++ (mid ++ rprCloseTok))
                ++ ("<m:t>".toList ++ (stripL rest2 ++ "</m:t>".toList)))) = true := by
          have hocc := (containsSub_iff "<m:t>".toList
            ((rprOpenTok ++ (mid ++ rprCloseTok))
              ++ ("<m:t>".toList ++ (stripL rest2 ++ "</m:t>".toList)))).mpr
            ⟨(rprOpenTok ++ (mid ++ rprCloseTok)).length, by
              rw [List.drop_left]; exact List.prefix_append _ _⟩
          rw [hocc]; simp
        have hfix : fix_mr ("<m:r".toList ++ [] ++ ['>'])
            ((rprOpenTok ++ (mid ++ rprCloseTok))
              ++ ("<m:t>".toList ++ (stripL rest2 ++ "</m:t>".toList))) = g := by
          unfold fix_mr
          rw [if_pos hctB, hgB]
          simp [List.append_assoc]
        have hshape : g ++ Y = "<m:r".toList ++ ([] ++ ('>' ::
            (((rprOpenTok ++ (mid ++ rprCloseTok))
              ++ ("<m:t>".toList ++ (stripL rest2 ++ "</m:t>".toList)))
              ++ (mrCloseTok ++ Y)))) := by
          rw [hgB]; simp [List.append_assoc]
        rw [hshape, hrun, hfix]
      · -- rPr, empty text: g = <m:r>rpr</m:r>
        have hgC : g = "<m:r".toList ++ ('>' ::
            ((rprOpenTok ++ (mid ++ rprCloseTok)) ++ mrCloseTok)) := by
          rw [hg]; unfold fix_mr; rw [if_neg hct]
          simp only [hm]
          rw [if_neg ht, h5, hrpreq]
          simp [List.append_assoc]
        have hns := noStart_rprBlock mrCloseTok mid (mrCloseTok ++ Y)
          (fun j h1 h2 => mrClose_only_lt j h1 h2) lit_close_rprOpen
          lit_close_rprClose hnwmid
        have hbuild := splitOnFirst_build mrCloseTok
          (rprOpenTok ++ (mid ++ rprCloseTok)) Y (by decide) hns
        have hrun := matchMr_run [] (rprOpenTok ++ (mid ++ rprCloseTok)) Y (by simp)
          (fun a t' hx2 => List.noConfusion hx2) hbuild
        have hnwmt1 : noWin "<m:t>".toList mid :=
          noWin_of_infix _ _ inner hmidinf
            (noWin_of_containsSub_false _ _ hct1)
        have hnwmt2 : noWin "<m:t ".toList mid :=
          noWin_of_infix _ _ inner hmidinf
            (noWin_of_containsSub_false _ _ hct2)
        have hcf1 := containsSub_rpr_false "<m:t>".toList mid (by decide)
          (fun j h1 h2 => mtOpen_only_lt j h1 h2) lit_mtOpen_rprOpen
          lit_mtOpen_rprClose hnwmt1
        have hcf2 := containsSub_rpr_false "<m:t ".toList mid (by decide)
          (fun j h1 h2 => mtSp_only_lt j h1 h2) lit_mtSp_rprOpen
          lit_mtSp_rprClose hnwmt2
        have hctC : ¬ ((containsSub "<m:t>".toList
            (rprOpenTok ++ (mid ++ rprCloseTok))
            || containsSub "<m:t ".toList
              (rprOpenTok ++ (mid ++ rprCloseTok))) = true) := by
          rw [hcf1, hcf2]; simp
        have hsplit0 := splitOnFirst_roundtrip rprCloseTok _ mid rest2 []
          (by decide) hmidsplit
        have hrprrun := matchRprAt_run mid [] hmidhead hsplit0
        have hrprrun2 : matchRprAt (rprOpenTok ++ (mid ++ rprCloseTok))
            = some (rprOpenTok ++ mid ++ rprCloseTok, []) := by
          have hsh : rprOpenTok ++ (mid ++ (rprCloseTok ++ ([] : List Char)))
              = rprOpenTok ++ (mid ++ rprCloseTok) := by simp
          rw [← hsh]; exact hrprrun
        have hfix : fix_mr ("<m:r".toList ++ [] ++ ['>'])
            (rprOpenTok ++ (mid ++ rprCloseTok)) = g := by
          unfold fix_mr
          rw [if_neg hctC]
          simp only [hrprrun2]
          rw [if_neg (by decide), hgC, h5]
          simp [List.append_assoc]
        have hshape : g ++ Y = "<m:r".toList ++ ([] ++ ('>' ::
            ((rprOpenTok ++ (mid ++ rprCloseTok)) ++ (mrCloseTok ++ Y)))) := by
          rw [hgC]; simp [List.append_assoc]
        rw [hshape, hrun, hfix]

/-- The scan preserves the first four characters of its input. -/
theorem scanRepl_take4 : ∀ n (t : List Char), t.length ≤ n → ∀ k, k ≤ 4 →
    (scanRepl matchMr matchMr_len t).take k = t.take k := by
  intro n
  induction n with
  | zero =>
    intro t ht k _
    have hnil : t = [] := List.length_eq_zero.mp (Nat.le_zero.mp ht)
    subst hnil
    rw [scanRepl_eq]
    simp [show matchMr [] = none from by decide]
  | succ n ih =>
    intro t ht k hk
    rw [scanRepl_eq]
    match hmt : matchMr t with
    | some (g, r) =>
      dsimp only
      obtain ⟨attrs, inner, hl, _, _, _, _, hg⟩ := matchMr_elim t g r hmt
      obtain ⟨s, hgs⟩ := fix_mr_head ("<m:r".toList ++ attrs ++ ['>']) inner
        ⟨attrs ++ ['>'], by simp [List.append_assoc]⟩
      have hgp : g = "<m:r".toList ++ s := hg.trans hgs
      have hlen4 : "<m:r".toList.length = 4 := by decide
      rw [hgp, List.append_assoc, List.take_append_of_le_length (by omega),
        hl, List.take_append_of_le_length (by omega)]
    | none =>
      match t with
      | [] => simp
      | c :: t' =>
        match k with
        | 0 => simp
        | k' + 1 =>
          simp only [List.take_succ_cons]
          rw [ih t' (by simp only [List.length_cons] at ht; omega) k' (by omega)]

/-- First four characters of `c ::` the rewritten tail agree with the input. -/
theorem scanRepl_take4_cons (c : Char) (t : List Char) :
    ∀ k, k ≤ 4 → (c :: scanRepl matchMr matchMr_len t).take k = (c :: t).take k := by
  intro k hk
  match k with
  | 0 => rfl
  | k' + 1 =>
    simp only [List.take_succ_cons]
    rw [scanRepl_take4 t.length t (Nat.le_refl _) k' (by omega)]

/-- `matchMr` fails when the `<m:r` prefix is absent. -/
theorem matchMr_none_of_prefix (l : List Char)
    (h : "<m:r".toList.isPrefixOf l = false) : matchMr l = none := by
  unfold matchMr
  rw [h]
  simp

/-- `matchMr` fails when a word character follows `<m:r`. -/
theorem matchMr_none_of_bOk (l : List Char)
    (h : (match l.drop 4 with
          | [] => true
          | c :: _ => !isWordChar c) = false) : matchMr l = none := by
  unfold matchMr
  by_cases hp : "<m:r".toList.isPrefixOf l
  · rw [if_pos hp]
    dsimp only
    rw [h]
    simp
  · rw [if_neg hp]

/-- A failed match at a position still fails after the tail is rewritten
(or the tail was left unchanged entirely). -/
theorem matchMr_none_transfer (c : Char) (t : List Char)
    (h : matchMr (c :: t) = none) :
    matchMr (c :: scanRepl matchMr matchMr_len t) = none
      ∨ scanRepl matchMr matchMr_len t = t := by
  have hlen4 : "<m:r".toList.length = 4 := by decide
  by_cases hp : "<m:r".toList.isPrefixOf (c :: t)
  · by_cases hb : (match (c :: t).drop 4 with
                   | [] => true
                   | c :: _ => !isWordChar c) = true
    · match h1 : splitOnFirst ['>'] ((c :: t).drop 4) with
      | some (attrs, afterGt) =>
        match h2 : splitOnFirst mrCloseTok afterGt with
        | some (inner, rest) =>
          exfalso
          unfold matchMr at h
          rw [if_pos hp] at h
          dsimp only at h
          rw [if_pos hb] at h
          rw [h1] at h
          dsimp only at h
          rw [h2] at h
          dsimp only at h
          exact Option.noConfusion h
        | none =>
          -- the close token occurs nowhere after the '>': nothing matches in `t`
          right
          apply scanRepl_id
          intro i
          cases hmi : matchMr (t.drop i) with
          | none => rfl
          | some gr =>
            exfalso
            obtain ⟨gi, ri⟩ := gr
            obtain ⟨attrs_i, inner_i, hli, _, _, _, _, _⟩ := matchMr_elim _ _ _ hmi
            have hlen3 : "m:r".toList.length = 3 := by decide
            -- a close-token occurrence inside `t.drop i` past its own '>'
            have hdropP : (t.drop i).drop
                (4 + attrs_i.length + 1 + inner_i.length)
                = mrCloseTok ++ ri := by
              rw [hli]
              have hshape : "<m:r".toList
                    ++ (attrs_i ++ '>' :: (inner_i ++ (mrCloseTok ++ ri)))
                  = (("<m:r".toList ++ attrs_i) ++ ('>' :: inner_i))
                    ++ (mrCloseTok ++ ri) := by
                simp [List.append_assoc]
              rw [hshape]
              have hplen : (("<m:r".toList ++ attrs_i) ++ ('>' :: inner_i)).length
                  = 4 + attrs_i.length + 1 + inner_i.length := by
                simp [hlen4]
                omega
              rw [← hplen, List.drop_left]
            -- the '>' of that inner match, transported into `t`
            have hgtpos : (t.drop i)[4 + attrs_i.length]? = some '>' := by
              rw [hli]
              have hshape : "<m:r".toList
                    ++ (attrs_i ++ '>' :: (inner_i ++ (mrCloseTok ++ ri)))
                  = ("<m:r".toList ++ attrs_i)
                    ++ ('>' :: (inner_i ++ (mrCloseTok ++ ri))) := by
                simp [List.append_assoc]
              rw [hshape]
              have hplen : ("<m:r".toList ++ attrs_i).length = 4 + attrs_i.length := by
                simp [hlen4]; omega
              rw [← hplen, List.getElem?_append_right (Nat.le_refl _)]
              simp
            have hgt_t : t[i + (4 + attrs_i.length)]? = some '>' := by
              rw [← List.getElem?_drop]
              exact hgtpos
            -- decompose the original scan position
            have hcons : (c :: t).drop 4 = t.drop 3 := rfl
            rw [hcons] at h1
            have hteq := splitOnFirst_eq ['>'] (t.drop 3) attrs afterGt (by decide) h1
            have hgtfree : ('>' : Char) ∉ attrs :=
              splitOnFirst_single_not_mem '>' (t.drop 3) attrs afterGt h1
            -- t itself decomposes below the '>'
            have hup : t = "m:r".toList ++ (attrs ++ (['>'] ++ afterGt)) := by
              obtain ⟨u, hu⟩ := List.isPrefixOf_iff_prefix.mp hp
              have htu : t = "m:r".toList ++ u := by
                have hd1 : ("<m:r".toList ++ u).drop 1 = "m:r".toList ++ u := rfl
                have hd2 : (c :: t).drop 1 = t := rfl
                rw [← hd2, ← hu, hd1]
              have huu : u = t.drop 3 := by
                have hcg := congrArg (List.drop 3) htu
                rw [show ("m:r".toList ++ u).drop 3 = u from rfl] at hcg
                exact hcg.symm
              rw [htu, huu, hteq]
              simp [List.append_assoc]
            -- every '>' in t sits at or past position 3 + attrs.length
            have hgt_lb : 3 + attrs.length ≤ i + (4 + attrs_i.length) := by
              by_contra hcon
              push_neg at hcon
              rw [hup] at hgt_t
              by_cases hc3 : i + (4 + attrs_i.length) < 3
              · rw [List.getElem?_append_left (by omega)] at hgt_t
                have hmem : ('>' : Char) ∈ "m:r".toList := by
                  obtain ⟨hlt, heq⟩ := List.getElem?_eq_some_iff.mp hgt_t
                  exact heq ▸ List.getElem_mem hlt
                simp at hmem
              · push_neg at hc3
                rw [List.getElem?_append_right (by omega),
                  List.getElem?_append_left (by omega)] at hgt_t
                have hmem : ('>' : Char) ∈ attrs := by
                  obtain ⟨hlt, heq⟩ := List.getElem?_eq_some_iff.mp hgt_t
                  exact heq ▸ List.getElem_mem hlt
                exact hgtfree hmem
            -- hence the close occurrence lies inside afterGt
            have hafter : t.drop (3 + (attrs.length + 1)) = afterGt := by
              have hcg := congrArg (List.drop (attrs.length + 1)) hteq
              rw [List.drop_drop] at hcg
              rw [hcg]
              have hl1 : (attrs ++ ['>']).length = attrs.length + 1 := by simp
              rw [← hl1, List.drop_left]
            have hocc : mrCloseTok <+:
                afterGt.drop (i + (4 + attrs_i.length + 1 + inner_i.length)
                  - (3 + (attrs.length + 1))) := by
              rw [← hafter, List.drop_drop]
              have harith : 3 + (attrs.length + 1)
                    + (i + (4 + attrs_i.length + 1 + inner_i.length)
                      - (3 + (attrs.length + 1)))
                  = i + (4 + attrs_i.length + 1 + inner_i.length) := by omega
              rw [harith]
              have ht2 : t.drop (i + (4 + attrs_i.length + 1 + inner_i.length))
                  = mrCloseTok ++ ri := by
                rw [← List.drop_drop]
                exact hdropP
              rw [ht2]
              exact List.prefix_append _ _
            exact absurd hocc
              (splitOnFirst_none_noOcc mrCloseTok afterGt (by decide) h2 _)
      | none =>
        -- no '>' at all after position 3: nothing matches in `t`
        right
        apply scanRepl_id
        intro i
        cases hmi : matchMr (t.drop i) with
        | none => rfl
        | some gr =>
          exfalso
          obtain ⟨gi, ri⟩ := gr
          obtain ⟨attrs_i, inner_i, hli, _, _, _, _, _⟩ := matchMr_elim _ _ _ hmi
          have hgtmem : ('>' : Char) ∈ (t.drop i).drop 4 := by
            rw [hli, show ("<m:r".toList
              ++ (attrs_i ++ '>' :: (inner_i ++ (mrCloseTok ++ ri)))).drop 4
              = attrs_i ++ '>' :: (inner_i ++ (mrCloseTok ++ ri)) from rfl]
            simp
          have hnotmem := splitOnFirst_single_none_not_mem '>' ((c :: t).drop 4) h1
          rw [show (c :: t).drop 4 = t.drop 3 from rfl] at hnotmem
          rw [List.drop_drop] at hgtmem
          have hmem3 : ('>' : Char) ∈ t.drop 3 := by
            have h34 : (t.drop 3).drop (i + 1) = t.drop (i + 4) := by
              rw [List.drop_drop]
              congr 1
              omega
            rw [← h34] at hgtmem
            exact List.mem_of_mem_drop hgtmem
          exact hnotmem hmem3
    · -- word character at offset 4: preserved by the rewrite
      left
      have hcons : (c :: t).drop 4 = t.drop 3 := rfl
      rw [hcons] at hb
      match hd : t.drop 3 with
      | [] => rw [hd] at hb; simp at hb
      | d :: tail =>
        rw [hd] at hb
        simp only [Bool.not_eq_true] at hb
        have hdw : isWordChar d = true := by
          revert hb
          cases isWordChar d <;> simp
        -- the rewritten tail keeps d at offset 3
        have ht3 : t[3]? = some d := by
          have hx := List.getElem?_drop t 3 0
          rw [hd] at hx
          simpa using hx.symm
        have hf3 : (scanRepl matchMr matchMr_len t)[3]? = some d := by
          have htk := scanRepl_take4 t.length t (Nat.le_refl _) 4 (Nat.le_refl _)
          calc (scanRepl matchMr matchMr_len t)[3]?
              = ((scanRepl matchMr matchMr_len t).take 4)[3]? :=
                (List.getElem?_take_of_lt (by omega)).symm
            _ = (t.take 4)[3]? := by rw [htk]
            _ = t[3]? := List.getElem?_take_of_lt (by omega)
            _ = some d := ht3
        have hfd : ∃ tl, (scanRepl matchMr matchMr_len t).drop 3 = d :: tl := by
          obtain ⟨hlt, heq⟩ := List.getElem?_eq_some_iff.mp hf3
          exact ⟨_, List.drop_eq_getElem_cons hlt |>.trans (by rw [heq])⟩
        obtain ⟨tl, htl⟩ := hfd
        -- prefix still holds for the rewritten string
        have hpF : "<m:r".toList.isPrefixOf
            (c :: scanRepl matchMr matchMr_len t) = true := by
          rw [List.isPrefixOf_iff_prefix, List.prefix_iff_eq_take, hlen4,
            scanRepl_take4_cons c t 4 (Nat.le_refl _), ← hlen4,
            ← List.prefix_iff_eq_take]
          exact List.isPrefixOf_iff_prefix.mp hp
        have hbF : (match (c :: scanRepl matchMr matchMr_len t).drop 4 with
                    | [] => true
                    | c :: _ => !isWordChar c) = false := by
          rw [show (c :: scanRepl matchMr matchMr_len t).drop 4
            = (scanRepl matchMr matchMr_len t).drop 3 from rfl, htl]
          simp [hdw]
        exact matchMr_none_of_bOk _ hbF
  · -- the `<m:r` prefix already fails, and the first four characters survive
    left
    have hpF : ¬ "<m:r".toList <+: (c :: scanRepl matchMr matchMr_len t) := by
      rw [List.prefix_iff_eq_take, hlen4, scanRepl_take4_cons c t 4 (Nat.le_refl _),
        ← hlen4, ← List.prefix_iff_eq_take]
      intro hx
      exact hp (List.isPrefixOf_iff_prefix.mpr hx)
    refine matchMr_none_of_prefix _ ?_
    rw [Bool.eq_false_iff]
    intro hx
    exact hpF (List.isPrefixOf_iff_prefix.mp hx)

/-- Idempotence of the bare-text-run rewrite on character lists. -/
theorem wrap_idem_list : ∀ n (x : List Char), x.length ≤ n →
    scanRepl matchMr matchMr_len (scanRepl matchMr matchMr_len x)
      = scanRepl matchMr matchMr_len x := by
  intro n
  induction n with
  | zero =>
    intro x hx
    have hnil : x = [] := List.length_eq_zero.mp (Nat.le_zero.mp hx)
    subst hnil
    have h0 : scanRepl matchMr matchMr_len [] = [] := by
      rw [scanRepl_eq]
      simp [show matchMr [] = none from by decide]
    rw [h0, h0]
  | succ n ih =>
    intro x hx
    rw [scanRepl_eq matchMr matchMr_len x]
    match hmx : matchMr x with
    | some (g, r) =>
      dsimp only
      have hres := matchMr_rescan x g r hmx (scanRepl matchMr matchMr_len r)
      rw [scanRepl_eq matchMr matchMr_len
        (g ++ scanRepl matchMr matchMr_len r), hres]
      dsimp only
      have hlr : r.length ≤ n := by
        have := matchMr_len x g r hmx
        omega
      rw [ih r hlr]
    | none =>
      match x with
      | [] =>
        dsimp only
        rw [scanRepl_eq]
        simp [show matchMr [] = none from by decide]
      | c :: t =>
        dsimp only
        have hlt : t.length ≤ n := by
          simp only [List.length_cons] at hx
          omega
        rcases matchMr_none_transfer c t hmx with hnone | hid
        · rw [scanRepl_eq matchMr matchMr_len
            (c :: scanRepl matchMr matchMr_len t), hnone]
          dsimp only
          rw [ih t hlt]
        · rw [hid]
          rw [scanRepl_eq matchMr matchMr_len (c :: t), hmx]
          dsimp only
          rw [hid]

/-- C10: the bare-text-run normalization leaves a run whose group already
contains a `<m:t>`/`<m:t ` wrapper unchanged, and the whole rewrite is
idempotent on every input string. -/
theorem C10_wrap_idempotent :
    (∀ op inner, containsSub "<m:t>".toList inner = true
        ∨ containsSub "<m:t ".toList inner = true →
      fix_mr op inner = op ++ inner ++ mrCloseTok) ∧
    ∀ xml : String,
      _wrap_bare_text_in_mt (_wrap_bare_text_in_mt xml)
        = _wrap_bare_text_in_mt xml := by
  constructor
  · intro op inner hc
    have hcnd : (containsSub "<m:t>".toList inner
        || containsSub "<m:t ".toList inner) = true := by
      rcases hc with hc | hc
      · rw [hc]; simp
      · rw [hc]; simp
    unfold fix_mr
    rw [if_pos hcnd]
  · intro xml
    unfold _wrap_bare_text_in_mt
    congr 1
    have hxl : (String.mk (scanRepl matchMr matchMr_len xml.toList)).toList
        = scanRepl matchMr matchMr_len xml.toList := rfl
    rw [hxl]
    exact wrap_idem_list xml.toList.length xml.toList (Nat.le_refl _)

theorem C10_wrap_idempotent_witness :
    fix_mr "<m:r>".toList "<m:t>x</m:t>".toList
        = "<m:r>".toList ++ "<m:t>x</m:t>".toList ++ mrCloseTok ∧
    _wrap_bare_text_in_mt (_wrap_bare_text_in_mt "<m:r>a</m:r>")
      = _wrap_bare_text_in_mt "<m:r>a</m:r>" :=
  ⟨C10_wrap_idempotent.1 "<m:r>".toList "<m:t>x</m:t>".toList (Or.inl (by decide)),
   C10_wrap_idempotent.2 "<m:r>a</m:r>"⟩

end WC2L
